import Mathlib

/-!
Shallow embedding of the AHC033 crane-yard simulator and greedy solver
from `src/ahc/ahc033/src/main.rs`, together with theorems checking the
natural-language specification against it.

Machine integers (`usize`, `u32`, `i32`) are modeled as `Nat` / `Int`
with explicit wrapping where the source relies on it (`!0` sentinels,
`usize::wrapping_add`, `as` casts).  `Vec<T>` becomes `List`, `&mut self`
methods become functions `State → ... → State` (or `Except String State`
for the fallible ones, mirroring `Result<(), String>`).
-/

/-- The `usize` modulus, `2 ^ 64`. -/
def USIZE : Nat := 2 ^ 64

/-- The `usize` value `!0` (all bits set), used by the source as a sentinel
position for bombed cranes and as "no destination". -/
def NEG1 : Nat := USIZE - 1

/-- `usize` wrapping arithmetic: `usize::wrapping_add x y` is `wrap (x + y)`. -/
def wrap (a : Nat) : Nat := a % USIZE

/-- Rust `v as i32` for a `u32` value `v` (two's-complement reinterpretation). -/
def u32_as_i32 (v : Nat) : Int :=
  if v % 2 ^ 32 < 2 ^ 31 then ((v % 2 ^ 32 : Nat) : Int) else ((v % 2 ^ 32 : Nat) : Int) - 2 ^ 32

/-- Rust `c as u32` for an `i32` value `c` (two's-complement truncation). -/
def i32_as_u32 (c : Int) : Nat := (c % (2 ^ 32 : Int)).toNat

/-- Rust `c as usize` for an `i32` value `c` (sign extension then reinterpretation). -/
def i32_as_usize (c : Int) : Nat := (c % (USIZE : Int)).toNat

/-- Rust `d as i32` for a `usize` value `d`. -/
def usize_as_i32 (d : Nat) : Int :=
  if d % 2 ^ 32 < 2 ^ 31 then ((d % 2 ^ 32 : Nat) : Int) else ((d % 2 ^ 32 : Nat) : Int) - 2 ^ 32

/-- The problem input (`struct Input`): grid size `n` and the `n × n`
container ids `a`, row `i` listing the ids entering row `i` in order. -/
structure Input where
  n : Nat
  a : List (List Nat)
deriving DecidableEq, Repr

/-- The five per-crane actions (`enum Move` in the source; `Move.Move dir`
with `dir` 0,1,2,3 = up, left, down, right). -/
inductive Move where
  | Stay
  | Pick
  | Release
  | MoveDir (dir : Nat)
  | Bomb
deriving DecidableEq, Repr

/-- Direction deltas `dx = [!0, 0, 1, 0]` from `Move::next`. -/
def mvDx : List Nat := [NEG1, 0, 1, 0]

/-- Direction deltas `dy = [0, !0, 0, 1]` from `Move::next`. -/
def mvDy : List Nat := [0, NEG1, 0, 1]

/-- `Move::next`: candidate next position of a crane at `xy` on an `n`-sized
grid, `none` when a directional move exits the grid. -/
def Move.next (mv : Move) (xy : Nat × Nat) (n : Nat) : Option (Nat × Nat) :=
  match mv with
  | .Stay | .Pick | .Release => some xy
  | .Bomb => some (NEG1, NEG1)
  | .MoveDir dir =>
    let nx := wrap (xy.1 + mvDx.getD dir 0)
    let ny := wrap (xy.2 + mvDy.getD dir 0)
    if nx < n ∧ ny < n then some (nx, ny) else none

/-- A crane (`struct Crane`): size class, position, carried container
(`-1` when empty-handed). -/
structure Crane where
  large : Bool
  x : Nat
  y : Nat
  container : Int
deriving DecidableEq, Repr

/-- `Crane::bombed`: the `x == !0` sentinel test. -/
def Crane.bombed (c : Crane) : Bool := c.x == NEG1

/-- `Crane::get_pos`. -/
def Crane.get_pos (c : Crane) : Nat × Nat := (c.x, c.y)

/-- Default crane used to totalize out-of-range `Vec` indexing (the source
only indexes in range; this value is never observable on those paths). -/
def noCrane : Crane := { large := false, x := NEG1, y := NEG1, container := -1 }

/-- `enum ContainerState`. -/
inductive ContainerState where
  | Done
  | Carrying (i : Nat)
  | Queue (i depth : Nat)
  | Board (x y : Nat)
deriving DecidableEq, Repr

/-- The aggregate simulation state (`struct State`). -/
structure State where
  queue : List (List Nat)
  done : List (List Nat)
  board : List (List Int)
  cranes : List Crane
deriving DecidableEq, Repr

/-- Total board-cell read (`self.board[x][y]`; in-range wherever the source
reads it). -/
def getCell (b : List (List Int)) (x y : Nat) : Int := (b.getD x []).getD y (-1)

/-- Total board-cell write (`self.board[x][y] = v`). -/
def setCell (b : List (List Int)) (x y : Nat) (v : Int) : List (List Int) :=
  b.set x ((b.getD x []).set y v)

/-- `State::len` (the crane count, equal to the grid size `n`). -/
def State.len (s : State) : Nat := s.cranes.length

/-- Total crane read (`self.cranes[i]`). -/
def craneAt (s : State) (i : Nat) : Crane := s.cranes.getD i noCrane

/-- `State::get_crane_pos`. -/
def State.get_crane_pos (s : State) (i : Nat) : Nat × Nat := (craneAt s i).get_pos

/-- One iteration of the `State::carry_in` loop: refill row `i`'s intake cell
from the tail of its queue when the cell is free and no container-holding
crane sits on it. -/
def carryInRow (s : State) (i : Nat) : State :=
  if getCell s.board i 0 = -1 ∧ ∀ c ∈ s.cranes, c.container = -1 ∨ (c.x, c.y) ≠ (i, 0) then
    { s with
      board := setCell s.board i 0
        (match (s.queue.getD i []).getLast? with
         | some v => u32_as_i32 v
         | none => -1),
      queue := s.queue.set i (s.queue.getD i []).dropLast }
  else s

/-- `State::carry_in`. -/
def State.carry_in (s : State) : State := (List.range s.len).foldl carryInRow s

/-- One iteration of the `State::carry_out` loop: a container sitting at
row `i`'s terminal column is appended to the row's done list. -/
def carryOutRow (n : Nat) (s : State) (i : Nat) : State :=
  let c := getCell s.board i (n - 1)
  if c ≠ -1 then
    { s with
      done := s.done.set i ((s.done.getD i []) ++ [i32_as_u32 c]),
      board := setCell s.board i (n - 1) (-1) }
  else s

/-- `State::carry_out`. -/
def State.carry_out (s : State) : State := (List.range s.len).foldl (carryOutRow s.len) s

/-- `State::new`: queues are the input rows reversed (popped from the tail),
board empty, crane `i` starts at `(i, 0)`, crane 0 is large; an initial
`carry_in` fills the intake cells. -/
def State.new (input : Input) : State :=
  let n := input.n
  let queue := input.a.map List.reverse
  let done : List (List Nat) := List.replicate n []
  let board : List (List Int) := List.replicate n (List.replicate n (-1))
  let cranes := (List.range n).map fun i =>
    ({ large := i == 0, x := i, y := 0, container := -1 } : Crane)
  State.carry_in { queue := queue, done := done, board := board, cranes := cranes }

/-- Processing of crane `i`'s move inside `State::step`: checks read the
pre-turn state `self`, updates are written to the staged copy `next`. -/
def stepCrane (self next : State) (i : Nat) (mv : Move) : Except String State :=
  let x := (craneAt self i).x
  let y := (craneAt self i).y
  let c := (craneAt self i).container
  let large := (craneAt self i).large
  let n := self.len
  match mv with
  | .Stay => .ok next
  | .Pick =>
    if (craneAt self i).bombed then
      .error ("Crane " ++ toString i ++ " has already bombed.")
    else if c ≠ -1 then
      .error ("Crane " ++ toString i ++ " holds container.")
    else if getCell self.board x y = -1 then
      .error ("No container at " ++ toString x ++ " " ++ toString y ++ ".")
    else
      .ok { next with
            cranes := next.cranes.set i { craneAt next i with container := getCell self.board x y },
            board := setCell next.board x y (-1) }
  | .Release =>
    if (craneAt self i).bombed then
      .error ("Crane " ++ toString i ++ " has already bombed.")
    else if c = -1 then
      .error ("Crane " ++ toString i ++ " does not hold a container.")
    else if getCell self.board x y ≠ -1 then
      .error ("Container already exists at " ++ toString x ++ " " ++ toString y ++ ".")
    else
      .ok { next with
            cranes := next.cranes.set i { craneAt next i with container := -1 },
            board := setCell next.board x y c }
  | .MoveDir dir =>
    if (craneAt self i).bombed then
      .error ("crane " ++ toString i ++ " has already bombed.")
    else
      match Move.next (.MoveDir dir) (x, y) n with
      | some nxy =>
        if large = false ∧ c ≠ -1 ∧ getCell self.board nxy.1 nxy.2 ≠ -1 then
          .error ("Crane " ++ toString i ++ " cannot move over a container.")
        else
          .ok { next with
                cranes := next.cranes.set i { craneAt next i with x := nxy.1, y := nxy.2 } }
      | none => .error ("Crane " ++ toString i ++ " moved out of the board.")
  | .Bomb =>
    if (craneAt self i).bombed then
      .error ("Crane " ++ toString i ++ " has already bombed.")
    else if c ≠ -1 then
      .error ("Cannot bomb crane " ++ toString i ++ " carrying a container.")
    else
      .ok { next with
            cranes := next.cranes.set i { craneAt next i with x := NEG1, y := NEG1 } }

/-- The per-crane phase of `State::step` (the first `for` loop): the staged
state `next` starts as a clone of `self` and accumulates each crane's update. -/
def stepPhase1 (self : State) (mv : List Move) : Except String State :=
  (List.range self.len).foldlM (fun next i => stepCrane self next i (mv.getD i .Stay)) self

/-- The cross-crane collision phase of `State::step` (the second `for` loop):
for every pair of cranes not bombed in the staged state, identical staged
positions or a position swap is an error. -/
def collisionCheck (self next : State) : Except String Unit :=
  (List.range self.len).foldlM
    (fun _ i =>
      if (craneAt next i).bombed then .ok ()
      else
        (List.range i).foldlM
          (fun _ j =>
            if (craneAt next j).bombed then .ok ()
            else
              let p1 := (craneAt self i).get_pos
              let p2 := (craneAt self j).get_pos
              let q1 := (craneAt next i).get_pos
              let q2 := (craneAt next j).get_pos
              if q1 = q2 ∨ (q1 = p2 ∧ q2 = p1) then
                .error ("Crane " ++ toString j ++ " and " ++ toString i ++ " collided.")
              else .ok ())
          ())
    ()

/-- `State::step`: per-crane staging, collision check, then commit followed by
the automatic carry-out and carry-in. -/
def State.step (self : State) (mv : List Move) : Except String State :=
  match stepPhase1 self mv with
  | .error e => .error e
  | .ok next =>
    match collisionCheck self next with
    | .error e => .error e
    | .ok _ => .ok (State.carry_in (State.carry_out next))

/-- Rust `step` as seen through its `&mut self` receiver: every `return Err`
happens before the `*self = next` commit, so on error the receiver is the
unchanged pre-call state. -/
def State.stepMut (self : State) (mv : List Move) : Except String Unit × State :=
  match State.step self mv with
  | .ok s2 => (.ok (), s2)
  | .error e => (.error e, self)

/-! ### Basic fold / bind infrastructure -/

theorem except_bind_ok {ε α β : Type} (a : α) (f : α → Except ε β) :
    (Except.ok a >>= f) = f a := rfl

theorem except_bind_error {ε α β : Type} (e : ε) (f : α → Except ε β) :
    ((Except.error e : Except ε α) >>= f) = .error e := rfl

theorem except_pure_ne_error {ε α : Type} (b : α) (e : ε) :
    (pure b : Except ε α) ≠ .error e := fun h => Except.noConfusion h

theorem foldlM_except_error {α β : Type} (f : β → α → Except String β) :
    ∀ (l : List α) (b : β) (e : String),
      l.foldlM f b = .error e → ∃ x ∈ l, ∃ b2, f b2 x = .error e := by
  intro l
  induction l with
  | nil => intro b e h; exact absurd h (except_pure_ne_error b e)
  | cons a l ih =>
    intro b e h
    rw [List.foldlM_cons] at h
    cases hfa : f b a with
    | error e2 =>
      rw [hfa, except_bind_error] at h
      cases h
      exact ⟨a, by simp, b, hfa⟩
    | ok b2 =>
      rw [hfa, except_bind_ok] at h
      obtain ⟨x, hxl, b3, hb3⟩ := ih b2 e h
      exact ⟨x, by simp [hxl], b3, hb3⟩

theorem foldlM_unit_ok_iff {α : Type} (check : α → Except String Unit) :
    ∀ (l : List α),
      (l.foldlM (fun _ x => check x) () = .ok ()) ↔ ∀ x ∈ l, check x = .ok () := by
  intro l
  induction l with
  | nil => simp [List.foldlM_nil]; rfl
  | cons a l ih =>
    rw [List.foldlM_cons]
    cases hfa : check a with
    | error e2 =>
      rw [except_bind_error]
      simp only [List.mem_cons]
      constructor
      · intro h; cases h
      · intro h
        have := h a (Or.inl rfl)
        rw [hfa] at this
        cases this
    | ok u =>
      cases u
      rw [except_bind_ok]
      simp only [List.mem_cons]
      constructor
      · intro h x hx
        rcases hx with rfl | hx
        · exact hfa
        · exact (ih.mp h) x hx
      · intro h
        exact ih.mpr fun x hx => h x (Or.inr hx)

theorem foldl_preserve {α β : Type} (P : β → Prop) (f : β → α → β) :
    ∀ (l : List α) (b : β), P b → (∀ b2 a, a ∈ l → P b2 → P (f b2 a)) → P (l.foldl f b) := by
  intro l
  induction l with
  | nil => intro b hb _; exact hb
  | cons a l ih =>
    intro b hb hstep
    rw [List.foldl_cons]
    exact ih (f b a) (hstep b a (by simp) hb) fun b2 x hx h => hstep b2 x (by simp [hx]) h

/-! ### Unfolding equations for `stepCrane` -/

theorem stepCrane_Stay (self next : State) (i : Nat) :
    stepCrane self next i .Stay = .ok next := rfl

theorem stepCrane_Pick (self next : State) (i : Nat) :
    stepCrane self next i .Pick =
      (if (craneAt self i).bombed then
        .error ("Crane " ++ toString i ++ " has already bombed.")
      else if (craneAt self i).container ≠ -1 then
        .error ("Crane " ++ toString i ++ " holds container.")
      else if getCell self.board (craneAt self i).x (craneAt self i).y = -1 then
        .error ("No container at " ++ toString (craneAt self i).x ++ " " ++
          toString (craneAt self i).y ++ ".")
      else
        .ok { next with
              cranes := next.cranes.set i
                { craneAt next i with
                  container := getCell self.board (craneAt self i).x (craneAt self i).y },
              board := setCell next.board (craneAt self i).x (craneAt self i).y (-1) }) := rfl

theorem stepCrane_Release (self next : State) (i : Nat) :
    stepCrane self next i .Release =
      (if (craneAt self i).bombed then
        .error ("Crane " ++ toString i ++ " has already bombed.")
      else if (craneAt self i).container = -1 then
        .error ("Crane " ++ toString i ++ " does not hold a container.")
      else if getCell self.board (craneAt self i).x (craneAt self i).y ≠ -1 then
        .error ("Container already exists at " ++ toString (craneAt self i).x ++ " " ++
          toString (craneAt self i).y ++ ".")
      else
        .ok { next with
              cranes := next.cranes.set i { craneAt next i with container := -1 },
              board := setCell next.board (craneAt self i).x (craneAt self i).y
                (craneAt self i).container }) := rfl

theorem stepCrane_MoveDir (self next : State) (i dir : Nat) :
    stepCrane self next i (.MoveDir dir) =
      (if (craneAt self i).bombed then
        .error ("crane " ++ toString i ++ " has already bombed.")
      else
        match Move.next (.MoveDir dir) ((craneAt self i).x, (craneAt self i).y) self.len with
        | some nxy =>
          if (craneAt self i).large = false ∧ (craneAt self i).container ≠ -1 ∧
              getCell self.board nxy.1 nxy.2 ≠ -1 then
            .error ("Crane " ++ toString i ++ " cannot move over a container.")
          else
            .ok { next with
                  cranes := next.cranes.set i { craneAt next i with x := nxy.1, y := nxy.2 } }
        | none => .error ("Crane " ++ toString i ++ " moved out of the board.")) := rfl

theorem stepCrane_Bomb (self next : State) (i : Nat) :
    stepCrane self next i .Bomb =
      (if (craneAt self i).bombed then
        .error ("Crane " ++ toString i ++ " has already bombed.")
      else if (craneAt self i).container ≠ -1 then
        .error ("Cannot bomb crane " ++ toString i ++ " carrying a container.")
      else
        .ok { next with
              cranes := next.cranes.set i { craneAt next i with x := NEG1, y := NEG1 } }) := rfl

/-! ### Per-crane legality (claims C5 and C10) -/

/-- Spec-side rendering of the per-crane failure conditions of section 4.1 of
the spec, used to compare the implementation against the claim. -/
def specCraneFails (s : State) (i : Nat) : Move → Prop
  | .Stay => False
  | .Pick => (craneAt s i).bombed = true ∨ (craneAt s i).container ≠ -1 ∨
      getCell s.board (craneAt s i).x (craneAt s i).y = -1
  | .Release => (craneAt s i).bombed = true ∨ (craneAt s i).container = -1 ∨
      getCell s.board (craneAt s i).x (craneAt s i).y ≠ -1
  | .MoveDir dir => (craneAt s i).bombed = true ∨
      Move.next (.MoveDir dir) ((craneAt s i).x, (craneAt s i).y) s.len = none ∨
      (∃ p, Move.next (.MoveDir dir) ((craneAt s i).x, (craneAt s i).y) s.len = some p ∧
        (craneAt s i).large = false ∧ (craneAt s i).container ≠ -1 ∧
        getCell s.board p.1 p.2 ≠ -1)
  | .Bomb => (craneAt s i).bombed = true ∨ (craneAt s i).container ≠ -1

/-- C5: within a turn, crane `i`'s move is rejected by the transition engine
exactly under the spec's per-crane failure conditions: Pick fails iff bombed,
carrying, or the cell is empty; Release fails iff bombed, not carrying, or the
cell is occupied; Move fails iff bombed, off-grid, or the destination is
occupied while the crane is carrying and not large; Bomb fails iff bombed or
carrying; Stay never fails. -/
theorem claim5_per_crane_failure_iff (self next : State) (i : Nat) (mv : Move) :
    (∃ e, stepCrane self next i mv = .error e) ↔ specCraneFails self i mv := by
  cases mv with
  | Stay =>
    rw [stepCrane_Stay]
    simp [specCraneFails]
  | Pick =>
    rw [stepCrane_Pick]
    show _ ↔ ((craneAt self i).bombed = true ∨ _ ∨ _)
    by_cases h1 : (craneAt self i).bombed
    · rw [if_pos h1]; simp [h1]
    · rw [if_neg h1]
      by_cases h2 : (craneAt self i).container ≠ -1
      · rw [if_pos h2]; simp [h1, h2]
      · rw [if_neg h2]
        by_cases h3 : getCell self.board (craneAt self i).x (craneAt self i).y = -1
        · rw [if_pos h3]; simp [h1, h2, h3]
        · rw [if_neg h3]; simp [h1, h2, h3]
  | Release =>
    rw [stepCrane_Release]
    show _ ↔ ((craneAt self i).bombed = true ∨ _ ∨ _)
    by_cases h1 : (craneAt self i).bombed
    · rw [if_pos h1]; simp [h1]
    · rw [if_neg h1]
      by_cases h2 : (craneAt self i).container = -1
      · rw [if_pos h2]; simp [h1, h2]
      · rw [if_neg h2]
        by_cases h3 : getCell self.board (craneAt self i).x (craneAt self i).y ≠ -1
        · rw [if_pos h3]; simp [h1, h2, h3]
        · rw [if_neg h3]; simp [h1, h2, h3]
  | MoveDir dir =>
    rw [stepCrane_MoveDir]
    show _ ↔ ((craneAt self i).bombed = true ∨ _ ∨ _)
    by_cases h1 : (craneAt self i).bombed
    · rw [if_pos h1]; simp [h1]
    · rw [if_neg h1]
      cases hn : Move.next (.MoveDir dir) ((craneAt self i).x, (craneAt self i).y) self.len with
      | none => simp [hn, h1]
      | some p =>
        dsimp only
        by_cases h2 : (craneAt self i).large = false ∧ (craneAt self i).container ≠ -1 ∧
            getCell self.board p.1 p.2 ≠ -1
        · rw [if_pos h2]
          simp only [h1, Bool.false_eq_true, false_or, hn]
          constructor
          · intro _
            exact Or.inr ⟨p, rfl, h2⟩
          · intro _; exact ⟨_, rfl⟩
        · rw [if_neg h2]
          simp only [h1, Bool.false_eq_true, false_or, hn]
          constructor
          · intro ⟨e, he⟩; cases he
          · intro h
            rcases h with h | ⟨q, hq, hrest⟩
            · cases h
            · cases hq; exact absurd hrest h2
  | Bomb =>
    rw [stepCrane_Bomb]
    show _ ↔ ((craneAt self i).bombed = true ∨ _)
    by_cases h1 : (craneAt self i).bombed
    · rw [if_pos h1]; simp [h1]
    · rw [if_neg h1]
      by_cases h2 : (craneAt self i).container ≠ -1
      · rw [if_pos h2]; simp [h1, h2]
      · rw [if_neg h2]; simp [h1, h2]

/-- C10: a Stay move always passes the per-crane legality check — in
particular an already-bombed crane issued Stay is not rejected; only Pick,
Release, Move and Bomb carry the already-bombed check, and for those an
already-bombed crane is rejected. -/
theorem claim10_bombed_stay_passes (self next : State) (i : Nat) :
    stepCrane self next i .Stay = .ok next ∧
    ((craneAt self i).bombed = true → ∀ mv, mv ≠ .Stay →
      ∃ e, stepCrane self next i mv = .error e) := by
  refine ⟨rfl, fun hb mv hmv => ?_⟩
  cases mv with
  | Stay => exact absurd rfl hmv
  | Pick => rw [stepCrane_Pick, if_pos hb]; exact ⟨_, rfl⟩
  | Release => rw [stepCrane_Release, if_pos hb]; exact ⟨_, rfl⟩
  | MoveDir dir => rw [stepCrane_MoveDir, if_pos hb]; exact ⟨_, rfl⟩
  | Bomb => rw [stepCrane_Bomb, if_pos hb]; exact ⟨_, rfl⟩

/-- A tiny 1-cell state whose only crane is bombed, for concrete instantiations. -/
def bombedState : State :=
  { queue := [[]], done := [[]], board := [[-1]],
    cranes := [{ large := true, x := NEG1, y := NEG1, container := -1 }] }

/-- Concrete instantiation of `claim10_bombed_stay_passes` at a bombed crane. -/
theorem claim10_witness :
    stepCrane bombedState bombedState 0 .Stay = .ok bombedState ∧
    ((craneAt bombedState 0).bombed = true → ∀ mv, mv ≠ .Stay →
      ∃ e, stepCrane bombedState bombedState 0 mv = .error e) :=
  claim10_bombed_stay_passes _ _ 0

/-! ### List access helpers -/

theorem getD_set_self {α : Type} (l : List α) (i : Nat) (v d : α) (h : i < l.length) :
    (l.set i v).getD i d = v := by
  simp [List.getD_eq_getElem?_getD, List.getElem?_set_self h]

theorem getD_set_ne {α : Type} (l : List α) (i j : Nat) (v d : α) (h : i ≠ j) :
    (l.set i v).getD j d = l.getD j d := by
  simp [List.getD_eq_getElem?_getD, List.getElem?_set_ne h]

theorem craneAt_set_self (s : State) (i : Nat) (c : Crane) (h : i < s.cranes.length) :
    craneAt { s with cranes := s.cranes.set i c } i = c := by
  show (s.cranes.set i c).getD i noCrane = c
  exact getD_set_self _ _ _ _ h

theorem craneAt_set_ne (s : State) (i j : Nat) (c : Crane) (h : i ≠ j) :
    craneAt { s with cranes := s.cranes.set i c } j = craneAt s j := by
  simp only [craneAt]
  exact getD_set_ne _ _ _ _ _ h

theorem setCell_length (b : List (List Int)) (x y : Nat) (v : Int) :
    (setCell b x y v).length = b.length := by
  simp [setCell]

theorem setCell_row_length (b : List (List Int)) (x y x2 : Nat) (v : Int) :
    ((setCell b x y v).getD x2 []).length = (b.getD x2 []).length := by
  by_cases h : x = x2
  · subst h
    by_cases hx : x < b.length
    · rw [setCell, getD_set_self _ _ _ _ hx, List.length_set]
    · rw [setCell, List.set_eq_of_length_le (Nat.le_of_not_lt hx)]
  · rw [setCell, getD_set_ne _ _ _ _ _ h]

theorem getCell_setCell_ne (b : List (List Int)) (x y x2 y2 : Nat) (v : Int)
    (h : (x, y) ≠ (x2, y2)) : getCell (setCell b x y v) x2 y2 = getCell b x2 y2 := by
  by_cases hx : x = x2
  · subst hx
    have hy : y ≠ y2 := by intro hy; exact h (by rw [hy])
    by_cases hxl : x < b.length
    · rw [getCell, setCell, getD_set_self _ _ _ _ hxl, getD_set_ne _ _ _ _ _ hy]; rfl
    · rw [getCell, setCell, List.set_eq_of_length_le (Nat.le_of_not_lt hxl)]; rfl
  · rw [getCell, setCell, getD_set_ne _ _ _ _ _ hx]; rfl

theorem getCell_setCell_self (b : List (List Int)) (x y : Nat) (v : Int)
    (hx : x < b.length) (hy : y < (b.getD x []).length) :
    getCell (setCell b x y v) x y = v := by
  rw [getCell, setCell, getD_set_self _ _ _ _ hx, getD_set_self _ _ _ _ hy]

/-! ### Generic `foldlM` preservation over `Except` -/

theorem foldlM_except_preserve {α β : Type} (P : β → Prop) (f : β → α → Except String β) :
    ∀ (l : List α) (b b' : β), l.foldlM f b = .ok b' → P b →
      (∀ b1 a b2, a ∈ l → f b1 a = .ok b2 → P b1 → P b2) → P b' := by
  intro l
  induction l with
  | nil =>
    intro b b' h hb _
    cases h
    exact hb
  | cons a l ih =>
    intro b b' h hb hstep
    rw [List.foldlM_cons] at h
    cases hfa : f b a with
    | error e2 => rw [hfa, except_bind_error] at h; cases h
    | ok b2 =>
      rw [hfa, except_bind_ok] at h
      exact ih b2 b' h (hstep b a b2 (by simp) hfa hb)
        fun b1 x b3 hx hf hp => hstep b1 x b3 (by simp [hx]) hf hp

/-! ### Structural facts about the per-crane phase -/

/-- Everything `stepCrane` leaves intact: queues, done lists, crane count,
board shape. -/
theorem stepCrane_shape (self next : State) (i : Nat) (mv : Move) (s2 : State)
    (h : stepCrane self next i mv = .ok s2) :
    s2.queue = next.queue ∧ s2.done = next.done ∧
    s2.cranes.length = next.cranes.length ∧
    s2.board.length = next.board.length ∧
    (∀ x, ((s2.board.getD x []).length = (next.board.getD x []).length)) := by
  cases mv with
  | Stay =>
    rw [stepCrane_Stay] at h
    cases h
    exact ⟨rfl, rfl, rfl, rfl, fun _ => rfl⟩
  | Pick =>
    rw [stepCrane_Pick] at h
    split_ifs at h
    cases h
    refine ⟨rfl, rfl, by simp, by simp [setCell_length], fun x => setCell_row_length _ _ _ _ _⟩
  | Release =>
    rw [stepCrane_Release] at h
    split_ifs at h
    cases h
    refine ⟨rfl, rfl, by simp, by simp [setCell_length], fun x => setCell_row_length _ _ _ _ _⟩
  | MoveDir dir =>
    rw [stepCrane_MoveDir] at h
    by_cases h1 : (craneAt self i).bombed
    · rw [if_pos h1] at h; cases h
    · rw [if_neg h1] at h
      cases hn : Move.next (.MoveDir dir) ((craneAt self i).x, (craneAt self i).y) self.len with
      | none => rw [hn] at h; cases h
      | some p =>
        rw [hn] at h
        dsimp only at h
        by_cases h2 : (craneAt self i).large = false ∧ (craneAt self i).container ≠ -1 ∧
            getCell self.board p.1 p.2 ≠ -1
        · rw [if_pos h2] at h; cases h
        · rw [if_neg h2] at h
          cases h
          exact ⟨rfl, rfl, by simp, rfl, fun _ => rfl⟩
  | Bomb =>
    rw [stepCrane_Bomb] at h
    split_ifs at h
    cases h
    exact ⟨rfl, rfl, by simp, rfl, fun _ => rfl⟩

theorem stepPhase1_shape (self : State) (mv : List Move) (next : State)
    (h : stepPhase1 self mv = .ok next) :
    next.queue = self.queue ∧ next.done = self.done ∧
    next.cranes.length = self.cranes.length ∧
    next.board.length = self.board.length ∧
    (∀ x, ((next.board.getD x []).length = (self.board.getD x []).length)) := by
  refine foldlM_except_preserve
    (fun t => t.queue = self.queue ∧ t.done = self.done ∧
      t.cranes.length = self.cranes.length ∧ t.board.length = self.board.length ∧
      (∀ x, ((t.board.getD x []).length = (self.board.getD x []).length)))
    _ _ _ _ h ⟨rfl, rfl, rfl, rfl, fun _ => rfl⟩ ?_
  intro b1 a b2 _ hf hp
  obtain ⟨q, d, c, bl, rl⟩ := stepCrane_shape self b1 a (mv.getD a .Stay) b2 hf
  exact ⟨q.trans hp.1, d.trans hp.2.1, c.trans hp.2.2.1, bl.trans hp.2.2.2.1,
    fun x => (rl x).trans (hp.2.2.2.2 x)⟩

/-! ### The collision check (used by claims C3 and C4) -/

/-- A collision between cranes `i` and `j` as tested by the second loop of
`State::step`: identical staged destinations, or a position swap. -/
def collidePair (self next : State) (i j : Nat) : Prop :=
  (craneAt next i).get_pos = (craneAt next j).get_pos ∨
  ((craneAt next i).get_pos = (craneAt self j).get_pos ∧
   (craneAt next j).get_pos = (craneAt self i).get_pos)

instance (self next : State) (i j : Nat) : Decidable (collidePair self next i j) := by
  unfold collidePair; infer_instance

theorem bool_eq_false {b : Bool} (h : ¬ b = true) : b = false := by
  cases b
  · rfl
  · exact absurd rfl h

theorem collisionCheck_ok_iff (self next : State) :
    collisionCheck self next = .ok () ↔
    ∀ i < self.len, ∀ j < i,
      (craneAt next i).bombed = false → (craneAt next j).bombed = false →
      ¬ collidePair self next i j := by
  unfold collisionCheck
  rw [foldlM_unit_ok_iff]
  constructor
  · intro h i hi j hj hbi hbj hc
    have hmem := h i (List.mem_range.mpr hi)
    rw [if_neg (by rw [hbi]; exact Bool.false_ne_true)] at hmem
    rw [foldlM_unit_ok_iff] at hmem
    have hj2 := hmem j (List.mem_range.mpr hj)
    rw [if_neg (by rw [hbj]; exact Bool.false_ne_true)] at hj2
    dsimp only at hj2
    unfold collidePair at hc
    rw [if_pos hc] at hj2
    cases hj2
  · intro h i hi
    by_cases hbi : (craneAt next i).bombed
    · rw [if_pos hbi]
    · rw [if_neg hbi]
      rw [foldlM_unit_ok_iff]
      intro j hj
      by_cases hbj : (craneAt next j).bombed
      · rw [if_pos hbj]
      · rw [if_neg hbj]
        dsimp only
        have hnc := h i (List.mem_range.mp hi) j (List.mem_range.mp hj)
          (bool_eq_false hbi) (bool_eq_false hbj)
        unfold collidePair at hnc
        rw [if_neg hnc]

theorem collisionCheck_error_form (self next : State) (e : String)
    (h : collisionCheck self next = .error e) :
    ∃ i < self.len, ∃ j < i,
      e = "Crane " ++ toString j ++ " and " ++ toString i ++ " collided." := by
  unfold collisionCheck at h
  obtain ⟨i, hi, u, hu⟩ := foldlM_except_error _ _ _ _ h
  by_cases hbi : (craneAt next i).bombed
  · rw [if_pos hbi] at hu; cases hu
  · rw [if_neg hbi] at hu
    obtain ⟨j, hj, u2, hu2⟩ := foldlM_except_error _ _ _ _ hu
    by_cases hbj : (craneAt next j).bombed
    · rw [if_pos hbj] at hu2; cases hu2
    · rw [if_neg hbj] at hu2
      dsimp only at hu2
      by_cases hc : collidePair self next i j
      · unfold collidePair at hc
        rw [if_pos hc] at hu2
        cases hu2
        exact ⟨i, List.mem_range.mp hi, j, List.mem_range.mp hj, rfl⟩
      · unfold collidePair at hc
        rw [if_neg hc] at hu2
        cases hu2

/-! ### Error messages of the transition engine (claim C3) -/

theorem stepCrane_error_forms (self next : State) (i : Nat) (mv : Move) (e : String)
    (h : stepCrane self next i mv = .error e) :
    e = "Crane " ++ toString i ++ " has already bombed." ∨
    e = "crane " ++ toString i ++ " has already bombed." ∨
    e = "Crane " ++ toString i ++ " holds container." ∨
    e = "Crane " ++ toString i ++ " does not hold a container." ∨
    e = "Crane " ++ toString i ++ " moved out of the board." ∨
    e = "Crane " ++ toString i ++ " cannot move over a container." ∨
    e = "Cannot bomb crane " ++ toString i ++ " carrying a container." ∨
    e = "No container at " ++ toString (craneAt self i).x ++ " " ++
      toString (craneAt self i).y ++ "." ∨
    e = "Container already exists at " ++ toString (craneAt self i).x ++ " " ++
      toString (craneAt self i).y ++ "." := by
  cases mv with
  | Stay => cases h
  | Pick =>
    rw [stepCrane_Pick] at h
    split_ifs at h <;> cases h <;> tauto
  | Release =>
    rw [stepCrane_Release] at h
    split_ifs at h <;> cases h <;> tauto
  | MoveDir dir =>
    rw [stepCrane_MoveDir] at h
    by_cases h1 : (craneAt self i).bombed
    · rw [if_pos h1] at h; cases h; tauto
    · rw [if_neg h1] at h
      cases hn : Move.next (.MoveDir dir) ((craneAt self i).x, (craneAt self i).y) self.len with
      | none => rw [hn] at h; cases h; tauto
      | some p =>
        rw [hn] at h
        dsimp only at h
        by_cases h2 : (craneAt self i).large = false ∧ (craneAt self i).container ≠ -1 ∧
            getCell self.board p.1 p.2 ≠ -1
        · rw [if_pos h2] at h; cases h; tauto
        · rw [if_neg h2] at h; cases h
  | Bomb =>
    rw [stepCrane_Bomb] at h
    split_ifs at h <;> cases h <;> tauto

/-- The step error messages that name a crane index `i` (for an `n`-crane
state; the collision message names two cranes). -/
def craneNamedErrors (i n : Nat) : List String :=
  ["Crane " ++ toString i ++ " has already bombed.",
   "crane " ++ toString i ++ " has already bombed.",
   "Crane " ++ toString i ++ " holds container.",
   "Crane " ++ toString i ++ " does not hold a container.",
   "Crane " ++ toString i ++ " moved out of the board.",
   "Crane " ++ toString i ++ " cannot move over a container.",
   "Cannot bomb crane " ++ toString i ++ " carrying a container."] ++
  (List.range n).map (fun j => "Crane " ++ toString j ++ " and " ++ toString i ++ " collided.") ++
  (List.range n).map (fun j => "Crane " ++ toString i ++ " and " ++ toString j ++ " collided.")

/-- The step error messages that name the offending cell (crane `i`'s
position) but not the crane itself. -/
def cellNamedErrors (s : State) (i : Nat) : List String :=
  ["No container at " ++ toString (craneAt s i).x ++ " " ++
     toString (craneAt s i).y ++ ".",
   "Container already exists at " ++ toString (craneAt s i).x ++ " " ++
     toString (craneAt s i).y ++ "."]

/-- A 1-crane state with an empty 1-cell board (crane at the origin). -/
def oneCraneEmpty : State :=
  { queue := [[]], done := [[]], board := [[-1]],
    cranes := [{ large := true, x := 0, y := 0, container := -1 }] }

/-- The 2-by-2 example input used for concrete instantiations. -/
def input2 : Input := { n := 2, a := [[0, 1], [2, 3]] }

/-- C3 (counterexample to the claim as stated): a failing Pick on an empty
cell produces the diagnostic "No container at 0 0.", which does not identify
the offending crane — it is not among the crane-naming messages of any crane
index of the state. -/
theorem claim3_counterexample :
    (oneCraneEmpty.stepMut [Move.Pick]).1 = .error "No container at 0 0." ∧
    ∀ i < oneCraneEmpty.len,
      "No container at 0 0." ∉ craneNamedErrors i oneCraneEmpty.len := by
  constructor
  · rfl
  · decide

/-- C3 (amended): when `step` fails, the `&mut self` receiver is left exactly
as it was (the turn is all-or-nothing), and the error message is one of the
distinct diagnostics, each of which names the offending crane(s) or — for
pick-from-empty-cell and release-onto-occupied-cell — the offending cell. -/
theorem claim3_atomic_error (s : State) (mv : List Move) (e : String)
    (h : (s.stepMut mv).1 = .error e) :
    (s.stepMut mv).2 = s ∧
    ∃ i < s.len, e ∈ craneNamedErrors i s.len ∨ e ∈ cellNamedErrors s i := by
  have hstep : s.step mv = .error e := by
    unfold State.stepMut at h
    cases hs : s.step mv with
    | ok s2 => rw [hs] at h; cases h
    | error e2 => rw [hs] at h; cases h; rfl
  have hsnd : (s.stepMut mv).2 = s := by
    unfold State.stepMut
    rw [hstep]
  refine ⟨hsnd, ?_⟩
  unfold State.step at hstep
  cases hp : stepPhase1 s mv with
  | error e2 =>
    rw [hp] at hstep
    cases hstep
    obtain ⟨i, hi, b, hb⟩ := foldlM_except_error _ _ _ e hp
    refine ⟨i, List.mem_range.mp hi, ?_⟩
    rcases stepCrane_error_forms s b i (mv.getD i .Stay) e hb with
      hf | hf | hf | hf | hf | hf | hf | hf | hf
    · exact Or.inl (by rw [hf]; simp [craneNamedErrors])
    · exact Or.inl (by rw [hf]; simp [craneNamedErrors])
    · exact Or.inl (by rw [hf]; simp [craneNamedErrors])
    · exact Or.inl (by rw [hf]; simp [craneNamedErrors])
    · exact Or.inl (by rw [hf]; simp [craneNamedErrors])
    · exact Or.inl (by rw [hf]; simp [craneNamedErrors])
    · exact Or.inl (by rw [hf]; simp [craneNamedErrors])
    · exact Or.inr (by rw [hf]; simp [cellNamedErrors])
    · exact Or.inr (by rw [hf]; simp [cellNamedErrors])
  | ok next =>
    rw [hp] at hstep
    dsimp only at hstep
    cases hc : collisionCheck s next with
    | error e2 =>
      rw [hc] at hstep
      cases hstep
      obtain ⟨i, hi, j, hj, he⟩ := collisionCheck_error_form s next e hc
      subst he
      refine ⟨i, hi, Or.inl ?_⟩
      unfold craneNamedErrors
      rw [List.mem_append, List.mem_append]
      refine Or.inl (Or.inr ?_)
      rw [List.mem_map]
      exact ⟨j, List.mem_range.mpr (lt_trans hj hi), rfl⟩
    | ok u =>
      cases u
      rw [hc] at hstep
      cases hstep

/-- Concrete instantiation of `claim3_atomic_error` (two cranes about to
collide: the state is unchanged and the message is a listed diagnostic). -/
theorem claim3_witness :
    (∀ e, ((State.new input2).stepMut [Move.MoveDir 2, Move.Stay]).1 = .error e →
      ((State.new input2).stepMut [Move.MoveDir 2, Move.Stay]).2 = State.new input2 ∧
      ∃ i < (State.new input2).len,
        e ∈ craneNamedErrors i (State.new input2).len ∨
        e ∈ cellNamedErrors (State.new input2) i) ∧
    ((State.new input2).stepMut [Move.MoveDir 2, Move.Stay]).1 =
      .error "Crane 0 and 1 collided." := by
  refine ⟨fun e he => claim3_atomic_error (State.new input2) [Move.MoveDir 2, Move.Stay] e he, ?_⟩
  rfl

/-! ### Reachable states and the no-overlap invariant (claim C4) -/

/-- States reachable from `State::new` by successful `step` calls. -/
inductive Reachable (input : Input) : State → Prop where
  | base : Reachable input (State.new input)
  | step (s : State) (mv : List Move) (s2 : State) :
      Reachable input s → State.step s mv = .ok s2 → Reachable input s2

/-- No two non-bombed cranes occupy the same cell. -/
def distinctPositions (s : State) : Prop :=
  ∀ i j, i < s.len → j < s.len → i ≠ j →
    (craneAt s i).bombed = false → (craneAt s j).bombed = false →
    (craneAt s i).get_pos ≠ (craneAt s j).get_pos

theorem carryInRow_cranes (s : State) (i : Nat) : (carryInRow s i).cranes = s.cranes := by
  unfold carryInRow
  split_ifs <;> rfl

theorem carry_in_cranes (s : State) : (State.carry_in s).cranes = s.cranes := by
  unfold State.carry_in
  exact foldl_preserve (fun t => t.cranes = s.cranes) _ _ _ rfl
    fun b2 a _ h => (carryInRow_cranes b2 a).trans h

theorem carryOutRow_cranes (n : Nat) (s : State) (i : Nat) :
    (carryOutRow n s i).cranes = s.cranes := by
  unfold carryOutRow
  dsimp only
  split_ifs <;> rfl

theorem carry_out_cranes (s : State) : (State.carry_out s).cranes = s.cranes := by
  unfold State.carry_out
  exact foldl_preserve (fun t => t.cranes = s.cranes) _ _ _ rfl
    fun b2 a _ h => (carryOutRow_cranes s.len b2 a).trans h

/-- A successful `step` yields the committed carry-in/carry-out of the staged
state, and the collision check passed on the staged state. -/
theorem step_ok_decompose (s : State) (mv : List Move) (s2 : State)
    (h : State.step s mv = .ok s2) :
    ∃ next, stepPhase1 s mv = .ok next ∧ collisionCheck s next = .ok () ∧
      s2 = State.carry_in (State.carry_out next) := by
  unfold State.step at h
  cases hp : stepPhase1 s mv with
  | error e => rw [hp] at h; cases h
  | ok next =>
    rw [hp] at h
    dsimp only at h
    cases hc : collisionCheck s next with
    | error e => rw [hc] at h; cases h
    | ok u =>
      cases u
      rw [hc] at h
      cases h
      exact ⟨next, rfl, hc, rfl⟩

/-- Any state produced by a successful `step` has pairwise distinct positions
among its non-bombed cranes (the collision check enforces it afresh). -/
theorem step_ok_distinctPositions (s : State) (mv : List Move) (s2 : State)
    (h : State.step s mv = .ok s2) : distinctPositions s2 := by
  obtain ⟨next, hp, hc, hcommit⟩ := step_ok_decompose s mv s2 h
  have hcr : s2.cranes = next.cranes := by
    rw [hcommit, carry_in_cranes, carry_out_cranes]
  have hlen : next.cranes.length = s.cranes.length :=
    (stepPhase1_shape s mv next hp).2.2.1
  rw [collisionCheck_ok_iff] at hc
  intro i j hi hj hij hbi hbj heq
  have hi2 : i < s.len := by
    unfold State.len at hi ⊢
    rw [hcr, hlen] at hi
    exact hi
  have hj2 : j < s.len := by
    unfold State.len at hj ⊢
    rw [hcr, hlen] at hj
    exact hj
  have hcrAt : ∀ k, craneAt s2 k = craneAt next k := by
    intro k
    unfold craneAt
    rw [hcr]
  rcases Nat.lt_or_ge j i with hlt | hge
  · exact hc i hi2 j hlt (by rw [← hcrAt i]; exact hbi) (by rw [← hcrAt j]; exact hbj)
      (Or.inl (by rw [← hcrAt i, ← hcrAt j]; exact heq))
  · have hlt : i < j := Nat.lt_of_le_of_ne hge hij
    exact hc j hj2 i hlt (by rw [← hcrAt j]; exact hbj) (by rw [← hcrAt i]; exact hbi)
      (Or.inl (by rw [← hcrAt i, ← hcrAt j]; exact heq.symm))

theorem new_len (input : Input) : (State.new input).len = input.n := by
  unfold State.new State.len
  rw [carry_in_cranes]
  simp

theorem craneAt_new (input : Input) (k : Nat) (hk : k < input.n) :
    craneAt (State.new input) k =
      { large := k == 0, x := k, y := 0, container := -1 } := by
  unfold State.new craneAt
  rw [carry_in_cranes]
  dsimp only
  rw [List.getD_eq_getElem?_getD, List.getElem?_map, List.getElem?_range hk]
  rfl

theorem new_distinctPositions (input : Input) : distinctPositions (State.new input) := by
  intro i j hi hj hij hbi hbj
  rw [new_len] at hi hj
  rw [craneAt_new input i hi, craneAt_new input j hj]
  unfold Crane.get_pos
  intro hcontra
  exact hij (congrArg Prod.fst hcontra)

/-- C4: a turn in which two cranes, both non-bombed after their tentative
moves, would land on the same cell or would swap positions is rejected by
`step`; consequently every state reachable by successful steps from
`State::new` has pairwise distinct positions among its non-bombed cranes. -/
theorem claim4_no_overlap :
    (∀ (s : State) (mv : List Move) (next : State) (i j : Nat),
      stepPhase1 s mv = .ok next → i < s.len → j < s.len → i ≠ j →
      (craneAt next i).bombed = false → (craneAt next j).bombed = false →
      collidePair s next i j → ∃ e, State.step s mv = .error e) ∧
    (∀ (input : Input) (s : State), Reachable input s → distinctPositions s) := by
  constructor
  · intro s mv next i j hp hi hj hij hbi hbj hcol
    have hnotok : ¬ collisionCheck s next = .ok () := by
      rw [collisionCheck_ok_iff]
      intro hall
      rcases Nat.lt_or_ge j i with hlt | hge
      · exact hall i hi j hlt hbi hbj hcol
      · have hlt : i < j := Nat.lt_of_le_of_ne hge hij
        refine hall j hj i hlt hbj hbi ?_
        rcases hcol with hcol | hcol
        · exact Or.inl hcol.symm
        · exact Or.inr ⟨hcol.2, hcol.1⟩
    cases hc : collisionCheck s next with
    | ok u => cases u; exact absurd hc hnotok
    | error e =>
      refine ⟨e, ?_⟩
      unfold State.step
      rw [hp]
      dsimp only
      rw [hc]
  · intro input s hr
    induction hr with
    | base => exact new_distinctPositions input
    | step s mv s2 hr hstep ih => exact step_ok_distinctPositions s mv s2 hstep

/-- The state staged by the per-crane phase for the witness turn below. -/
def phase1Witness : State :=
  { queue := [[1], [3]], done := [[], []], board := [[0, -1], [2, -1]],
    cranes := [{ large := true, x := 1, y := 0, container := -1 },
               { large := false, x := 1, y := 0, container := -1 }] }

/-- Concrete instantiation of `claim4_no_overlap`: a down-move of crane 0 onto
crane 1 is rejected, and the initial state has distinct crane positions. -/
theorem claim4_witness :
    (∃ e, State.step (State.new input2) [Move.MoveDir 2, Move.Stay] = .error e) ∧
    distinctPositions (State.new input2) :=
  ⟨claim4_no_overlap.1 (State.new input2) [Move.MoveDir 2, Move.Stay] phase1Witness 0 1
      (by rfl) (by decide) (by decide) (by decide) (by rfl) (by rfl)
      (Or.inl (by rfl)),
    claim4_no_overlap.2 input2 _ Reachable.base⟩

/-! ### Counting infrastructure for the conservation invariant (claim C2) -/

theorem count_set_add {α : Type} [DecidableEq α] :
    ∀ (l : List α) (i : Nat) (v w d : α), i < l.length →
      (l.set i v).count w + (if l.getD i d = w then 1 else 0) =
      l.count w + (if v = w then 1 else 0) := by
  intro l
  induction l with
  | nil => intro i v w d h; cases h
  | cons a l ih =>
    intro i v w d h
    cases i with
    | zero =>
      simp only [List.set_cons_zero, List.getD_cons_zero, List.count_cons, beq_iff_eq]
      by_cases hv : v = w <;> by_cases ha : a = w <;> simp [hv, ha]
    | succ i =>
      simp only [List.set_cons_succ, List.getD_cons_succ, List.count_cons, beq_iff_eq]
      have := ih i v w d (Nat.lt_of_succ_lt_succ h)
      omega

theorem count_join_set_add {α : Type} [DecidableEq α] :
    ∀ (L : List (List α)) (i : Nat) (r : List α) (w : α), i < L.length →
      ((L.set i r).flatten).count w + (L.getD i []).count w =
      (L.flatten).count w + r.count w := by
  intro L
  induction L with
  | nil => intro i r w h; cases h
  | cons a L ih =>
    intro i r w h
    cases i with
    | zero =>
      simp only [List.set_cons_zero, List.getD_cons_zero, List.flatten_cons, List.count_append]
      omega
    | succ i =>
      simp only [List.set_cons_succ, List.getD_cons_succ, List.flatten_cons, List.count_append]
      have := ih i r w (Nat.lt_of_succ_lt_succ h)
      omega

theorem count_eq_zero_of_all_ne {α : Type} [DecidableEq α] (l : List α) (w : α)
    (h : ∀ v ∈ l, v ≠ w) : l.count w = 0 := by
  rw [List.count_eq_zero]
  intro hmem
  exact h w hmem rfl

/-- The multiset of container ids present anywhere in a state: on the board,
in the intake queues, carried by cranes, and delivered. -/
def containersOf (s : State) : List Int :=
  (s.board.flatten.filter (fun v => v ≠ -1)) ++ (s.queue.flatten.map u32_as_i32) ++
  ((s.cranes.map Crane.container).filter (fun v => v ≠ -1)) ++ (s.done.flatten.map u32_as_i32)

/-- Occurrence count of a container value across the four places of a state. -/
def cntState (s : State) (w : Int) : Nat :=
  (s.board.flatten).count w + (s.queue.flatten.map u32_as_i32).count w +
  (s.cranes.map Crane.container).count w + (s.done.flatten.map u32_as_i32).count w

/-- Well-formedness of the problem input: `n` fits in `usize`, ids fit in
`i32`, the grid is `n × n`, and the ids are exactly `0 .. n²-1`. -/
def WFInput (input : Input) : Prop :=
  input.n < USIZE ∧ input.n * input.n < 2 ^ 31 ∧ input.a.length = input.n ∧
  (∀ row ∈ input.a, row.length = input.n) ∧
  input.a.flatten.Perm (List.range (input.n * input.n))

/-- The inductive state invariant behind claim C2. -/
structure StateInv (input : Input) (s : State) : Prop where
  hnusize : input.n < USIZE
  hq : s.queue.length = input.n
  hd : s.done.length = input.n
  hb : s.board.length = input.n
  hbrow : ∀ row ∈ s.board, row.length = input.n
  hc : s.cranes.length = input.n
  hpos : ∀ c ∈ s.cranes, (c.bombed = false ∧ c.x < input.n ∧ c.y < input.n) ∨
         (c.bombed = true ∧ c.x = NEG1 ∧ c.y = NEG1 ∧ c.container = -1)
  hboardRange : ∀ row ∈ s.board, ∀ v ∈ row, v = -1 ∨ (0 ≤ v ∧ v < 2 ^ 31)
  hcraneRange : ∀ c ∈ s.cranes, c.container = -1 ∨ (0 ≤ c.container ∧ c.container < 2 ^ 31)
  hqueueRange : ∀ row ∈ s.queue, ∀ v ∈ row, v < 2 ^ 31
  hdoneRange : ∀ row ∈ s.done, ∀ v ∈ row, v < 2 ^ 31
  hdistinct : distinctPositions s
  hcount : ∀ w : Int, w ≠ -1 → cntState s w = (input.a.flatten.map u32_as_i32).count w

theorem getD_mem_of_lt {α : Type} (l : List α) (k : Nat) (d : α) (h : k < l.length) :
    l.getD k d ∈ l := by
  rw [List.getD_eq_getElem?_getD, List.getElem?_eq_getElem h]
  exact List.getElem_mem h

theorem craneAt_mem (s : State) (k : Nat) (h : k < s.cranes.length) :
    craneAt s k ∈ s.cranes := getD_mem_of_lt _ _ _ h

theorem getCell_mem (b : List (List Int)) (x y : Nat)
    (hx : x < b.length) (hy : y < (b.getD x []).length) :
    getCell b x y ∈ b.getD x [] := getD_mem_of_lt _ _ _ hy

theorem getD_map_of_lt {α β : Type} (f : α → β) (l : List α) (k : Nat) (d : α)
    (h : k < l.length) : (l.map f).getD k (f d) = f (l.getD k d) := by
  rw [List.getD_eq_getElem?_getD, List.getD_eq_getElem?_getD, List.getElem?_map,
    List.getElem?_eq_getElem h]
  rfl

theorem count_setCell_add (b : List (List Int)) (x y : Nat) (v w : Int)
    (hx : x < b.length) (hy : y < (b.getD x []).length) :
    ((setCell b x y v).flatten).count w + (if getCell b x y = w then 1 else 0) =
    (b.flatten).count w + (if v = w then 1 else 0) := by
  have h1 := count_join_set_add b x ((b.getD x []).set y v) w hx
  have h2 := count_set_add (b.getD x []) y v w (-1) hy
  unfold setCell getCell
  omega

theorem count_craneSet_add (cs : List Crane) (k : Nat) (c : Crane) (w : Int)
    (hk : k < cs.length) :
    ((cs.set k c).map Crane.container).count w +
      (if (cs.getD k noCrane).container = w then 1 else 0) =
    (cs.map Crane.container).count w + (if c.container = w then 1 else 0) := by
  rw [List.map_set]
  have h1 := count_set_add (cs.map Crane.container) k c.container w noCrane.container
    (by rw [List.length_map]; exact hk)
  rw [getD_map_of_lt Crane.container cs k noCrane hk] at h1
  exact h1

theorem count_rowSet_add {α : Type} [DecidableEq α] (f : α → Int)
    (q : List (List α)) (i : Nat) (r : List α) (w : Int) (hi : i < q.length) :
    (((q.set i r).flatten).map f).count w + ((q.getD i []).map f).count w =
    ((q.flatten).map f).count w + (r.map f).count w := by
  rw [List.map_flatten, List.map_flatten, List.map_set]
  have h1 := count_join_set_add (q.map (List.map f)) i (r.map f) w
    (by rw [List.length_map]; exact hi)
  have h2 : (List.map (List.map f) q).getD i [] = List.map f (q.getD i []) := by
    have h3 := getD_map_of_lt (List.map f) q i [] hi
    simpa using h3
  rw [h2] at h1
  exact h1

/-- Loop invariant of the per-crane phase of `step`: after processing cranes
`0 .. k-1`, the staged state agrees with the pre-turn state everywhere except
the processed cranes and their own cells, and the container count is
unchanged. -/
structure Mid (input : Input) (pre : State) (k : Nat) (next : State) : Prop where
  hq : next.queue = pre.queue
  hd : next.done = pre.done
  hclen : next.cranes.length = pre.cranes.length
  hblen : next.board.length = pre.board.length
  hrowlen : ∀ x, (next.board.getD x []).length = (pre.board.getD x []).length
  hunproc : ∀ j, k ≤ j → craneAt next j = craneAt pre j
  hagree : ∀ x y, getCell next.board x y = getCell pre.board x y ∨
    (∃ j, j < k ∧ (craneAt pre j).bombed = false ∧
      x = (craneAt pre j).x ∧ y = (craneAt pre j).y)
  hposN : ∀ c ∈ next.cranes, (c.bombed = false ∧ c.x < input.n ∧ c.y < input.n) ∨
    (c.bombed = true ∧ c.x = NEG1 ∧ c.y = NEG1 ∧ c.container = -1)
  hbrangeN : ∀ row ∈ next.board, ∀ v ∈ row, v = -1 ∨ (0 ≤ v ∧ v < 2 ^ 31)
  hcrangeN : ∀ c ∈ next.cranes, c.container = -1 ∨ (0 ≤ c.container ∧ c.container < 2 ^ 31)
  hcnt : ∀ w : Int, w ≠ -1 → cntState next w = cntState pre w

theorem mid_mono (input : Input) (self : State) (k : Nat) (next : State)
    (h : Mid input self k next) : Mid input self (k + 1) next := by
  obtain ⟨hq, hd, hclen, hblen, hrowlen, hunproc, hagree, hposN, hbrangeN, hcrangeN, hcnt⟩ := h
  refine ⟨hq, hd, hclen, hblen, hrowlen, fun j hj => hunproc j (Nat.le_of_succ_le hj),
    fun x y => (hagree x y).imp id ?_, hposN, hbrangeN, hcrangeN, hcnt⟩
  rintro ⟨j, hj, hrest⟩
  exact ⟨j, Nat.lt_succ_of_lt hj, hrest⟩

theorem mid_agree_at_crane (input : Input) (self : State) (k : Nat) (next : State)
    (hinv : StateInv input self) (hmid : Mid input self k next) (hk : k < input.n)
    (hnb : (craneAt self k).bombed = false) :
    getCell next.board (craneAt self k).x (craneAt self k).y =
    getCell self.board (craneAt self k).x (craneAt self k).y := by
  rcases hmid.hagree (craneAt self k).x (craneAt self k).y with h | ⟨j, hj, hjnb, hx, hy⟩
  · exact h
  · exfalso
    refine hinv.hdistinct j k ?_ ?_ (Nat.ne_of_lt hj) hjnb hnb ?_
    · show j < self.cranes.length
      rw [hinv.hc]
      exact lt_trans hj hk
    · show k < self.cranes.length
      rw [hinv.hc]
      exact hk
    · show ((craneAt self j).x, (craneAt self j).y) = ((craneAt self k).x, (craneAt self k).y)
      rw [← hx, ← hy]

theorem move_next_some_lt (dir : Nat) (xy : Nat × Nat) (n : Nat) (p : Nat × Nat)
    (h : Move.next (.MoveDir dir) xy n = some p) : p.1 < n ∧ p.2 < n := by
  unfold Move.next at h
  dsimp only at h
  split_ifs at h with hcond
  cases h
  exact hcond

theorem beq_nat_false_of_ne {a b : Nat} (h : a ≠ b) : (a == b) = false := by
  exact beq_eq_false_iff_ne.mpr h

/-- Processing one crane inside the per-crane phase preserves the loop
invariant. -/
theorem stepCrane_mid (input : Input) (self : State) (mv : Move) (k : Nat)
    (next next2 : State)
    (hinv : StateInv input self) (hk : k < input.n)
    (hmid : Mid input self k next)
    (h : stepCrane self next k mv = .ok next2) :
    Mid input self (k + 1) next2 := by
  have hklen : k < self.cranes.length := by rw [hinv.hc]; exact hk
  have hkmem : craneAt self k ∈ self.cranes := craneAt_mem self k hklen
  have hkNext : craneAt next k = craneAt self k := hmid.hunproc k (Nat.le_refl k)
  have hklenN : k < next.cranes.length := by rw [hmid.hclen]; exact hklen
  cases mv with
  | Stay =>
    rw [stepCrane_Stay] at h
    cases h
    exact mid_mono input self k next hmid
  | Bomb =>
    rw [stepCrane_Bomb] at h
    by_cases h1 : (craneAt self k).bombed
    · rw [if_pos h1] at h; cases h
    · rw [if_neg h1] at h
      by_cases h2 : (craneAt self k).container ≠ -1
      · rw [if_pos h2] at h; cases h
      · rw [if_neg h2] at h
        cases h
        push_neg at h2
        refine ⟨hmid.hq, hmid.hd, ?_, hmid.hblen, hmid.hrowlen, ?_, ?_, ?_,
          hmid.hbrangeN, ?_, ?_⟩
        · show (next.cranes.set k _).length = _
          rw [List.length_set]; exact hmid.hclen
        · intro j hj
          show (next.cranes.set k _).getD j noCrane = _
          rw [getD_set_ne _ _ _ _ _ (Nat.ne_of_lt hj)]
          exact hmid.hunproc j (Nat.le_of_succ_le hj)
        · intro x y
          exact (hmid.hagree x y).imp id fun ⟨j, hj, hrest⟩ => ⟨j, Nat.lt_succ_of_lt hj, hrest⟩
        · intro c hc
          rcases List.mem_or_eq_of_mem_set hc with hc | rfl
          · exact hmid.hposN c hc
          · refine Or.inr ⟨?_, rfl, rfl, ?_⟩
            · show (NEG1 == NEG1) = true
              simp
            · show (craneAt next k).container = -1
              rw [hkNext]; exact h2
        · intro c hc
          rcases List.mem_or_eq_of_mem_set hc with hc | rfl
          · exact hmid.hcrangeN c hc
          · exact Or.inl (by show (craneAt next k).container = -1; rw [hkNext]; exact h2)
        · intro w hw
          have hcnt0 := hmid.hcnt w hw
          have hccnt := count_craneSet_add next.cranes k
            { craneAt next k with x := NEG1, y := NEG1 } w hklenN
          have heqc : (next.cranes.getD k noCrane).container = (craneAt next k).container := rfl
          rw [heqc] at hccnt
          unfold cntState at hcnt0 ⊢
          dsimp only at hccnt hcnt0 ⊢
          omega
  | MoveDir dir =>
    rw [stepCrane_MoveDir] at h
    by_cases h1 : (craneAt self k).bombed
    · rw [if_pos h1] at h; cases h
    · rw [if_neg h1] at h
      cases hn : Move.next (.MoveDir dir) ((craneAt self k).x, (craneAt self k).y) self.len with
      | none => rw [hn] at h; cases h
      | some p =>
        rw [hn] at h
        dsimp only at h
        by_cases h2 : (craneAt self k).large = false ∧ (craneAt self k).container ≠ -1 ∧
            getCell self.board p.1 p.2 ≠ -1
        · rw [if_pos h2] at h; cases h
        · rw [if_neg h2] at h
          cases h
          have hplt : p.1 < input.n ∧ p.2 < input.n := by
            have := move_next_some_lt dir _ self.len p hn
            unfold State.len at this
            rw [hinv.hc] at this
            exact this
          have hpne : p.1 ≠ NEG1 := by
            intro hp
            have : input.n < USIZE := hinv.hnusize
            unfold NEG1 at hp
            omega
          refine ⟨hmid.hq, hmid.hd, ?_, hmid.hblen, hmid.hrowlen, ?_, ?_, ?_,
            hmid.hbrangeN, ?_, ?_⟩
          · show (next.cranes.set k _).length = _
            rw [List.length_set]; exact hmid.hclen
          · intro j hj
            show (next.cranes.set k _).getD j noCrane = _
            rw [getD_set_ne _ _ _ _ _ (Nat.ne_of_lt hj)]
            exact hmid.hunproc j (Nat.le_of_succ_le hj)
          · intro x y
            exact (hmid.hagree x y).imp id fun ⟨j, hj, hrest⟩ => ⟨j, Nat.lt_succ_of_lt hj, hrest⟩
          · intro c hc
            rcases List.mem_or_eq_of_mem_set hc with hc | rfl
            · exact hmid.hposN c hc
            · refine Or.inl ⟨?_, hplt.1, hplt.2⟩
              show (p.1 == NEG1) = false
              exact beq_nat_false_of_ne hpne
          · intro c hc
            rcases List.mem_or_eq_of_mem_set hc with hc | rfl
            · exact hmid.hcrangeN c hc
            · show (craneAt next k).container = -1 ∨ _
              rw [hkNext]
              exact hinv.hcraneRange _ hkmem
          · intro w hw
            have hcnt0 := hmid.hcnt w hw
            have hccnt := count_craneSet_add next.cranes k
              { craneAt next k with x := p.1, y := p.2 } w hklenN
            have heqc : (next.cranes.getD k noCrane).container = (craneAt next k).container := rfl
            rw [heqc] at hccnt
            unfold cntState at hcnt0 ⊢
            dsimp only at hccnt hcnt0 ⊢
            omega
  | Pick =>
    rw [stepCrane_Pick] at h
    by_cases h1 : (craneAt self k).bombed
    · rw [if_pos h1] at h; cases h
    · rw [if_neg h1] at h
      by_cases h2 : (craneAt self k).container ≠ -1
      · rw [if_pos h2] at h; cases h
      · rw [if_neg h2] at h
        by_cases h3 : getCell self.board (craneAt self k).x (craneAt self k).y = -1
        · rw [if_pos h3] at h; cases h
        · rw [if_neg h3] at h
          cases h
          push_neg at h2
          have hnb : (craneAt self k).bombed = false := bool_eq_false h1
          have hxy : (craneAt self k).x < input.n ∧ (craneAt self k).y < input.n := by
            rcases hinv.hpos _ hkmem with ⟨_, hx, hy⟩ | ⟨hb, _, _, _⟩
            · exact ⟨hx, hy⟩
            · rw [hnb] at hb; cases hb
          have hxlenN : (craneAt self k).x < next.board.length := by
            rw [hmid.hblen, hinv.hb]; exact hxy.1
          have hylenN : (craneAt self k).y < (next.board.getD (craneAt self k).x []).length := by
            rw [hmid.hrowlen, hinv.hbrow _ (getD_mem_of_lt _ _ _ (by rw [hinv.hb]; exact hxy.1))]
            exact hxy.2
          have hagreeK := mid_agree_at_crane input self k next hinv hmid hk hnb
          refine ⟨hmid.hq, hmid.hd, ?_, ?_, ?_, ?_, ?_, ?_, ?_, ?_, ?_⟩
          · show (next.cranes.set k _).length = _
            rw [List.length_set]; exact hmid.hclen
          · show (setCell next.board _ _ _).length = _
            rw [setCell_length]; exact hmid.hblen
          · intro x
            show ((setCell next.board _ _ _).getD x []).length = _
            rw [setCell_row_length]; exact hmid.hrowlen x
          · intro j hj
            show (next.cranes.set k _).getD j noCrane = _
            rw [getD_set_ne _ _ _ _ _ (Nat.ne_of_lt hj)]
            exact hmid.hunproc j (Nat.le_of_succ_le hj)
          · intro x y
            by_cases hxy2 : x = (craneAt self k).x ∧ y = (craneAt self k).y
            · exact Or.inr ⟨k, Nat.lt_succ_self k, hnb, hxy2.1, hxy2.2⟩
            · have hne : ((craneAt self k).x, (craneAt self k).y) ≠ (x, y) := by
                intro heq
                exact hxy2 ⟨congrArg Prod.fst heq.symm, congrArg Prod.snd heq.symm⟩
              have : getCell (setCell next.board (craneAt self k).x (craneAt self k).y (-1)) x y
                  = getCell next.board x y := getCell_setCell_ne _ _ _ _ _ _ hne
              rw [this]
              exact (hmid.hagree x y).imp id
                fun ⟨j, hj, hrest⟩ => ⟨j, Nat.lt_succ_of_lt hj, hrest⟩
          · intro c hc
            rcases List.mem_or_eq_of_mem_set hc with hc | rfl
            · exact hmid.hposN c hc
            · have : (craneAt next k).bombed = false ∧ (craneAt next k).x < input.n ∧
                  (craneAt next k).y < input.n := by
                rw [hkNext]; exact ⟨hnb, hxy.1, hxy.2⟩
              exact Or.inl ⟨this.1, this.2.1, this.2.2⟩
          · intro row hrow
            rcases List.mem_or_eq_of_mem_set hrow with hrow | rfl
            · exact hmid.hbrangeN row hrow
            · intro v hv
              rcases List.mem_or_eq_of_mem_set hv with hv | rfl
              · exact hmid.hbrangeN _ (getD_mem_of_lt _ _ _ hxlenN) v hv
              · exact Or.inl rfl
          · intro c hc
            rcases List.mem_or_eq_of_mem_set hc with hc | rfl
            · exact hmid.hcrangeN c hc
            · show getCell self.board (craneAt self k).x (craneAt self k).y = -1 ∨ _
              rcases hinv.hboardRange _
                  (getD_mem_of_lt _ _ _ (by rw [hinv.hb]; exact hxy.1))
                  (getCell self.board (craneAt self k).x (craneAt self k).y)
                  (getCell_mem self.board _ _ (by rw [hinv.hb]; exact hxy.1)
                    (by rw [hinv.hbrow _ (getD_mem_of_lt _ _ _ (by rw [hinv.hb]; exact hxy.1))]
                        exact hxy.2)) with hr | hr
              · exact Or.inl hr
              · exact Or.inr hr
          · intro w hw
            have hcnt0 := hmid.hcnt w hw
            have hbcnt := count_setCell_add next.board (craneAt self k).x (craneAt self k).y
              (-1) w hxlenN hylenN
            rw [hagreeK] at hbcnt
            have hccnt := count_craneSet_add next.cranes k
              { craneAt next k with
                container := getCell self.board (craneAt self k).x (craneAt self k).y } w hklenN
            have heqc : (next.cranes.getD k noCrane).container = -1 := by
              show (craneAt next k).container = -1
              rw [hkNext]; exact h2
            rw [heqc] at hccnt
            have hind1 : (if (-1 : Int) = w then 1 else 0) = 0 :=
              if_neg fun hcon => hw hcon.symm
            rw [hind1] at hbcnt hccnt
            unfold cntState at hcnt0 ⊢
            dsimp only at hccnt hcnt0 ⊢
            omega
  | Release =>
    rw [stepCrane_Release] at h
    by_cases h1 : (craneAt self k).bombed
    · rw [if_pos h1] at h; cases h
    · rw [if_neg h1] at h
      by_cases h2 : (craneAt self k).container = -1
      · rw [if_pos h2] at h; cases h
      · rw [if_neg h2] at h
        by_cases h3 : getCell self.board (craneAt self k).x (craneAt self k).y ≠ -1
        · rw [if_pos h3] at h; cases h
        · rw [if_neg h3] at h
          cases h
          push_neg at h3
          have hnb : (craneAt self k).bombed = false := bool_eq_false h1
          have hxy : (craneAt self k).x < input.n ∧ (craneAt self k).y < input.n := by
            rcases hinv.hpos _ hkmem with ⟨_, hx, hy⟩ | ⟨hb, _, _, _⟩
            · exact ⟨hx, hy⟩
            · rw [hnb] at hb; cases hb
          have hxlenN : (craneAt self k).x < next.board.length := by
            rw [hmid.hblen, hinv.hb]; exact hxy.1
          have hylenN : (craneAt self k).y < (next.board.getD (craneAt self k).x []).length := by
            rw [hmid.hrowlen, hinv.hbrow _ (getD_mem_of_lt _ _ _ (by rw [hinv.hb]; exact hxy.1))]
            exact hxy.2
          have hagreeK := mid_agree_at_crane input self k next hinv hmid hk hnb
          refine ⟨hmid.hq, hmid.hd, ?_, ?_, ?_, ?_, ?_, ?_, ?_, ?_, ?_⟩
          · show (next.cranes.set k _).length = _
            rw [List.length_set]; exact hmid.hclen
          · show (setCell next.board _ _ _).length = _
            rw [setCell_length]; exact hmid.hblen
          · intro x
            show ((setCell next.board _ _ _).getD x []).length = _
            rw [setCell_row_length]; exact hmid.hrowlen x
          · intro j hj
            show (next.cranes.set k _).getD j noCrane = _
            rw [getD_set_ne _ _ _ _ _ (Nat.ne_of_lt hj)]
            exact hmid.hunproc j (Nat.le_of_succ_le hj)
          · intro x y
            by_cases hxy2 : x = (craneAt self k).x ∧ y = (craneAt self k).y
            · exact Or.inr ⟨k, Nat.lt_succ_self k, hnb, hxy2.1, hxy2.2⟩
            · have hne : ((craneAt self k).x, (craneAt self k).y) ≠ (x, y) := by
                intro heq
                exact hxy2 ⟨congrArg Prod.fst heq.symm, congrArg Prod.snd heq.symm⟩
              have : getCell (setCell next.board (craneAt self k).x (craneAt self k).y
                  (craneAt self k).container) x y
                  = getCell next.board x y := getCell_setCell_ne _ _ _ _ _ _ hne
              rw [this]
              exact (hmid.hagree x y).imp id
                fun ⟨j, hj, hrest⟩ => ⟨j, Nat.lt_succ_of_lt hj, hrest⟩
          · intro c hc
            rcases List.mem_or_eq_of_mem_set hc with hc | rfl
            · exact hmid.hposN c hc
            · have : (craneAt next k).bombed = false ∧ (craneAt next k).x < input.n ∧
                  (craneAt next k).y < input.n := by
                rw [hkNext]; exact ⟨hnb, hxy.1, hxy.2⟩
              exact Or.inl ⟨this.1, this.2.1, this.2.2⟩
          · intro row hrow
            rcases List.mem_or_eq_of_mem_set hrow with hrow | rfl
            · exact hmid.hbrangeN row hrow
            · intro v hv
              rcases List.mem_or_eq_of_mem_set hv with hv | rfl
              · exact hmid.hbrangeN _ (getD_mem_of_lt _ _ _ hxlenN) v hv
              · exact (hinv.hcraneRange _ hkmem).imp id id
          · intro c hc
            rcases List.mem_or_eq_of_mem_set hc with hc | rfl
            · exact hmid.hcrangeN c hc
            · exact Or.inl rfl
          · intro w hw
            have hcnt0 := hmid.hcnt w hw
            have hbcnt := count_setCell_add next.board (craneAt self k).x (craneAt self k).y
              (craneAt self k).container w hxlenN hylenN
            rw [hagreeK, h3] at hbcnt
            have hccnt := count_craneSet_add next.cranes k
              { craneAt next k with container := -1 } w hklenN
            have heqc : (next.cranes.getD k noCrane).container = (craneAt self k).container := by
              show (craneAt next k).container = _
              rw [hkNext]
            rw [heqc] at hccnt
            have hind1 : (if (-1 : Int) = w then 1 else 0) = 0 :=
              if_neg fun hcon => hw hcon.symm
            rw [hind1] at hbcnt hccnt
            unfold cntState at hcnt0 ⊢
            dsimp only at hccnt hcnt0 ⊢
            omega

theorem mid_zero (input : Input) (self : State) (hinv : StateInv input self) :
    Mid input self 0 self :=
  ⟨rfl, rfl, rfl, rfl, fun _ => rfl, fun _ _ => rfl, fun _ _ => Or.inl rfl,
    hinv.hpos, hinv.hboardRange, hinv.hcraneRange, fun _ _ => rfl⟩

theorem phase1_fold_mid (input : Input) (self : State) (mv : List Move)
    (hinv : StateInv input self) :
    ∀ (m k : Nat) (next : State), k + m = input.n → Mid input self k next →
      ∀ out, (List.range' k m).foldlM
          (fun t i => stepCrane self t i (mv.getD i .Stay)) next = .ok out →
        Mid input self input.n out := by
  intro m
  induction m with
  | zero =>
    intro k next hkm hmid out hout
    rw [show List.range' k 0 = [] from rfl, List.foldlM_nil] at hout
    cases hout
    have : k = input.n := by omega
    rw [← this]
    exact hmid
  | succ m ih =>
    intro k next hkm hmid out hout
    rw [List.range'_succ, List.foldlM_cons] at hout
    cases hsc : stepCrane self next k (mv.getD k .Stay) with
    | error e => rw [hsc, except_bind_error] at hout; cases hout
    | ok next2 =>
      rw [hsc, except_bind_ok] at hout
      exact ih (k + 1) next2 (by omega)
        (stepCrane_mid input self _ k next next2 hinv (by omega) hmid hsc) out hout

theorem stepPhase1_mid (input : Input) (self : State) (mv : List Move) (next : State)
    (hinv : StateInv input self) (h : stepPhase1 self mv = .ok next) :
    Mid input self input.n next := by
  unfold stepPhase1 at h
  rw [List.range_eq_range'] at h
  have hlen : self.len = input.n := by
    unfold State.len
    exact hinv.hc
  rw [hlen] at h
  exact phase1_fold_mid input self mv hinv input.n 0 self (by omega)
    (mid_zero input self hinv) next h

theorem u32_small (v : Nat) (h : v < 2 ^ 31) : u32_as_i32 v = (v : Int) := by
  unfold u32_as_i32
  rw [Nat.mod_eq_of_lt (lt_trans h (by norm_num))]
  rw [if_pos h]

theorem i32_u32_roundtrip (c : Int) (h0 : 0 ≤ c) (h1 : c < 2 ^ 31) :
    u32_as_i32 (i32_as_u32 c) = c := by
  unfold u32_as_i32 i32_as_u32
  have hemod : c % (2 ^ 32 : Int) = c := Int.emod_eq_of_lt h0 (by omega)
  rw [hemod]
  have h2 : c.toNat < 2 ^ 31 := by omega
  rw [Nat.mod_eq_of_lt (lt_trans h2 (by norm_num)), if_pos h2, Int.toNat_of_nonneg h0]

theorem i32_as_u32_lt (c : Int) (h0 : 0 ≤ c) (h1 : c < 2 ^ 31) : i32_as_u32 c < 2 ^ 31 := by
  unfold i32_as_u32
  rw [Int.emod_eq_of_lt h0 (by omega : c < (2 ^ 32 : Int))]
  omega

theorem distinct_of_cranes_eq (s t : State) (h : t.cranes = s.cranes)
    (hd : distinctPositions s) : distinctPositions t := by
  intro i j hi hj hij hbi hbj
  unfold State.len at hi hj
  rw [h] at hi hj
  have hci : craneAt t i = craneAt s i := by unfold craneAt; rw [h]
  have hcj : craneAt t j = craneAt s j := by unfold craneAt; rw [h]
  rw [hci] at hbi ⊢
  rw [hcj] at hbj ⊢
  exact hd i j hi hj hij hbi hbj

theorem mem_imp_getD {α : Type} (l : List α) (row d : α) (h : row ∈ l) :
    ∃ x, x < l.length ∧ l.getD x d = row := by
  rw [List.mem_iff_getElem] at h
  obtain ⟨x, hx, hget⟩ := h
  refine ⟨x, hx, ?_⟩
  rw [List.getD_eq_getElem?_getD, List.getElem?_eq_getElem hx]
  exact hget

theorem carryOutRow_inv (input : Input) (n : Nat) (s : State) (i : Nat)
    (hn : n = input.n) (hi : i < input.n) (h : StateInv input s) :
    StateInv input (carryOutRow n s i) := by
  unfold carryOutRow
  dsimp only
  by_cases hc : getCell s.board i (n - 1) ≠ -1
  · rw [if_pos hc]
    have hib : i < s.board.length := by rw [h.hb]; exact hi
    have hrowmem : s.board.getD i [] ∈ s.board := getD_mem_of_lt _ _ _ hib
    have hirow : n - 1 < (s.board.getD i []).length := by
      rw [h.hbrow _ hrowmem]
      omega
    have hcmem : getCell s.board i (n - 1) ∈ s.board.getD i [] :=
      getCell_mem s.board i (n - 1) hib hirow
    have hcrange : 0 ≤ getCell s.board i (n - 1) ∧ getCell s.board i (n - 1) < 2 ^ 31 := by
      rcases h.hboardRange _ hrowmem _ hcmem with hr | hr
      · exact absurd hr hc
      · exact hr
    have hidone : i < s.done.length := by rw [h.hd]; exact hi
    refine ⟨h.hnusize, h.hq, ?_, ?_, ?_, h.hc, h.hpos, ?_, h.hcraneRange, h.hqueueRange,
      ?_, distinct_of_cranes_eq s _ rfl h.hdistinct, ?_⟩
    · rw [List.length_set]; exact h.hd
    · rw [setCell_length]; exact h.hb
    · intro row hrow
      rcases List.mem_or_eq_of_mem_set hrow with hrow | rfl
      · exact h.hbrow row hrow
      · rw [List.length_set]
        exact h.hbrow _ hrowmem
    · intro row hrow
      rcases List.mem_or_eq_of_mem_set hrow with hrow | rfl
      · exact h.hboardRange row hrow
      · intro v hv
        rcases List.mem_or_eq_of_mem_set hv with hv | rfl
        · exact h.hboardRange _ hrowmem v hv
        · exact Or.inl rfl
    · intro row hrow
      rcases List.mem_or_eq_of_mem_set hrow with hrow | rfl
      · exact h.hdoneRange row hrow
      · intro v hv
        rcases List.mem_append.mp hv with hv | hv
        · exact h.hdoneRange _ (getD_mem_of_lt _ _ _ hidone) v hv
        · rw [List.mem_singleton.mp hv]
          exact i32_as_u32_lt _ hcrange.1 hcrange.2
    · intro w hw
      have hcnt0 := h.hcount w hw
      have hbcnt := count_setCell_add s.board i (n - 1) (-1) w hib hirow
      have hdcnt := count_rowSet_add u32_as_i32 s.done i
        ((s.done.getD i []) ++ [i32_as_u32 (getCell s.board i (n - 1))]) w hidone
      rw [List.map_append, List.count_append] at hdcnt
      have hsing : ((([i32_as_u32 (getCell s.board i (n - 1))]).map u32_as_i32).count w) =
          (if getCell s.board i (n - 1) = w then 1 else 0) := by
        rw [List.map_singleton, i32_u32_roundtrip _ hcrange.1 hcrange.2]
        simp only [List.count_singleton, beq_iff_eq]
      rw [hsing] at hdcnt
      have hind1 : (if (-1 : Int) = w then 1 else 0) = 0 :=
        if_neg fun hcon => hw hcon.symm
      rw [hind1] at hbcnt
      unfold cntState at hcnt0 ⊢
      dsimp only at hcnt0 ⊢
      omega
  · rw [if_neg hc]
    exact h

theorem carryInRow_inv (input : Input) (s : State) (i : Nat)
    (hi : i < input.n) (h : StateInv input s) :
    StateInv input (carryInRow s i) := by
  unfold carryInRow
  by_cases hcond : getCell s.board i 0 = -1 ∧
      ∀ c ∈ s.cranes, c.container = -1 ∨ (c.x, c.y) ≠ (i, 0)
  · rw [if_pos hcond]
    have hib : i < s.board.length := by rw [h.hb]; exact hi
    have hrowmem : s.board.getD i [] ∈ s.board := getD_mem_of_lt _ _ _ hib
    have hirow : (0 : Nat) < (s.board.getD i []).length := by
      rw [h.hbrow _ hrowmem]
      omega
    have hiq : i < s.queue.length := by rw [h.hq]; exact hi
    have hqmem : s.queue.getD i [] ∈ s.queue := getD_mem_of_lt _ _ _ hiq
    cases hlast : (s.queue.getD i []).getLast? with
    | none =>
      rw [List.getLast?_eq_none_iff] at hlast
      refine ⟨h.hnusize, ?_, h.hd, ?_, ?_, h.hc, h.hpos, ?_, h.hcraneRange, ?_,
        h.hdoneRange, distinct_of_cranes_eq s _ rfl h.hdistinct, ?_⟩
      · rw [List.length_set]; exact h.hq
      · rw [setCell_length]; exact h.hb
      · intro row hrow
        rcases List.mem_or_eq_of_mem_set hrow with hrow | rfl
        · exact h.hbrow row hrow
        · rw [List.length_set]
          exact h.hbrow _ hrowmem
      · intro row hrow
        rcases List.mem_or_eq_of_mem_set hrow with hrow | rfl
        · exact h.hboardRange row hrow
        · intro v hv
          rcases List.mem_or_eq_of_mem_set hv with hv | rfl
          · exact h.hboardRange _ hrowmem v hv
          · exact Or.inl rfl
      · intro row hrow
        rcases List.mem_or_eq_of_mem_set hrow with hrow | rfl
        · exact h.hqueueRange row hrow
        · intro v hv
          rw [hlast] at hv
          cases hv
      · intro w hw
        have hcnt0 := h.hcount w hw
        have hbcnt := count_setCell_add s.board i 0 (-1) w hib hirow
        rw [hcond.1] at hbcnt
        have hqcnt := count_rowSet_add u32_as_i32 s.queue i
          (s.queue.getD i []).dropLast w hiq
        rw [hlast] at hqcnt
        simp only [List.dropLast_nil, List.map_nil, List.count_nil] at hqcnt
        unfold cntState at hcnt0 ⊢
        dsimp only at hcnt0 ⊢
        rw [hlast]
        simp only [List.dropLast_nil]
        omega
    | some v =>
      rw [List.getLast?_eq_some_iff] at hlast
      obtain ⟨ys, hys⟩ := hlast
      dsimp only
      have hvlt : v < 2 ^ 31 := h.hqueueRange _ hqmem v (by rw [hys]; simp)
      have hdrop : (s.queue.getD i []).dropLast = ys := by rw [hys, List.dropLast_concat]
      refine ⟨h.hnusize, ?_, h.hd, ?_, ?_, h.hc, h.hpos, ?_, h.hcraneRange, ?_,
        h.hdoneRange, distinct_of_cranes_eq s _ rfl h.hdistinct, ?_⟩
      · rw [List.length_set]; exact h.hq
      · rw [setCell_length]; exact h.hb
      · intro row hrow
        rcases List.mem_or_eq_of_mem_set hrow with hrow | rfl
        · exact h.hbrow row hrow
        · rw [List.length_set]
          exact h.hbrow _ hrowmem
      · intro row hrow
        rcases List.mem_or_eq_of_mem_set hrow with hrow | rfl
        · exact h.hboardRange row hrow
        · intro u hu
          rcases List.mem_or_eq_of_mem_set hu with hu | rfl
          · exact h.hboardRange _ hrowmem u hu
          · rw [u32_small v hvlt]
            right
            constructor
            · omega
            · omega
      · intro row hrow
        rcases List.mem_or_eq_of_mem_set hrow with hrow | rfl
        · exact h.hqueueRange row hrow
        · intro u hu
          exact h.hqueueRange _ hqmem u (List.mem_of_mem_dropLast hu)
      · intro w hw
        have hcnt0 := h.hcount w hw
        have hbcnt := count_setCell_add s.board i 0 (u32_as_i32 v) w hib hirow
        rw [hcond.1] at hbcnt
        have hind1 : (if (-1 : Int) = w then 1 else 0) = 0 :=
          if_neg fun hcon => hw hcon.symm
        rw [hind1] at hbcnt
        have hqcnt := count_rowSet_add u32_as_i32 s.queue i
          (s.queue.getD i []).dropLast w hiq
        have hcountrow : ((s.queue.getD i []).map u32_as_i32).count w =
            (((s.queue.getD i []).dropLast.map u32_as_i32).count w) +
            (if u32_as_i32 v = w then 1 else 0) := by
          rw [hdrop, hys, List.map_append, List.count_append, List.map_singleton]
          simp only [List.count_singleton, beq_iff_eq]
        rw [hcountrow] at hqcnt
        unfold cntState at hcnt0 ⊢
        dsimp only at hcnt0 ⊢
        omega
  · rw [if_neg hcond]
    exact h

theorem carry_out_inv (input : Input) (s : State) (h : StateInv input s) :
    StateInv input (State.carry_out s) := by
  unfold State.carry_out
  have hlen : s.len = input.n := h.hc
  refine foldl_preserve (StateInv input) _ _ _ h ?_
  intro t i hi ht
  exact carryOutRow_inv input s.len t i hlen
    (by rw [← hlen]; exact List.mem_range.mp hi) ht

theorem carry_in_inv (input : Input) (s : State) (h : StateInv input s) :
    StateInv input (State.carry_in s) := by
  unfold State.carry_in
  have hlen : s.len = input.n := h.hc
  refine foldl_preserve (StateInv input) _ _ _ h ?_
  intro t i hi ht
  exact carryInRow_inv input t i (by rw [← hlen]; exact List.mem_range.mp hi) ht

theorem collision_distinct (s next : State) (hlen : next.cranes.length = s.cranes.length)
    (hc : collisionCheck s next = .ok ()) : distinctPositions next := by
  rw [collisionCheck_ok_iff] at hc
  intro i j hi hj hij hbi hbj heq
  unfold State.len at hi hj
  rw [hlen] at hi hj
  rcases Nat.lt_or_ge j i with hlt | hge
  · exact hc i hi j hlt hbi hbj (Or.inl heq)
  · exact hc j hj i (Nat.lt_of_le_of_ne hge hij) hbj hbi (Or.inl heq.symm)

theorem step_preserves_inv (input : Input) (s s2 : State) (mv : List Move)
    (hinv : StateInv input s) (h : State.step s mv = .ok s2) :
    StateInv input s2 := by
  obtain ⟨next, hp, hc, hcommit⟩ := step_ok_decompose s mv s2 h
  have hmid := stepPhase1_mid input s mv next hinv hp
  have hnextinv : StateInv input next := by
    refine ⟨hinv.hnusize, ?_, ?_, ?_, ?_, ?_, hmid.hposN, hmid.hbrangeN, hmid.hcrangeN,
      ?_, ?_, ?_, ?_⟩
    · rw [hmid.hq]; exact hinv.hq
    · rw [hmid.hd]; exact hinv.hd
    · rw [hmid.hblen]; exact hinv.hb
    · intro row hrow
      obtain ⟨x, hx, hget⟩ := mem_imp_getD next.board row [] hrow
      rw [← hget, hmid.hrowlen x]
      exact hinv.hbrow _ (getD_mem_of_lt _ _ _ (by rw [hmid.hblen] at hx; exact hx))
    · rw [hmid.hclen]; exact hinv.hc
    · rw [hmid.hq]; exact hinv.hqueueRange
    · rw [hmid.hd]; exact hinv.hdoneRange
    · exact collision_distinct s next hmid.hclen hc
    · intro w hw
      rw [hmid.hcnt w hw]
      exact hinv.hcount w hw
  rw [hcommit]
  exact carry_in_inv input _ (carry_out_inv input next hnextinv)

theorem flatten_map_reverse_perm {α : Type} :
    ∀ (a : List (List α)), ((a.map List.reverse).flatten).Perm a.flatten := by
  intro a
  induction a with
  | nil => exact List.Perm.refl _
  | cons r rest ih =>
    simp only [List.map_cons, List.flatten_cons]
    exact List.Perm.append (List.reverse_perm r) ih

theorem new_inv (input : Input) (hwf : WFInput input) : StateInv input (State.new input) := by
  obtain ⟨hus, hn31, halen, hrows, hperm⟩ := hwf
  unfold State.new
  dsimp only
  apply carry_in_inv
  have hne1 : input.n ≤ NEG1 := by unfold NEG1 USIZE at *; omega
  refine ⟨hus, ?_, ?_, ?_, ?_, ?_, ?_, ?_, ?_, ?_, ?_, ?_, ?_⟩
  · simp [halen]
  · simp
  · simp
  · intro row hrow
    rw [List.eq_of_mem_replicate hrow]
    simp
  · simp
  · intro c hcm
    rw [List.mem_map] at hcm
    obtain ⟨i, hi, rfl⟩ := hcm
    rw [List.mem_range] at hi
    refine Or.inl ⟨?_, hi, ?_⟩
    · show (i == NEG1) = false
      exact beq_nat_false_of_ne (by omega)
    · show (0 : Nat) < input.n
      omega
  · intro row hrow
    rw [List.eq_of_mem_replicate hrow]
    intro v hv
    rw [List.eq_of_mem_replicate hv]
    exact Or.inl rfl
  · intro c hcm
    rw [List.mem_map] at hcm
    obtain ⟨i, _, rfl⟩ := hcm
    exact Or.inl rfl
  · intro row hrow
    rw [List.mem_map] at hrow
    obtain ⟨r, hr, rfl⟩ := hrow
    intro v hv
    rw [List.mem_reverse] at hv
    have hvmem : v ∈ input.a.flatten := List.mem_flatten.mpr ⟨r, hr, hv⟩
    have := hperm.mem_iff.mp hvmem
    rw [List.mem_range] at this
    omega
  · intro row hrow
    rw [List.eq_of_mem_replicate hrow]
    intro v hv
    cases hv
  · intro i j hi hj hij hbi hbj
    unfold State.len at hi hj
    dsimp only at hi hj
    rw [List.length_map, List.length_range] at hi hj
    have hcrane : ∀ k, k < input.n →
        craneAt { queue := input.a.map List.reverse,
                  done := List.replicate input.n [],
                  board := List.replicate input.n (List.replicate input.n (-1)),
                  cranes := (List.range input.n).map fun i =>
                    ({ large := i == 0, x := i, y := 0, container := -1 } : Crane) } k =
          { large := k == 0, x := k, y := 0, container := -1 } := by
      intro k hk
      unfold craneAt
      dsimp only
      rw [List.getD_eq_getElem?_getD, List.getElem?_map, List.getElem?_range hk]
      rfl
    rw [hcrane i hi, hcrane j hj]
    unfold Crane.get_pos
    intro hcon
    exact hij (congrArg Prod.fst hcon)
  · intro w hw
    unfold cntState
    dsimp only
    have hboard0 : ((List.replicate input.n (List.replicate input.n (-1 : Int))).flatten).count w
        = 0 := by
      refine count_eq_zero_of_all_ne _ _ ?_
      intro v hv
      rw [List.mem_flatten] at hv
      obtain ⟨row, hrow, hv⟩ := hv
      rw [List.eq_of_mem_replicate hrow] at hv
      rw [List.eq_of_mem_replicate hv]
      exact fun hcon => hw hcon.symm
    have hcrane0 : (((List.range input.n).map fun i =>
        ({ large := i == 0, x := i, y := 0, container := -1 } : Crane)).map
          Crane.container).count w = 0 := by
      refine count_eq_zero_of_all_ne _ _ ?_
      intro v hv
      rw [List.map_map, List.mem_map] at hv
      obtain ⟨i, _, rfl⟩ := hv
      exact fun hcon => hw hcon.symm
    have hdone0 : (((List.replicate input.n ([] : List Nat)).flatten).map u32_as_i32).count w
        = 0 := by
      refine count_eq_zero_of_all_ne _ _ ?_
      intro v hv
      rw [List.mem_map] at hv
      obtain ⟨u, hu, rfl⟩ := hv
      rw [List.mem_flatten] at hu
      obtain ⟨row, hrow, hu⟩ := hu
      rw [List.eq_of_mem_replicate hrow] at hu
      cases hu
    have hqueue : (((input.a.map List.reverse).flatten).map u32_as_i32).count w =
        ((input.a.flatten).map u32_as_i32).count w :=
      ((flatten_map_reverse_perm input.a).map u32_as_i32).count_eq w
    rw [hboard0, hcrane0, hdone0, hqueue]
    omega

theorem reachable_inv (input : Input) (s : State) (hwf : WFInput input)
    (hr : Reachable input s) : StateInv input s := by
  induction hr with
  | base => exact new_inv input hwf
  | step s mv s2 hr hstep ih => exact step_preserves_inv input s s2 mv ih hstep

/-- C2: in every state reachable from `State::new` on a well-formed input,
the container ids present across the board, the intake queues, the crane
payloads and the done lists are exactly `0 .. n²-1`, each occurring exactly
once (so their total number is `n²`). -/
theorem claim2_conservation (input : Input) (s : State)
    (hwf : WFInput input) (hr : Reachable input s) :
    (containersOf s).Perm ((List.range (input.n * input.n)).map (fun k : Nat => (k : Int))) := by
  have hinv := reachable_inv input s hwf hr
  obtain ⟨hus, hn31, halen, hrows, hperm⟩ := hwf
  rw [List.perm_iff_count]
  intro w
  unfold containersOf
  simp only [List.count_append]
  by_cases hw : w = -1
  · subst hw
    have h1 : ((s.board.flatten.filter (fun v => v ≠ -1))).count (-1) = 0 := by
      refine count_eq_zero_of_all_ne _ _ ?_
      intro v hv
      have := List.of_mem_filter hv
      simpa using this
    have h2 : ((s.queue.flatten.map u32_as_i32)).count (-1) = 0 := by
      refine count_eq_zero_of_all_ne _ _ ?_
      intro v hv
      rw [List.mem_map] at hv
      obtain ⟨u, hu, rfl⟩ := hv
      rw [List.mem_flatten] at hu
      obtain ⟨row, hrow, hu⟩ := hu
      have hlt := hinv.hqueueRange row hrow u hu
      rw [u32_small u hlt]
      intro hcon
      omega
    have h3 : (((s.cranes.map Crane.container).filter (fun v => v ≠ -1))).count (-1) = 0 := by
      refine count_eq_zero_of_all_ne _ _ ?_
      intro v hv
      have := List.of_mem_filter hv
      simpa using this
    have h4 : ((s.done.flatten.map u32_as_i32)).count (-1) = 0 := by
      refine count_eq_zero_of_all_ne _ _ ?_
      intro v hv
      rw [List.mem_map] at hv
      obtain ⟨u, hu, rfl⟩ := hv
      rw [List.mem_flatten] at hu
      obtain ⟨row, hrow, hu⟩ := hu
      have hlt := hinv.hdoneRange row hrow u hu
      rw [u32_small u hlt]
      intro hcon
      omega
    have h5 : (((List.range (input.n * input.n)).map (fun k : Nat => (k : Int)))).count (-1) = 0 := by
      refine count_eq_zero_of_all_ne _ _ ?_
      intro v hv
      rw [List.mem_map] at hv
      obtain ⟨k, _, rfl⟩ := hv
      intro hcon
      omega
    rw [h1, h2, h3, h4, h5]
  · have hfilter : ∀ (l : List Int), ((l.filter (fun v => v ≠ -1))).count w = l.count w := by
      intro l
      refine List.count_filter ?_
      simp [hw]
    rw [hfilter, hfilter]
    have hcnt := hinv.hcount w hw
    unfold cntState at hcnt
    have hperm2 : ((input.a.flatten.map u32_as_i32)).count w =
        (((List.range (input.n * input.n)).map u32_as_i32)).count w :=
      (hperm.map u32_as_i32).count_eq w
    have hcast : (List.range (input.n * input.n)).map u32_as_i32 =
        (List.range (input.n * input.n)).map (fun k : Nat => (k : Int)) := by
      apply List.map_congr_left
      intro k hk
      rw [List.mem_range] at hk
      exact u32_small k (by omega)
    rw [hcast] at hperm2
    omega

/-- Concrete instantiation of `claim2_conservation` at the initial state of a
well-formed 2-by-2 input. -/
theorem claim2_witness :
    (containersOf (State.new input2)).Perm
      ((List.range (input2.n * input2.n)).map (fun k : Nat => (k : Int))) :=
  claim2_conservation input2 _ (by constructor <;> decide) Reachable.base

/-! ### Carry-out / carry-in characterization (claim C6) -/

theorem getD_ne_default_lt {α : Type} (l : List α) (k : Nat) (d : α)
    (h : l.getD k d ≠ d) : k < l.length := by
  by_contra hk
  rw [List.getD_eq_getElem?_getD, List.getElem?_eq_none (Nat.le_of_not_lt hk)] at h
  exact h rfl

theorem carryOutRow_queue (n : Nat) (t : State) (i : Nat) :
    (carryOutRow n t i).queue = t.queue := by
  unfold carryOutRow; dsimp only; split_ifs <;> rfl

theorem carryOutRow_done_other (n : Nat) (t : State) (i j : Nat) (hij : i ≠ j) :
    (carryOutRow n t i).done.getD j [] = t.done.getD j [] := by
  unfold carryOutRow; dsimp only; split_ifs with hc
  · exact getD_set_ne _ _ _ _ _ hij
  · rfl

theorem carryOutRow_board_other (n : Nat) (t : State) (i j : Nat) (hij : i ≠ j) :
    (carryOutRow n t i).board.getD j [] = t.board.getD j [] := by
  unfold carryOutRow; dsimp only; split_ifs with hc
  · exact getD_set_ne _ _ _ _ _ hij
  · rfl

theorem carryOutRow_lens (n : Nat) (t : State) (i : Nat) :
    (carryOutRow n t i).done.length = t.done.length ∧
    (carryOutRow n t i).board.length = t.board.length ∧
    (∀ x, ((carryOutRow n t i).board.getD x []).length = (t.board.getD x []).length) := by
  unfold carryOutRow; dsimp only; split_ifs with hc
  · exact ⟨List.length_set .., setCell_length .., fun x => setCell_row_length _ _ _ _ _⟩
  · exact ⟨rfl, rfl, fun _ => rfl⟩

theorem carryOutRow_done_self (n : Nat) (t : State) (i : Nat) (hid : i < t.done.length) :
    (carryOutRow n t i).done.getD i [] =
      (if getCell t.board i (n - 1) = -1 then t.done.getD i []
       else t.done.getD i [] ++ [i32_as_u32 (getCell t.board i (n - 1))]) := by
  unfold carryOutRow; dsimp only
  by_cases hc : getCell t.board i (n - 1) ≠ -1
  · rw [if_pos hc, if_neg hc]
    exact getD_set_self _ _ _ _ hid
  · rw [if_neg hc, if_pos (by push_neg at hc; exact hc)]

theorem carryOutRow_board_self (n : Nat) (t : State) (i : Nat) :
    getCell (carryOutRow n t i).board i (n - 1) = -1 := by
  unfold carryOutRow; dsimp only
  by_cases hc : getCell t.board i (n - 1) ≠ -1
  · rw [if_pos hc]
    have hrow : n - 1 < (t.board.getD i []).length :=
      getD_ne_default_lt _ _ _ hc
    have hib : i < t.board.length := by
      by_contra hib
      have : t.board.getD i [] = [] := by
        rw [List.getD_eq_getElem?_getD, List.getElem?_eq_none (Nat.le_of_not_lt hib)]
        rfl
      rw [this] at hrow
      cases hrow
    exact getCell_setCell_self _ _ _ _ hib hrow
  · rw [if_neg hc]
    push_neg at hc
    exact hc

theorem carryOut_fold_queue (n : Nat) (l : List Nat) (t : State) :
    (l.foldl (carryOutRow n) t).queue = t.queue :=
  foldl_preserve (fun t2 => t2.queue = t.queue) _ _ _ rfl
    fun t2 a _ h => (carryOutRow_queue n t2 a).trans h

theorem carryOut_fold_lens (n : Nat) (l : List Nat) (t : State) :
    (l.foldl (carryOutRow n) t).done.length = t.done.length ∧
    (l.foldl (carryOutRow n) t).board.length = t.board.length ∧
    (∀ x, (((l.foldl (carryOutRow n) t).board.getD x []).length =
      (t.board.getD x []).length)) :=
  foldl_preserve (fun t2 => t2.done.length = t.done.length ∧
      t2.board.length = t.board.length ∧
      (∀ x, ((t2.board.getD x []).length = (t.board.getD x []).length)))
    _ _ _ ⟨rfl, rfl, fun _ => rfl⟩
    fun t2 a _ h => ⟨(carryOutRow_lens n t2 a).1.trans h.1,
      (carryOutRow_lens n t2 a).2.1.trans h.2.1,
      fun x => ((carryOutRow_lens n t2 a).2.2 x).trans (h.2.2 x)⟩

theorem carryOut_fold_notmem (n : Nat) :
    ∀ (l : List Nat) (t : State) (i : Nat), i ∉ l →
      (l.foldl (carryOutRow n) t).done.getD i [] = t.done.getD i [] ∧
      (l.foldl (carryOutRow n) t).board.getD i [] = t.board.getD i [] := by
  intro l
  induction l with
  | nil => intro t i _; exact ⟨rfl, rfl⟩
  | cons a l ih =>
    intro t i hi
    rw [List.foldl_cons]
    have hai : a ≠ i := fun hcon => hi (hcon ▸ List.mem_cons_self a l)
    have hrest := ih (carryOutRow n t a) i (fun hcon => hi (List.mem_cons_of_mem a hcon))
    exact ⟨hrest.1.trans (carryOutRow_done_other n t a i hai),
      hrest.2.trans (carryOutRow_board_other n t a i hai)⟩

theorem carryOut_fold_mem (n : Nat) :
    ∀ (l : List Nat) (t : State) (i : Nat), l.Nodup → i ∈ l → i < t.done.length →
      (l.foldl (carryOutRow n) t).done.getD i [] =
        (if getCell t.board i (n - 1) = -1 then t.done.getD i []
         else t.done.getD i [] ++ [i32_as_u32 (getCell t.board i (n - 1))]) ∧
      getCell (l.foldl (carryOutRow n) t).board i (n - 1) = -1 := by
  intro l
  induction l with
  | nil => intro t i _ hi; cases hi
  | cons a l ih =>
    intro t i hnd hi hid
    rw [List.foldl_cons]
    rcases List.mem_cons.mp hi with rfl | hi2
    · have hnotin : i ∉ l := (List.nodup_cons.mp hnd).1
      have hrest := carryOut_fold_notmem n l (carryOutRow n t i) i hnotin
      constructor
      · rw [hrest.1]
        exact carryOutRow_done_self n t i hid
      · show (((l.foldl (carryOutRow n) (carryOutRow n t i)).board.getD i []).getD (n-1) (-1))
          = -1
        rw [hrest.2]
        exact carryOutRow_board_self n t i
    · by_cases hai : a = i
      · subst hai
        have hnotin : a ∉ l := (List.nodup_cons.mp hnd).1
        exact absurd hi2 hnotin
      · have hrec := ih (carryOutRow n t a) i (List.nodup_cons.mp hnd).2 hi2
          (by rw [(carryOutRow_lens n t a).1]; exact hid)
        have hbo := carryOutRow_board_other n t a i hai
        have hdo := carryOutRow_done_other n t a i hai
        constructor
        · rw [hrec.1, hdo]
          have : getCell (carryOutRow n t a).board i (n - 1) = getCell t.board i (n - 1) := by
            unfold getCell
            rw [hbo]
          rw [this]
        · exact hrec.2

theorem carryInRow_done (t : State) (i : Nat) : (carryInRow t i).done = t.done := by
  unfold carryInRow; split_ifs <;> rfl

theorem carryInRow_queue_other (t : State) (i j : Nat) (hij : i ≠ j) :
    (carryInRow t i).queue.getD j [] = t.queue.getD j [] := by
  unfold carryInRow; split_ifs with hc
  · exact getD_set_ne _ _ _ _ _ hij
  · rfl

theorem carryInRow_board_other (t : State) (i j : Nat) (hij : i ≠ j) :
    (carryInRow t i).board.getD j [] = t.board.getD j [] := by
  unfold carryInRow; split_ifs with hc
  · exact getD_set_ne _ _ _ _ _ hij
  · rfl

theorem carryInRow_lens (t : State) (i : Nat) :
    (carryInRow t i).queue.length = t.queue.length ∧
    (carryInRow t i).board.length = t.board.length ∧
    (∀ x, ((carryInRow t i).board.getD x []).length = (t.board.getD x []).length) := by
  unfold carryInRow; split_ifs with hc
  · exact ⟨List.length_set .., setCell_length .., fun x => setCell_row_length _ _ _ _ _⟩
  · exact ⟨rfl, rfl, fun _ => rfl⟩

/-- The carry-in condition of a row: intake cell free and no container-holding
crane sitting on it. -/
def carryInCond (t : State) (i : Nat) : Prop :=
  getCell t.board i 0 = -1 ∧ ∀ c ∈ t.cranes, c.container = -1 ∨ (c.x, c.y) ≠ (i, 0)

instance (t : State) (i : Nat) : Decidable (carryInCond t i) := by
  unfold carryInCond; infer_instance

theorem carryInRow_self (t : State) (i : Nat) (hq : i < t.queue.length)
    (hb : i < t.board.length) (hrow : 0 < (t.board.getD i []).length) :
    (carryInCond t i →
      (carryInRow t i).queue.getD i [] = (t.queue.getD i []).dropLast ∧
      getCell (carryInRow t i).board i 0 =
        (match (t.queue.getD i []).getLast? with
         | some v => u32_as_i32 v
         | none => -1)) ∧
    (¬ carryInCond t i →
      (carryInRow t i).queue.getD i [] = t.queue.getD i [] ∧
      getCell (carryInRow t i).board i 0 = getCell t.board i 0) := by
  unfold carryInRow carryInCond
  constructor
  · intro hcond
    rw [if_pos hcond]
    exact ⟨getD_set_self _ _ _ _ hq, getCell_setCell_self _ _ _ _ hb hrow⟩
  · intro hcond
    rw [if_neg hcond]
    exact ⟨rfl, rfl⟩

theorem carryIn_fold_done (l : List Nat) (t : State) :
    (l.foldl carryInRow t).done = t.done :=
  foldl_preserve (fun t2 => t2.done = t.done) _ _ _ rfl
    fun t2 a _ h => (carryInRow_done t2 a).trans h

theorem carryIn_fold_notmem :
    ∀ (l : List Nat) (t : State) (i : Nat), i ∉ l →
      (l.foldl carryInRow t).queue.getD i [] = t.queue.getD i [] ∧
      (l.foldl carryInRow t).board.getD i [] = t.board.getD i [] := by
  intro l
  induction l with
  | nil => intro t i _; exact ⟨rfl, rfl⟩
  | cons a l ih =>
    intro t i hi
    rw [List.foldl_cons]
    have hai : a ≠ i := fun hcon => hi (hcon ▸ List.mem_cons_self a l)
    have hrest := ih (carryInRow t a) i (fun hcon => hi (List.mem_cons_of_mem a hcon))
    exact ⟨hrest.1.trans (carryInRow_queue_other t a i hai),
      hrest.2.trans (carryInRow_board_other t a i hai)⟩

theorem carryIn_fold_mem :
    ∀ (l : List Nat) (t : State) (i : Nat), l.Nodup → i ∈ l → i < t.queue.length →
      i < t.board.length → 0 < (t.board.getD i []).length →
      (carryInCond t i →
        (l.foldl carryInRow t).queue.getD i [] = (t.queue.getD i []).dropLast ∧
        getCell (l.foldl carryInRow t).board i 0 =
          (match (t.queue.getD i []).getLast? with
           | some v => u32_as_i32 v
           | none => -1)) ∧
      (¬ carryInCond t i →
        (l.foldl carryInRow t).queue.getD i [] = t.queue.getD i [] ∧
        getCell (l.foldl carryInRow t).board i 0 = getCell t.board i 0) := by
  intro l
  induction l with
  | nil => intro t i _ hi; cases hi
  | cons a l ih =>
    intro t i hnd hi hq hb hrow
    rw [List.foldl_cons]
    rcases List.mem_cons.mp hi with rfl | hi2
    · have hnotin : i ∉ l := (List.nodup_cons.mp hnd).1
      have hrest := carryIn_fold_notmem l (carryInRow t i) i hnotin
      have hself := carryInRow_self t i hq hb hrow
      have hgb : getCell (l.foldl carryInRow (carryInRow t i)).board i 0 =
          getCell (carryInRow t i).board i 0 := by
        unfold getCell
        rw [hrest.2]
      constructor
      · intro hcond
        exact ⟨hrest.1.trans (hself.1 hcond).1, hgb.trans (hself.1 hcond).2⟩
      · intro hcond
        exact ⟨hrest.1.trans (hself.2 hcond).1, hgb.trans (hself.2 hcond).2⟩
    · by_cases hai : a = i
      · subst hai
        exact absurd hi2 (List.nodup_cons.mp hnd).1
      · have hqa : (carryInRow t a).queue.getD i [] = t.queue.getD i [] :=
          carryInRow_queue_other t a i hai
        have hba : (carryInRow t a).board.getD i [] = t.board.getD i [] :=
          carryInRow_board_other t a i hai
        have hga : getCell (carryInRow t a).board i 0 = getCell t.board i 0 := by
          unfold getCell
          rw [hba]
        have hcranes : (carryInRow t a).cranes = t.cranes := carryInRow_cranes t a
        have hcondeq : carryInCond (carryInRow t a) i ↔ carryInCond t i := by
          unfold carryInCond
          rw [hga, hcranes]
        have hrec := ih (carryInRow t a) i (List.nodup_cons.mp hnd).2 hi2
          (by rw [(carryInRow_lens t a).1]; exact hq)
          (by rw [(carryInRow_lens t a).2.1]; exact hb)
          (by rw [(carryInRow_lens t a).2.2 i]; exact hrow)
        constructor
        · intro hcond
          have h1 := hrec.1 (hcondeq.mpr hcond)
          rw [hqa] at h1
          exact h1
        · intro hcond
          have h1 := hrec.2 (fun hcon => hcond (hcondeq.mp hcon))
          rw [hqa, hga] at h1
          exact h1

/-- C6: a successful `step` commits the staged moves and then performs
carry-out (every container at its row's terminal column is appended to that
row's done list and its cell freed) followed by carry-in (each row whose
intake cell is empty and free of container-holding cranes pops the tail of
its queue — the next container in input order — into the cell); queues only
ever lose their tail element and are otherwise unchanged. -/
theorem claim6_carry_phases (s : State) (mv : List Move) (s2 : State)
    (hq : s.queue.length = s.len) (hd : s.done.length = s.len) (hb : s.board.length = s.len)
    (hbrow : ∀ row ∈ s.board, row.length = s.len)
    (h : State.step s mv = .ok s2) :
    ∃ mid, stepPhase1 s mv = .ok mid ∧ collisionCheck s mid = .ok () ∧
      s2 = State.carry_in (State.carry_out mid) ∧
      mid.queue = s.queue ∧ mid.done = s.done ∧
      (∀ i < mid.len,
        (State.carry_out mid).done.getD i [] =
          (if getCell mid.board i (mid.len - 1) = -1 then mid.done.getD i []
           else mid.done.getD i [] ++ [i32_as_u32 (getCell mid.board i (mid.len - 1))]) ∧
        getCell (State.carry_out mid).board i (mid.len - 1) = -1) ∧
      (∀ i < (State.carry_out mid).len,
        (carryInCond (State.carry_out mid) i →
          s2.queue.getD i [] = ((State.carry_out mid).queue.getD i []).dropLast ∧
          getCell s2.board i 0 =
            (match ((State.carry_out mid).queue.getD i []).getLast? with
             | some v => u32_as_i32 v
             | none => -1)) ∧
        (¬ carryInCond (State.carry_out mid) i →
          s2.queue.getD i [] = (State.carry_out mid).queue.getD i [] ∧
          getCell s2.board i 0 = getCell (State.carry_out mid).board i 0)) ∧
      (∀ i, s2.queue.getD i [] = s.queue.getD i [] ∨
        s2.queue.getD i [] = (s.queue.getD i []).dropLast) := by
  obtain ⟨mid, hp, hc, hcommit⟩ := step_ok_decompose s mv s2 h
  obtain ⟨hmq, hmd, hmc, hmb, hmrow⟩ := stepPhase1_shape s mv mid hp
  have hmlen : mid.len = s.len := hmc
  have hco : State.carry_out mid = (List.range mid.len).foldl (carryOutRow mid.len) mid := rfl
  have htq : (State.carry_out mid).queue = s.queue := by
    rw [hco, carryOut_fold_queue, hmq]
  have htc : (State.carry_out mid).cranes = mid.cranes := carry_out_cranes mid
  have htlen : (State.carry_out mid).len = s.len := by
    show (State.carry_out mid).cranes.length = _
    rw [htc]
    exact hmc
  have hci : State.carry_in (State.carry_out mid) =
      (List.range (State.carry_out mid).len).foldl carryInRow (State.carry_out mid) := rfl
  refine ⟨mid, hp, hc, hcommit, hmq, hmd, ?_, ?_, ?_⟩
  · intro i hi
    rw [hco]
    exact carryOut_fold_mem mid.len (List.range mid.len) mid i (List.nodup_range _)
      (List.mem_range.mpr hi)
      (by rw [hmd, hd, ← hmlen]; exact hi)
  · intro i hi
    have hiq : i < (State.carry_out mid).queue.length := by
      rw [htq, hq, ← htlen]; exact hi
    have hib : i < (State.carry_out mid).board.length := by
      rw [hco, (carryOut_fold_lens mid.len (List.range mid.len) mid).2.1, hmb, hb, ← htlen]
      exact hi
    have hirow : 0 < ((State.carry_out mid).board.getD i []).length := by
      rw [hco, (carryOut_fold_lens mid.len (List.range mid.len) mid).2.2 i, hmrow i]
      have hibs : i < s.board.length := by rw [hb, ← htlen]; exact hi
      rw [hbrow _ (getD_mem_of_lt _ _ _ hibs)]
      rw [htlen] at hi
      omega
    have := carryIn_fold_mem (List.range (State.carry_out mid).len) (State.carry_out mid) i
      (List.nodup_range _) (List.mem_range.mpr hi) hiq hib hirow
    rw [hcommit, hci]
    exact this
  · intro i
    by_cases hi : i < (State.carry_out mid).len
    · have hiq : i < (State.carry_out mid).queue.length := by
        rw [htq, hq, ← htlen]; exact hi
      have hib : i < (State.carry_out mid).board.length := by
        rw [hco, (carryOut_fold_lens mid.len (List.range mid.len) mid).2.1, hmb, hb, ← htlen]
        exact hi
      have hirow : 0 < ((State.carry_out mid).board.getD i []).length := by
        rw [hco, (carryOut_fold_lens mid.len (List.range mid.len) mid).2.2 i, hmrow i]
        have hibs : i < s.board.length := by rw [hb, ← htlen]; exact hi
        rw [hbrow _ (getD_mem_of_lt _ _ _ hibs)]
        rw [htlen] at hi
        omega
      have hspec := carryIn_fold_mem (List.range (State.carry_out mid).len)
        (State.carry_out mid) i (List.nodup_range _) (List.mem_range.mpr hi) hiq hib hirow
      by_cases hcond : carryInCond (State.carry_out mid) i
      · right
        rw [hcommit, hci]
        rw [(hspec.1 hcond).1, htq]
      · left
        rw [hcommit, hci]
        rw [(hspec.2 hcond).1, htq]
    · left
      have hnotmem : i ∉ List.range (State.carry_out mid).len :=
        fun hcon => hi (List.mem_range.mp hcon)
      have := carryIn_fold_notmem (List.range (State.carry_out mid).len)
        (State.carry_out mid) i hnotmem
      rw [hcommit, hci, this.1, htq]

/-- Concrete instantiation of `claim6_carry_phases` on a successful turn. -/
theorem claim6_witness :
    ∃ s2, State.step (State.new input2) [Move.MoveDir 3, Move.Stay] = .ok s2 ∧
      (∀ i, s2.queue.getD i [] = (State.new input2).queue.getD i [] ∨
        s2.queue.getD i [] = ((State.new input2).queue.getD i []).dropLast) := by
  refine ⟨_, rfl, ?_⟩
  have := claim6_carry_phases (State.new input2) [Move.MoveDir 3, Move.Stay] _
    (by decide) (by decide) (by decide) (by decide) rfl
  obtain ⟨mid, _, _, _, _, _, _, _, hshrink⟩ := this
  exact hshrink

/-! ### The planner and solver (claims C7, C8, C9) -/

/-- `manhattan_distance`. -/
def manhattan_distance (x y : Nat × Nat) : Nat :=
  (Nat.max x.1 y.1 - Nat.min x.1 y.1) + (Nat.max x.2 y.2 - Nat.min x.2 y.2)

/-- `State::next_containers_to_caryy_out` (sic): the next container id due in
each unfinished row. -/
def State.next_containers_to_caryy_out (s : State) : List Nat :=
  let n := s.len
  ((List.range n).filter (fun i => (s.done.getD i []).length < n)).map
    (fun i => n * i + (s.done.getD i []).length)

/-- `State::search_container`. -/
def State.search_container (s : State) (container : Nat) : ContainerState :=
  let n := s.len
  match (List.range n).findSome? (fun i => (List.range n).findSome? (fun j =>
      if getCell s.board i j = u32_as_i32 container then some (ContainerState.Board i j)
      else none)) with
  | some cs => cs
  | none =>
    match (List.range n).findSome? (fun i =>
        let k := (s.queue.getD i []).length
        (List.range k).findSome? (fun depth =>
          if (s.queue.getD i []).getD (k - 1 - depth) 0 = container then
            some (ContainerState.Queue i depth)
          else none)) with
    | some cs => cs
    | none =>
      match (List.range n).findSome? (fun i =>
          if u32_as_i32 container = (craneAt s i).container then
            some (ContainerState.Carrying i)
          else none) with
      | some cs => cs
      | none => ContainerState.Done

/-- Stable insertion of `x` into a sorted accumulator: `x` lands after every
earlier element whose key is `≤` its own, modeling the stability of Rust's
`sort_by_key` / `sort` (kept structurally recursive so the kernel can
evaluate it). -/
def insertSorted {α : Type} (le : α → α → Bool) (x : α) : List α → List α
  | [] => [x]
  | y :: ys => if le y x then y :: insertSorted le x ys else x :: y :: ys

/-- Stable sort by a Boolean comparison (models Rust `sort_by_key` / `sort`). -/
def stableSort {α : Type} (le : α → α → Bool) (l : List α) : List α :=
  l.foldl (fun acc x => insertSorted le x acc) []

/-- Release-mode `usize` subtraction (the source computes
`d + 1 - n_kicked[i]`, which wraps on underflow in release builds). -/
def usize_wrapping_sub (a b : Nat) : Nat := (a + (USIZE - b % USIZE)) % USIZE

/-- The `calc_n_kick` closure of `determine_target_containers`
(`usize::MAX` rendered as `NEG1`). -/
def calcNKick (n_kicked : List Nat) : ContainerState → Nat
  | .Board _ _ => 0
  | .Carrying _ => 0
  | .Queue i d => Nat.max 0 (usize_wrapping_sub (d + 1) (n_kicked.getD i 0))
  | .Done => NEG1

/-- The while-loop of `determine_target_containers`: sort the candidates by
kick count, commit the cheapest, update the per-row kick totals, drop it.
The loop removes exactly one candidate per iteration, so it is driven by a
fuel parameter that `determine_target_containers` initializes to the
candidate count (the 0-fuel branch coincides with the empty-candidate exit). -/
def dtcLoop (cstates : List ContainerState) (n : Nat) :
    Nat → List Nat → List Nat → List Nat → List Nat
  | 0, targets, _, _ => targets
  | fuel + 1, targets, n_kicked, cand =>
    if targets.length < n ∧ cand ≠ [] then
      match stableSort (fun a b =>
          calcNKick n_kicked (cstates.getD a ContainerState.Done) ≤
          calcNKick n_kicked (cstates.getD b ContainerState.Done)) cand with
      | [] => targets
      | cont :: rest =>
        let n_kicked2 := match cstates.getD cont ContainerState.Done with
          | ContainerState.Queue i d => n_kicked.set i (Nat.max (n_kicked.getD i 0) (d + 1))
          | _ => n_kicked
        dtcLoop cstates n fuel (targets ++ [cont]) n_kicked2 rest
    else targets

/-- `State::determine_target_containers`. -/
def State.determine_target_containers (s : State) : List Nat :=
  let n := s.len
  let container_states := (List.range (n * n)).map (fun cont => s.search_container cont)
  let cand := s.next_containers_to_caryy_out
  dtcLoop container_states n cand.length [] (List.replicate n 0) cand

/-- `State::make_destinations`. -/
def State.make_destinations (s : State) : List (Nat × Nat) :=
  let targets := s.determine_target_containers
  (targets.foldl (fun (acc : List (Nat × Nat) × List Nat) t =>
    match s.search_container t with
    | ContainerState.Done => acc
    | ContainerState.Carrying _ => acc
    | ContainerState.Board x y => (acc.1 ++ [(x, y)], acc.2)
    | ContainerState.Queue i d =>
      (acc.1 ++ List.replicate (d + 1 - acc.2.getD i 0) (i, 0),
       acc.2.set i (Nat.max (acc.2.getD i 0) (d + 1)))) ([], List.replicate s.len 0)).1

/-- `State::search_free_cells`. -/
def State.search_free_cells (s : State) : List (Nat × Nat) :=
  let n := s.len
  (List.range n).foldl (fun res i =>
    res ++ ((List.range' 2 (n - 1 - 2)).reverse.filterMap (fun j =>
      if getCell s.board i j = -1 then some (i, j) else none))) []

/-- `State::search_additional_free_cells`. -/
def State.search_additional_free_cells (s : State) : List (Nat × Nat) :=
  (List.range s.len).filterMap (fun i =>
    if (s.queue.getD i []) = [] ∧ getCell s.board i 0 = -1 then some (i, 0) else none)

/-- Direction deltas of `State::bfs` (`dx`/`dy` with the fifth stay entry). -/
def bfsDx : List Nat := [NEG1, 0, 1, 0, 0]

/-- Direction deltas of `State::bfs`. -/
def bfsDy : List Nat := [0, NEG1, 0, 1, 0]

/-- Read of the BFS distance grid. -/
def distGet (dist : List (List Nat)) (x y : Nat) : Nat := (dist.getD x []).getD y 0

/-- Write of the BFS distance grid. -/
def distSet (dist : List (List Nat)) (x y v : Nat) : List (List Nat) :=
  dist.set x ((dist.getD x []).set y v)

/-- The neighbor expansion (the `for dir1 in 0..4` loop body) of the BFS. -/
def bfsStep (board : List (List Int)) (n : Nat) (move_over : Bool) (x y d : Nat)
    (acc : List (Nat × Nat × Nat) × List (List Nat)) (dir1 : Nat) :
    List (Nat × Nat × Nat) × List (List Nat) :=
  let nx := wrap (x + bfsDx.getD dir1 0)
  let ny := wrap (y + bfsDy.getD dir1 0)
  if ¬(nx < n ∧ ny < n) ∨ (move_over = false ∧ getCell board nx ny ≠ -1) ∨
      distGet acc.2 nx ny < d then
    acc
  else
    (acc.1 ++ [(nx, ny, d + 1)], distSet acc.2 nx ny (d + 1))

/-- The `while !queue.is_empty()` loop of `State::bfs`, modeled with an
explicit fuel parameter; `bfs_loop_fuel_sufficient` (proved below) shows the
fuel supplied by `State.bfs` is never exhausted, so the 0-fuel branch is
unreachable and the function agrees with the source loop. -/
def bfsLoop (board : List (List Int)) (n : Nat) (tx ty : Nat) (move_over : Bool) :
    Nat → List (Nat × Nat × Nat) → List (List Nat) → Option Nat
  | 0, _, _ => none
  | _ + 1, [], _ => none
  | fuel + 1, (x, y, d) :: rest, dist =>
    if x = tx ∧ y = ty then some d
    else
      let acc := (List.range 4).foldl (bfsStep board n move_over x y d) (rest, dist)
      bfsLoop board n tx ty move_over fuel acc.1 acc.2

/-- Fuel bound for the BFS loop (every queue entry sits at its true BFS level
`≤ n²`, and at most `4^k` entries ever exist at level `k`). -/
def bfsFuel (n : Nat) : Nat := 5 ^ (n * n + 1) + 1

/-- One direction branch of `State::bfs`. -/
def bfsDir (s : State) (frm dst : Nat × Nat) (move_over : Bool) (dir : Nat) :
    Option (Move × Int) :=
  let n := s.len
  let sx1 := wrap (frm.1 + bfsDx.getD dir 0)
  let sy1 := wrap (frm.2 + bfsDy.getD dir 0)
  if ¬(sx1 < n ∧ sy1 < n) then none
  else if move_over = false ∧ getCell s.board sx1 sy1 ≠ -1 then none
  else
    match bfsLoop s.board n dst.1 dst.2 move_over (bfsFuel n) [(sx1, sy1, 1)]
        (distSet (List.replicate n (List.replicate n (2 ^ 60))) sx1 sy1 1) with
    | some d => some ((if dir < 4 then Move.MoveDir dir else Move.Stay), usize_as_i32 d)
    | none => none

/-- `State::bfs`: for each of the five first steps, the total distance to the
target via that first step, omitted when unreachable. -/
def State.bfs (s : State) (frm dst : Nat × Nat) (move_over : Bool) : List (Move × Int) :=
  (List.range 5).filterMap (bfsDir s frm dst move_over)

/-- `State::reachable`. -/
def State.reachable (s : State) (frm dst : Nat × Nat) (move_over : Bool) : Bool :=
  (s.bfs frm dst move_over).length != 0

/-- `struct Solver`. -/
structure Solver where
  input : Input
  state : State

/-- `Solver::new`. -/
def Solver.new (input : Input) : Solver := ⟨input, State.new input⟩

/-- The `dest_of_container` closure of `match_crane_with_target`: the final
output cell when the container is due for carry-out, otherwise the first
reachable unclaimed free cell (or an emptied intake cell nearest by Manhattan
distance), with `(!0, !0)` as the no-destination sentinel. -/
def dest_of_container (st : State) (n : Nat) (cand : List Int) (cont : Int)
    (start : Nat × Nat) (is_large : Bool) (dests : List (Nat × Nat)) : Nat × Nat :=
  if cont ∈ cand then
    (i32_as_usize cont / n, n - 1)
  else
    match st.search_free_cells.find? (fun dest =>
        st.reachable start dest is_large && decide (dest ∉ dests)) with
    | some dest => dest
    | none =>
      let cand2 := st.search_additional_free_cells.filter (fun dest =>
        st.reachable start dest is_large && decide (dest ∉ dests))
      if cand2 ≠ [] then
        (stableSort (fun a b =>
          manhattan_distance start a ≤ manhattan_distance start b) cand2).headD (NEG1, NEG1)
      else (NEG1, NEG1)

/-- `Solver::match_crane_with_target`: destinations for the busy cranes, then
greedy nearest-idle-crane assignment for the new tasks. -/
def Solver.match_crane_with_target (sol : Solver) (n_crane : Nat) : List (Nat × Nat) :=
  let n := sol.input.n
  let st := sol.state
  let cand := st.next_containers_to_caryy_out.map (fun x => usize_as_i32 x)
  let new_dest_set := st.make_destinations
  let dests0 : List (Nat × Nat) := List.replicate n_crane (NEG1, NEG1)
  let busy_list0 := (List.range n_crane).filter (fun i => (craneAt st i).container ≠ -1)
  let dests1 := busy_list0.foldl (fun dests i =>
    let xy := st.get_crane_pos i
    let cont := (craneAt st i).container
    let large := (craneAt st i).large
    if cont ≠ -1 then
      let dest := dest_of_container st n cand cont xy large dests
      if st.reachable xy dest large then dests.set i dest
      else if xy.2 ≠ n - 1 then dests.set i xy
      else dests.set i dest
    else dests) dests0
  (new_dest_set.foldl (fun (acc : List (Nat × Nat) × List Nat) task =>
    let dests := acc.1
    let busy := acc.2
    let c := getCell st.board task.1 task.2
    let cand2 := (List.range n_crane).filterMap (fun i =>
      if i ∈ busy then none
      else
        let large := (craneAt st i).large
        let dest2 := dest_of_container st n cand c task large dests
        if st.reachable task dest2 large then
          some (manhattan_distance (st.get_crane_pos i) task, i)
        else none)
    if cand2 ≠ [] then
      let i := ((stableSort (fun a b =>
        decide (a.1 < b.1 ∨ (a.1 = b.1 ∧ a.2 ≤ b.2))) cand2).headD (0, 0)).2
      (dests.set i task, busy ++ [i])
    else acc) (dests1, busy_list0)).1

/-- `Solver::validate_turn_action`: staged positions of all cranes, then the
pairwise collision scan; `none` models the `unwrap` panic on an off-grid
move. -/
def Solver.validate_turn_action (sol : Solver) (cand : List Move) : Option Bool :=
  let n := sol.input.n
  let n_crane := cand.length
  match (List.range n_crane).mapM (fun i =>
      (cand.getD i Move.Stay).next (sol.state.get_crane_pos i) n) with
  | none => none
  | some nxt =>
    some ((List.range n_crane).all fun i =>
      (List.range' (i + 1) (n_crane - (i + 1))).all fun j =>
        !(decide (nxt.getD i (0, 0) = nxt.getD j (0, 0)) ||
          (decide (nxt.getD i (0, 0) = sol.state.get_crane_pos j) &&
           decide (nxt.getD j (0, 0) = sol.state.get_crane_pos i))))

/-- The per-crane candidate set built by `consider_next_move`; `none` models
the `assert_ne!` abort when an empty-handed crane is at its destination but
the cell holds no container. -/
def possibleMovesFor (sol : Solver) (dests : List (Nat × Nat)) (i : Nat) :
    Option (List (Move × Int)) :=
  let n := sol.input.n
  let dest := dests.getD i (NEG1, NEG1)
  let xy := sol.state.get_crane_pos i
  let cont := (craneAt sol.state i).container
  let large := (craneAt sol.state i).large
  if dest = (NEG1, NEG1) then
    some ((Move.Stay, 0) ::
      (List.range 4).filterMap (fun dir =>
        if ((Move.MoveDir dir).next xy n).isSome then some (Move.MoveDir dir, 0) else none))
  else if dest = xy then
    if cont = -1 then
      if getCell sol.state.board xy.1 xy.2 ≠ -1 then some [(Move.Pick, 0)]
      else none
    else some [(Move.Release, 0)]
  else
    some (sol.state.bfs xy dest (large || cont == -1))

/-- `itertools::multi_cartesian_product` (first factor slowest). -/
def multiCartesianProduct {α : Type} : List (List α) → List (List α)
  | [] => [[]]
  | l :: ls => (l.map (fun x => (multiCartesianProduct ls).map (fun tail => x :: tail))).flatten

/-- Release-mode `i32` addition (two's-complement wrap on overflow), the
operation folded by `dists.into_iter().sum::<i32>()`. -/
def i32_wrapping_add (a c : Int) : Int := u32_as_i32 (i32_as_u32 a + i32_as_u32 c)

/-- The body of the `for cand in ... multi_cartesian_product()` loop of
`consider_next_move`: skip the all-Stay combination, abort (`none`) when
validation panics, and append the validated combination with its summed
remaining distance (the `i32` sum, wrapping as in release builds). -/
def cnmStep (sol : Solver) (acc : List (List Move × Int)) (cd : List (Move × Int)) :
    Option (List (List Move × Int)) :=
  let mvs := cd.map Prod.fst
  let ds := cd.map Prod.snd
  if mvs.all (fun mv => mv == Move.Stay) then some acc
  else
    match sol.validate_turn_action mvs with
    | none => none
    | some ok =>
      if ok then some (acc ++ [(mvs, ds.foldl i32_wrapping_add 0)]) else some acc

/-- `Solver::consider_next_move`: cross product of the candidate sets, drop
the all-Stay combination, keep the collision-free ones, return one with the
minimum summed remaining distance; `none` models the panics (the assert in
the candidate construction and the final `panic!`). -/
def Solver.consider_next_move (sol : Solver) (dests : List (Nat × Nat)) :
    Option (List Move) :=
  let n_crane := dests.length
  match (List.range n_crane).mapM (possibleMovesFor sol dests) with
  | none => none
  | some possible_moves =>
    match (multiCartesianProduct possible_moves).foldlM (cnmStep sol)
        ([] : List (List Move × Int)) with
    | none => none
    | some acceptable =>
      if acceptable ≠ [] then
        some (((stableSort (fun a b => a.2 ≤ b.2) acceptable).headD ([], 0)).1)
      else none

/-- `extend_move`: pad a move vector with Stay up to length `n`. -/
def extend_move (moves : List Move) (n : Nat) : List Move :=
  moves ++ List.replicate (n - moves.length) Move.Stay

/-- `struct Solution`. -/
structure Solution where
  actions : List (List Move)

/-- Rust `self.state.done.iter().map(|v| v.len()).all(|x| x == n)`. -/
def doneAll (s : State) (n : Nat) : Bool := s.done.all (fun v => v.length == n)

/-- The turn loop of `Solver::solve`, with the remaining turn budget
(`max_turn - turn`) as the recursion measure; `none` models the two panics
(`consider_next_move` finding no candidate, and `step(...).unwrap()`). -/
def solveLoop (input : Input) :
    Nat → State → List (List Move) → Option (State × List (List Move))
  | 0, st, actions => some (st, actions)
  | fuel2 + 1, st, actions =>
    if doneAll st input.n then some (st, actions)
    else
      let dests := Solver.match_crane_with_target ⟨input, st⟩ 5
      match Solver.consider_next_move ⟨input, st⟩ dests with
      | none => none
      | some act =>
        let ext := extend_move act input.n
        match st.step ext with
        | .error _ => none
        | .ok st2 => solveLoop input fuel2 st2 (actions ++ [ext])

/-- `Solver::solve`: run the turn loop (turn ceiling 1000), then transpose the
recorded per-turn vectors into per-crane rows. -/
def Solver.solve (sol : Solver) : Option Solution :=
  match solveLoop sol.input 1000 sol.state [] with
  | none => none
  | some (_, actions) =>
    match actions with
    | [] => none
    | a0 :: _ =>
      some ⟨(List.range a0.length).map
        (fun i => actions.map (fun inner => inner.getD i Move.Stay))⟩

/-! ### Option-monad fold infrastructure -/

theorem foldlM_option_preserve {α β : Type} (P : β → Prop) (f : β → α → Option β) :
    ∀ (l : List α) (b b2 : β), l.foldlM f b = some b2 → P b →
      (∀ c a, a ∈ l → P c → ∀ c2, f c a = some c2 → P c2) → P b2 := by
  intro l
  induction l with
  | nil =>
    intro b b2 h hb _
    cases h
    exact hb
  | cons a l ih =>
    intro b b2 h hb hstep
    rw [List.foldlM_cons] at h
    cases hfa : f b a with
    | none =>
      rw [hfa] at h
      exact Option.noConfusion h
    | some c =>
      rw [hfa] at h
      exact ih c b2 h (hstep b a (by simp) hb c hfa)
        (fun c2 x hx hc c3 hc3 => hstep c2 x (by simp [hx]) hc c3 hc3)

theorem mapM_option_length {α β : Type} (f : α → Option β) :
    ∀ (l : List α) (l2 : List β), l.mapM f = some l2 → l2.length = l.length := by
  intro l
  induction l with
  | nil =>
    intro l2 h
    cases h
    rfl
  | cons a l ih =>
    intro l2 h
    rw [List.mapM_cons] at h
    cases hfa : f a with
    | none =>
      rw [hfa] at h
      exact Option.noConfusion h
    | some b =>
      rw [hfa] at h
      cases hml : l.mapM f with
      | none =>
        rw [hml] at h
        exact Option.noConfusion h
      | some bs =>
        rw [hml] at h
        cases h
        simp [ih bs hml]

theorem mem_multiCartesianProduct_length {α : Type} :
    ∀ (ls : List (List α)) (cd : List α), cd ∈ multiCartesianProduct ls →
      cd.length = ls.length := by
  intro ls
  induction ls with
  | nil =>
    intro cd h
    simp only [multiCartesianProduct, List.mem_singleton] at h
    simp [h]
  | cons l ls ih =>
    intro cd h
    simp only [multiCartesianProduct, List.mem_flatten, List.mem_map] at h
    obtain ⟨inner, ⟨x, hx, rfl⟩, hcd⟩ := h
    obtain ⟨t, ht, rfl⟩ := List.mem_map.mp hcd
    simp [ih t ht]

/-! ### Permutation facts about the stable sort -/

theorem insertSorted_perm {α : Type} (le : α → α → Bool) (x : α) :
    ∀ l : List α, (insertSorted le x l).Perm (x :: l) := by
  intro l
  induction l with
  | nil => exact List.Perm.refl _
  | cons y ys ih =>
    by_cases h : le y x = true
    · simp only [insertSorted, if_pos h]
      exact ((ih.cons y).trans (List.Perm.swap x y ys))
    · simp only [insertSorted, if_neg h]
      exact List.Perm.refl _

theorem stableSort_fold_perm {α : Type} (le : α → α → Bool) :
    ∀ (l acc : List α),
      (l.foldl (fun acc x => insertSorted le x acc) acc).Perm (acc ++ l) := by
  intro l
  induction l with
  | nil => intro acc; simp
  | cons a l ih =>
    intro acc
    rw [List.foldl_cons]
    refine (ih (insertSorted le a acc)).trans ?_
    refine (List.Perm.append_right l (insertSorted_perm le a acc)).trans ?_
    exact List.perm_middle.symm.trans (by simp)

theorem stableSort_perm {α : Type} (le : α → α → Bool) (l : List α) :
    (stableSort le l).Perm l := by
  simpa using stableSort_fold_perm le l []

theorem stableSort_ne_nil {α : Type} (le : α → α → Bool) (l : List α) (h : l ≠ []) :
    stableSort le l ≠ [] := by
  intro hcon
  exact h (List.Perm.eq_nil ((stableSort_perm le l).symm.trans (hcon ▸ List.Perm.refl _)))

theorem stableSort_headD_mem {α : Type} (le : α → α → Bool) (l : List α) (d : α)
    (h : l ≠ []) : (stableSort le l).headD d ∈ l := by
  refine (stableSort_perm le l).mem_iff.mp ?_
  cases hs : stableSort le l with
  | nil => exact absurd hs (stableSort_ne_nil le l h)
  | cons a t => simp

/-! ### C9: the solver plans for exactly five cranes -/

theorem match_crane_with_target_length (sol : Solver) (m : Nat) :
    (sol.match_crane_with_target m).length = m := by
  simp only [Solver.match_crane_with_target]
  refine foldl_preserve
    (fun acc : List (Nat × Nat) × List Nat => acc.1.length = m) _ _ _ ?_ ?_
  · refine foldl_preserve (fun dests : List (Nat × Nat) => dests.length = m) _ _ _
      (by simp) ?_
    intro b2 a _ hb
    dsimp only
    split
    · split
      · rw [List.length_set]; exact hb
      · split
        · rw [List.length_set]; exact hb
        · rw [List.length_set]; exact hb
    · exact hb
  · intro b2 a _ hb
    dsimp only
    split
    · rw [List.length_set]; exact hb
    · exact hb

theorem consider_next_move_length (sol : Solver) (dests : List (Nat × Nat))
    (act : List Move) (h : sol.consider_next_move dests = some act) :
    act.length = dests.length := by
  simp only [Solver.consider_next_move] at h
  cases hpm : (List.range dests.length).mapM (possibleMovesFor sol dests) with
  | none =>
    rw [hpm] at h
    exact Option.noConfusion h
  | some possible_moves =>
    rw [hpm] at h
    dsimp only at h
    have hpmlen : possible_moves.length = dests.length := by
      simpa using mapM_option_length _ _ _ hpm
    cases hacc : (multiCartesianProduct possible_moves).foldlM (cnmStep sol)
        ([] : List (List Move × Int)) with
    | none =>
      rw [hacc] at h
      exact Option.noConfusion h
    | some acceptable =>
      rw [hacc] at h
      dsimp only at h
      have hall : ∀ p ∈ acceptable, (p : List Move × Int).1.length = dests.length := by
        refine foldlM_option_preserve
          (fun acc : List (List Move × Int) => ∀ p ∈ acc, p.1.length = dests.length)
          _ _ _ _ hacc (by simp) ?_
        intro c cd hcd hc c2 hc2 p hp
        have hcdlen : cd.length = dests.length := by
          rw [mem_multiCartesianProduct_length possible_moves cd hcd, hpmlen]
        simp only [cnmStep] at hc2
        by_cases hstay : (cd.map Prod.fst).all (fun mv => mv == Move.Stay) = true
        · rw [if_pos hstay] at hc2
          cases hc2
          exact hc p hp
        · rw [if_neg hstay] at hc2
          cases hv : sol.validate_turn_action (cd.map Prod.fst) with
          | none =>
            rw [hv] at hc2
            exact Option.noConfusion hc2
          | some ok =>
            rw [hv] at hc2
            dsimp only at hc2
            by_cases hok : ok = true
            · rw [if_pos hok] at hc2
              cases hc2
              rcases List.mem_append.mp hp with hp1 | hp1
              · exact hc p hp1
              · rw [List.mem_singleton.mp hp1]
                simpa using hcdlen
            · rw [if_neg hok] at hc2
              cases hc2
              exact hc p hp
      by_cases hne : acceptable ≠ []
      · rw [if_pos hne] at h
        cases h
        exact hall _ (stableSort_headD_mem _ acceptable ([], 0) hne)
      · rw [if_neg hne] at h
        exact Option.noConfusion h

/-- A per-turn move vector emitted for an `n`-row input: length `n`, with
every crane index from 5 on performing `Stay`. -/
def stayPadded (n : Nat) (a : List Move) : Prop :=
  a.length = n ∧ ∀ i, 5 ≤ i → i < n → a.getD i Move.Stay = Move.Stay

theorem getD_replicate_stay (m k : Nat) :
    (List.replicate m Move.Stay).getD k Move.Stay = Move.Stay := by
  rw [List.getD_eq_getElem?_getD, List.getElem?_replicate]
  by_cases h : k < m
  · rw [if_pos h]
    rfl
  · rw [if_neg h]
    rfl

theorem extend_move_stayPadded (act : List Move) (n : Nat) (hlen : act.length = 5)
    (h5 : 5 ≤ n) : stayPadded n (extend_move act n) := by
  constructor
  · simp [extend_move, hlen]
    omega
  · intro i hi5 hin
    have hge : act.length ≤ i := by omega
    rw [extend_move, List.getD_eq_getElem?_getD, List.getElem?_append_right hge,
      ← List.getD_eq_getElem?_getD]
    exact getD_replicate_stay _ _

theorem solveLoop_stayPadded (input : Input) (h5 : 5 ≤ input.n) :
    ∀ (fuel : Nat) (st : State) (acts : List (List Move)) (st2 : State)
      (acts2 : List (List Move)),
      solveLoop input fuel st acts = some (st2, acts2) →
      (∀ a ∈ acts, stayPadded input.n a) → ∀ a ∈ acts2, stayPadded input.n a := by
  intro fuel
  induction fuel with
  | zero =>
    intro st acts st2 acts2 h hin
    cases h
    exact hin
  | succ fuel ih =>
    intro st acts st2 acts2 h hin
    rw [solveLoop] at h
    by_cases hd : doneAll st input.n = true
    · rw [if_pos hd] at h
      cases h
      exact hin
    · rw [if_neg hd] at h
      dsimp only at h
      cases hc : Solver.consider_next_move ⟨input, st⟩
          (Solver.match_crane_with_target ⟨input, st⟩ 5) with
      | none =>
        rw [hc] at h
        exact Option.noConfusion h
      | some act =>
        rw [hc] at h
        dsimp only at h
        have hactlen : act.length = 5 := by
          rw [consider_next_move_length _ _ _ hc, match_crane_with_target_length]
        cases hs : st.step (extend_move act input.n) with
        | error e =>
          rw [hs] at h
          exact Option.noConfusion h
        | ok st3 =>
          rw [hs] at h
          dsimp only at h
          refine ih st3 (acts ++ [extend_move act input.n]) st2 acts2 h ?_
          intro a ha
          rcases List.mem_append.mp ha with ha1 | ha1
          · exact hin a ha1
          · rw [List.mem_singleton.mp ha1]
            exact extend_move_stayPadded act input.n hactlen h5

/-- **C9**: the solver plans for exactly 5 cranes regardless of the input `N`:
`match_crane_with_target` is invoked with `n_crane = 5` and returns exactly 5
destinations, `consider_next_move` returns one move per destination, each
per-turn vector is padded with `Stay` up to length `N`, and therefore for
every input with `N > 5` every crane with index ≥ 5 performs `Stay` on every
turn of the emitted schedule. -/
theorem claim9_five_cranes (input : Input) (h5 : 5 < input.n) :
    (∀ st : State, (Solver.match_crane_with_target ⟨input, st⟩ 5).length = 5) ∧
    (∀ (st : State) (dests : List (Nat × Nat)) (act : List Move),
      Solver.consider_next_move ⟨input, st⟩ dests = some act →
      act.length = dests.length) ∧
    (∀ sol : Solution, Solver.solve (Solver.new input) = some sol →
      sol.actions.length = input.n ∧
      ∀ i, 5 ≤ i → i < input.n → ∀ mv ∈ sol.actions.getD i [], mv = Move.Stay) := by
  refine ⟨fun st => match_crane_with_target_length _ 5,
    fun st dests act h => consider_next_move_length _ _ _ h, ?_⟩
  intro sol hsol
  simp only [Solver.solve, Solver.new] at hsol
  cases hloop : solveLoop input 1000 (State.new input) [] with
  | none =>
    rw [hloop] at hsol
    exact Option.noConfusion hsol
  | some pr =>
    obtain ⟨st2, actions⟩ := pr
    rw [hloop] at hsol
    dsimp only at hsol
    have hpadded : ∀ a ∈ actions, stayPadded input.n a :=
      solveLoop_stayPadded input (Nat.le_of_lt h5) 1000 (State.new input) [] st2 actions
        hloop (by simp)
    cases hact : actions with
    | nil =>
      rw [hact] at hsol
      exact Option.noConfusion hsol
    | cons a0 rest =>
      rw [hact] at hsol
      dsimp only at hsol
      rw [hact] at hpadded
      have ha0len : a0.length = input.n := (hpadded a0 (by simp)).1
      cases hsol
      constructor
      · simp [ha0len]
      · intro i hi5 hin
        have hget : ((List.range a0.length).map
            (fun i => (a0 :: rest).map (fun inner => inner.getD i Move.Stay))).getD i []
            = (a0 :: rest).map (fun inner => inner.getD i Move.Stay) := by
          rw [List.getD_eq_getElem?_getD, List.getElem?_map,
            List.getElem?_range (by rw [ha0len]; exact hin)]
          rfl
        intro mv hmv
        rw [hget] at hmv
        obtain ⟨inner, hinner, rfl⟩ := List.mem_map.mp hmv
        exact (hpadded inner hinner).2 i hi5 hin

/-- A concrete 6-row input for the C9 witness. -/
def input6 : Input := { n := 6, a := List.replicate 6 (List.range 6) }

/-- Witness for `claim9_five_cranes` at a concrete 6-row input. -/
theorem claim9_witness :
    5 < input6.n ∧
    ((∀ st : State, (Solver.match_crane_with_target ⟨input6, st⟩ 5).length = 5) ∧
     (∀ (st : State) (dests : List (Nat × Nat)) (act : List Move),
       Solver.consider_next_move ⟨input6, st⟩ dests = some act →
       act.length = dests.length) ∧
     (∀ sol : Solution, Solver.solve (Solver.new input6) = some sol →
       sol.actions.length = input6.n ∧
       ∀ i, 5 ≤ i → i < input6.n → ∀ mv ∈ sol.actions.getD i [], mv = Move.Stay)) :=
  ⟨by decide, claim9_five_cranes input6 (by decide)⟩

/-! ### C8: characterization of the turn synthesizer -/

/-- A combination on which the `consider_next_move` loop aborts: not all-Stay
and the validation panics (off-grid `unwrap`). -/
def cnmBad (sol : Solver) (cd : List (Move × Int)) : Bool :=
  !(cd.map Prod.fst).all (fun mv => mv == Move.Stay) &&
    (sol.validate_turn_action (cd.map Prod.fst)).isNone

/-- A surviving combination: not all-Stay and validated collision-free. -/
def cnmKeep (sol : Solver) (cd : List (Move × Int)) : Bool :=
  !(cd.map Prod.fst).all (fun mv => mv == Move.Stay) &&
    (sol.validate_turn_action (cd.map Prod.fst)).getD false

/-- The entry `consider_next_move` records for a surviving combination: the
move vector and the summed remaining distance (the release-mode wrapping
`i32` sum the source sorts by). -/
def cnmEntry (cd : List (Move × Int)) : List Move × Int :=
  (cd.map Prod.fst, (cd.map Prod.snd).foldl i32_wrapping_add 0)

theorem cnm_fold_eq (sol : Solver) :
    ∀ (l : List (List (Move × Int))) (acc : List (List Move × Int)),
      l.foldlM (cnmStep sol) acc =
        if l.any (cnmBad sol) = true then none
        else some (acc ++ (l.filter (cnmKeep sol)).map cnmEntry) := by
  intro l
  induction l with
  | nil => intro acc; simp
  | cons cd l ih =>
    intro acc
    by_cases hstay : (cd.map Prod.fst).all (fun mv => mv == Move.Stay) = true
    · have hbad : cnmBad sol cd = false := by simp [cnmBad, hstay]
      have hkeep : cnmKeep sol cd = false := by simp [cnmKeep, hstay]
      have hstep : cnmStep sol acc cd = some acc := by simp [cnmStep, hstay]
      have h1 : (cd :: l).foldlM (cnmStep sol) acc = l.foldlM (cnmStep sol) acc := by
        rw [List.foldlM_cons, hstep]
        rfl
      rw [h1, ih acc, List.any_cons, hbad, List.filter_cons_of_neg (by simp [hkeep])]
      simp
    · cases hv : sol.validate_turn_action (cd.map Prod.fst) with
      | none =>
        have hbad : cnmBad sol cd = true := by simp [cnmBad, hstay, hv]
        have hstep : cnmStep sol acc cd = none := by
          simp only [cnmStep]
          rw [if_neg hstay, hv]
        have h1 : (cd :: l).foldlM (cnmStep sol) acc = none := by
          rw [List.foldlM_cons, hstep]
          rfl
        rw [h1, List.any_cons, hbad]
        simp
      | some ok =>
        by_cases hok : ok = true
        · subst hok
          have hbad : cnmBad sol cd = false := by simp [cnmBad, hstay, hv]
          have hkeep : cnmKeep sol cd = true := by simp [cnmKeep, hstay, hv]
          have hstep : cnmStep sol acc cd = some (acc ++ [cnmEntry cd]) := by
            simp only [cnmStep, cnmEntry]
            rw [if_neg hstay, hv]
            rfl
          have h1 : (cd :: l).foldlM (cnmStep sol) acc =
              l.foldlM (cnmStep sol) (acc ++ [cnmEntry cd]) := by
            rw [List.foldlM_cons, hstep]
            rfl
          rw [h1, ih (acc ++ [cnmEntry cd]), List.any_cons, hbad,
            List.filter_cons_of_pos hkeep]
          simp
        · have hok2 : ok = false := by
            cases ok
            · rfl
            · exact absurd rfl hok
          subst hok2
          have hbad : cnmBad sol cd = false := by simp [cnmBad, hstay, hv]
          have hkeep : cnmKeep sol cd = false := by simp [cnmKeep, hstay, hv]
          have hstep : cnmStep sol acc cd = some acc := by
            simp only [cnmStep]
            rw [if_neg hstay, hv]
            rfl
          have h1 : (cd :: l).foldlM (cnmStep sol) acc = l.foldlM (cnmStep sol) acc := by
            rw [List.foldlM_cons, hstep]
            rfl
          rw [h1, ih acc, List.any_cons, hbad, List.filter_cons_of_neg (by simp [hkeep])]
          simp

theorem mem_insertSorted {α : Type} (le : α → α → Bool) (x z : α) (l : List α) :
    z ∈ insertSorted le x l ↔ z = x ∨ z ∈ l := by
  rw [(insertSorted_perm le x l).mem_iff]
  simp

theorem insertSorted_head_min {α : Type} (le : α → α → Bool)
    (htot : ∀ a b, le a b = true ∨ le b a = true)
    (htrans : ∀ a b c, le a b = true → le b c = true → le a c = true)
    (d x : α) :
    ∀ l : List α, (∀ y ∈ l, le (l.headD d) y = true) →
      ∀ y ∈ insertSorted le x l, le ((insertSorted le x l).headD d) y = true := by
  have hrefl : ∀ a : α, le a a = true := fun a => by
    rcases htot a a with h | h <;> exact h
  intro l hl
  cases l with
  | nil =>
    intro y hy
    simp only [insertSorted, List.mem_singleton] at hy
    subst hy
    simpa [insertSorted] using hrefl y
  | cons a as =>
    by_cases h : le a x = true
    · simp only [insertSorted, if_pos h]
      intro y hy
      rcases List.mem_cons.mp hy with rfl | hy2
      · simpa using hrefl y
      · rcases (mem_insertSorted le x y as).mp hy2 with rfl | hy3
        · simpa using h
        · simpa using hl y (List.mem_cons_of_mem a hy3)
    · simp only [insertSorted, if_neg h]
      have hxa : le x a = true := by
        rcases htot a x with h2 | h2
        · exact absurd h2 h
        · exact h2
      intro y hy
      rcases List.mem_cons.mp hy with rfl | hy2
      · simpa using hrefl y
      · rcases List.mem_cons.mp hy2 with rfl | hy3
        · simpa using hxa
        · have := hl y (List.mem_cons_of_mem a hy3)
          simp only [List.headD_cons] at this
          simpa using htrans x a y hxa this

theorem stableSort_head_min {α : Type} (le : α → α → Bool)
    (htot : ∀ a b, le a b = true ∨ le b a = true)
    (htrans : ∀ a b c, le a b = true → le b c = true → le a c = true) (d : α)
    (l : List α) :
    ∀ y ∈ stableSort le l, le ((stableSort le l).headD d) y = true := by
  unfold stableSort
  refine foldl_preserve
    (fun acc : List α => ∀ y ∈ acc, le (acc.headD d) y = true) _ l [] (by simp) ?_
  intro b2 a _ hb
  exact insertSorted_head_min le htot htrans d a b2 hb

theorem consider_next_move_reduced (sol : Solver) (dests : List (Nat × Nat))
    (possible_moves : List (List (Move × Int)))
    (hpm : (List.range dests.length).mapM (possibleMovesFor sol dests) = some possible_moves)
    (hnb : (multiCartesianProduct possible_moves).any (cnmBad sol) = false) :
    sol.consider_next_move dests =
      if ((multiCartesianProduct possible_moves).filter (cnmKeep sol)).map cnmEntry ≠ [] then
        some (((stableSort (fun a b => a.2 ≤ b.2)
          (((multiCartesianProduct possible_moves).filter (cnmKeep sol)).map
            cnmEntry)).headD ([], 0)).1)
      else none := by
  simp only [Solver.consider_next_move]
  rw [hpm]
  dsimp only
  rw [cnm_fold_eq sol (multiCartesianProduct possible_moves) [], hnb,
    if_neg (show ¬(false = true) by simp)]
  dsimp only
  rw [List.nil_append]

/-- **C8** (amended): provided the candidate-set construction does not abort
(the `assert_ne!`) and no enumerated combination trips the validation
`unwrap`, `consider_next_move` panics exactly when no combination of the
cross product survives the all-Stay and collision filters, and otherwise
returns a surviving combination whose summed remaining path length — the
`i32` sum the source computes, wrapping as in release builds — is minimal
among all survivors.  (The unconditional "panics iff no combination
survives" of the original claim is refuted by `claim8_counterexample`.) -/
theorem claim8_synthesizer (sol : Solver) (dests : List (Nat × Nat))
    (possible_moves : List (List (Move × Int)))
    (hpm : (List.range dests.length).mapM (possibleMovesFor sol dests) = some possible_moves)
    (hnb : (multiCartesianProduct possible_moves).any (cnmBad sol) = false) :
    (sol.consider_next_move dests = none ↔
      ∀ cd ∈ multiCartesianProduct possible_moves, cnmKeep sol cd = false) ∧
    (∀ act, sol.consider_next_move dests = some act →
      ∃ cd ∈ multiCartesianProduct possible_moves,
        cnmKeep sol cd = true ∧ act = cd.map Prod.fst ∧
        ∀ cd2 ∈ multiCartesianProduct possible_moves, cnmKeep sol cd2 = true →
          (cnmEntry cd).2 ≤ (cnmEntry cd2).2) := by
  have hred := consider_next_move_reduced sol dests possible_moves hpm hnb
  have htot : ∀ a b : List Move × Int,
      (fun a b : List Move × Int => decide (a.2 ≤ b.2)) a b = true ∨
      (fun a b : List Move × Int => decide (a.2 ≤ b.2)) b a = true := by
    intro a b
    rcases Int.le_total a.2 b.2 with h | h
    · left; simpa using h
    · right; simpa using h
  have htrans : ∀ a b c : List Move × Int,
      (fun a b : List Move × Int => decide (a.2 ≤ b.2)) a b = true →
      (fun a b : List Move × Int => decide (a.2 ≤ b.2)) b c = true →
      (fun a b : List Move × Int => decide (a.2 ≤ b.2)) a c = true := by
    intro a b c h1 h2
    simp only [decide_eq_true_iff] at h1 h2 ⊢
    exact le_trans h1 h2
  constructor
  · rw [hred]
    by_cases hne :
        ((multiCartesianProduct possible_moves).filter (cnmKeep sol)).map cnmEntry ≠ [] 
    · rw [if_pos hne]
      constructor
      · intro h
        exact absurd h (by simp)
      · intro hall
        exfalso
        refine hne ?_
        rw [List.map_eq_nil_iff]
        rw [List.filter_eq_nil_iff]
        intro cd hcd
        rw [hall cd hcd]
        simp
    · rw [if_neg hne]
      constructor
      · intro _
        intro cd hcd
        rw [not_not] at hne
        rw [List.map_eq_nil_iff, List.filter_eq_nil_iff] at hne
        have := hne cd hcd
        simpa using this
      · intro _
        rfl
  · intro act hact
    rw [hred] at hact
    by_cases hne :
        ((multiCartesianProduct possible_moves).filter (cnmKeep sol)).map cnmEntry ≠ [] 
    · rw [if_pos hne] at hact
      cases hact
      have hmem : (stableSort (fun a b : List Move × Int => decide (a.2 ≤ b.2))
          (((multiCartesianProduct possible_moves).filter (cnmKeep sol)).map
            cnmEntry)).headD ([], 0) ∈
          ((multiCartesianProduct possible_moves).filter (cnmKeep sol)).map cnmEntry :=
        stableSort_headD_mem _ _ ([], 0) hne
      obtain ⟨cd, hcdf, hcdentry⟩ := List.mem_map.mp hmem
      obtain ⟨hcdL, hcdkeep⟩ := List.mem_filter.mp hcdf
      refine ⟨cd, hcdL, hcdkeep, ?_, ?_⟩
      · rw [← hcdentry]
        rfl
      · intro cd2 hcd2L hcd2keep
        have hacc2 : cnmEntry cd2 ∈
            ((multiCartesianProduct possible_moves).filter (cnmKeep sol)).map cnmEntry :=
          List.mem_map_of_mem _ (List.mem_filter.mpr ⟨hcd2L, hcd2keep⟩)
        have hmin := stableSort_head_min
          (fun a b : List Move × Int => decide (a.2 ≤ b.2)) htot htrans ([], 0)
          (((multiCartesianProduct possible_moves).filter (cnmKeep sol)).map cnmEntry)
          (cnmEntry cd2)
          ((stableSort_perm _ _).mem_iff.mpr hacc2)
        rw [hcdentry]
        simpa using hmin
    · rw [if_neg hne] at hact
      exact Option.noConfusion hact

/-- Spec-side per-crane candidate set, following the specification's words
("if it has no task, any single-step move (including stay) is a candidate
with zero weight; if already at its destination, the single forced action is
Pick (if empty) or Release (if carrying); otherwise the candidate set is the
shortest-path first-step options"), used to compare against the source's
`possibleMovesFor`, which additionally asserts that the cell under an
empty-handed crane at its destination is non-empty. -/
def specPossibleMovesFor (sol : Solver) (dests : List (Nat × Nat)) (i : Nat) :
    List (Move × Int) :=
  let n := sol.input.n
  let dest := dests.getD i (NEG1, NEG1)
  let xy := sol.state.get_crane_pos i
  let cont := (craneAt sol.state i).container
  let large := (craneAt sol.state i).large
  if dest = (NEG1, NEG1) then
    (Move.Stay, 0) ::
      (List.range 4).filterMap (fun dir =>
        if ((Move.MoveDir dir).next xy n).isSome then some (Move.MoveDir dir, 0) else none)
  else if dest = xy then
    if cont = -1 then [(Move.Pick, 0)] else [(Move.Release, 0)]
  else
    sol.state.bfs xy dest (large || cont == -1)

/-- A 2×2 state with two empty-handed cranes at (0,0) and (1,1) over an empty
board, for the C8 counterexample. -/
def sol8 : Solver :=
  { input := { n := 2, a := [[0, 1], [2, 3]] },
    state :=
      { queue := [[], []], done := [[], []],
        board := [[-1, -1], [-1, -1]],
        cranes := [{ large := true, x := 0, y := 0, container := -1 },
                   { large := false, x := 1, y := 1, container := -1 }] } }

/-- Destinations sending crane 0 to its own (empty) cell and leaving crane 1
without a task. -/
def dests8 : List (Nat × Nat) := [(0, 0), (NEG1, NEG1)]

/-- **C8 counterexample**: the synthesizer does *not* panic exactly when no
combination survives.  With crane 0 empty-handed at its destination over an
empty cell, the candidate construction's `assert_ne!` aborts the run
(`consider_next_move` is `none`, and already the candidate-set construction
is `none`), yet three combinations built from the specification's candidate
sets survive the all-Stay and collision filters. -/
theorem claim8_counterexample :
    Solver.consider_next_move sol8 dests8 = none ∧
    (List.range dests8.length).mapM (possibleMovesFor sol8 dests8) = none ∧
    ((multiCartesianProduct ((List.range dests8.length).map
        (specPossibleMovesFor sol8 dests8))).filter (cnmKeep sol8)).length = 3 := by
  refine ⟨rfl, rfl, rfl⟩

/-- Destinations leaving both cranes of `sol8` without a task, for the C8
witness. -/
def dests8w : List (Nat × Nat) := [(NEG1, NEG1), (NEG1, NEG1)]

/-- The candidate sets `possibleMovesFor` produces on `sol8` / `dests8w`. -/
def pm8w : List (List (Move × Int)) :=
  [[(Move.Stay, 0), (Move.MoveDir 2, 0), (Move.MoveDir 3, 0)],
   [(Move.Stay, 0), (Move.MoveDir 0, 0), (Move.MoveDir 1, 0)]]

/-- Witness for `claim8_synthesizer` at a concrete solver state. -/
theorem claim8_witness :
    (List.range dests8w.length).mapM (possibleMovesFor sol8 dests8w) = some pm8w ∧
    (multiCartesianProduct pm8w).any (cnmBad sol8) = false ∧
    ((Solver.consider_next_move sol8 dests8w = none ↔
      ∀ cd ∈ multiCartesianProduct pm8w, cnmKeep sol8 cd = false) ∧
    (∀ act, Solver.consider_next_move sol8 dests8w = some act →
      ∃ cd ∈ multiCartesianProduct pm8w,
        cnmKeep sol8 cd = true ∧ act = cd.map Prod.fst ∧
        ∀ cd2 ∈ multiCartesianProduct pm8w, cnmKeep sol8 cd2 = true →
          (cnmEntry cd).2 ≤ (cnmEntry cd2).2)) :=
  ⟨rfl, rfl, claim8_synthesizer sol8 dests8w pm8w rfl rfl⟩

/-! ### C7: specification-side paths for the BFS -/

/-- Grid adjacency: one coordinate differs by exactly one. -/
def adjP (p q : Nat × Nat) : Prop :=
  (p.1 = q.1 ∧ (p.2 + 1 = q.2 ∨ q.2 + 1 = p.2)) ∨
  (p.2 = q.2 ∧ (p.1 + 1 = q.1 ∨ q.1 + 1 = p.1))

/-- A cell the BFS may enter: on the grid and, unless `move_over` is set,
free of containers. -/
def allowedCell (b : List (List Int)) (n : Nat) (mo : Bool) (p : Nat × Nat) : Prop :=
  p.1 < n ∧ p.2 < n ∧ (mo = true ∨ getCell b p.1 p.2 = -1)

/-- A `k`-step walk from `s` to `t` all of whose cells (including `s`) honor
the occupancy constraint. -/
inductive OkPath (b : List (List Int)) (n : Nat) (mo : Bool) :
    (Nat × Nat) → (Nat × Nat) → Nat → Prop where
  | refl (p : Nat × Nat) (h : allowedCell b n mo p) : OkPath b n mo p p 0
  | snoc {s p q : Nat × Nat} {k : Nat} (hw : OkPath b n mo s p k) (hadj : adjP p q)
      (hq : allowedCell b n mo q) : OkPath b n mo s q (k + 1)

theorem adjP_symm {p q : Nat × Nat} (h : adjP p q) : adjP q p := by
  rcases h with ⟨h1, h2⟩ | ⟨h1, h2⟩
  · exact Or.inl ⟨h1.symm, h2.symm⟩
  · exact Or.inr ⟨h1.symm, h2.symm⟩

theorem adjP_sum {p q : Nat × Nat} (h : adjP p q) :
    p.1 + p.2 + 1 = q.1 + q.2 ∨ q.1 + q.2 + 1 = p.1 + p.2 := by
  rcases h with ⟨h1, h2 | h2⟩ | ⟨h1, h2 | h2⟩ <;> omega

theorem okPath_start_allowed {b : List (List Int)} {n : Nat} {mo : Bool}
    {s t : Nat × Nat} {k : Nat} (h : OkPath b n mo s t k) : allowedCell b n mo s := by
  induction h with
  | refl hp => exact hp
  | snoc hw hadj hq ih => exact ih

theorem okPath_end_allowed {b : List (List Int)} {n : Nat} {mo : Bool}
    {s t : Nat × Nat} {k : Nat} (h : OkPath b n mo s t k) : allowedCell b n mo t := by
  cases h with
  | refl hp => exact hp
  | snoc hw hadj hq => exact hq

theorem okPath_cons {b : List (List Int)} {n : Nat} {mo : Bool}
    {s t q : Nat × Nat} {k : Nat} (h : OkPath b n mo s t k) (hadj : adjP q s)
    (hq : allowedCell b n mo q) : OkPath b n mo q t (k + 1) := by
  induction h with
  | refl hp => exact OkPath.snoc (OkPath.refl q hq) hadj hp
  | snoc hw hadj2 hq2 ih => exact OkPath.snoc ih hadj2 hq2

theorem okPath_concat {b : List (List Int)} {n : Nat} {mo : Bool}
    {s p t : Nat × Nat} {a c : Nat} (h1 : OkPath b n mo s p a)
    (h2 : OkPath b n mo p t c) : OkPath b n mo s t (a + c) := by
  induction h2 with
  | refl hq => exact h1
  | snoc hw hadj hq ih => exact OkPath.snoc ih hadj hq

theorem okPath_parity {b : List (List Int)} {n : Nat} {mo : Bool}
    {s t : Nat × Nat} {k : Nat} (h : OkPath b n mo s t k) :
    (s.1 + s.2 + k) % 2 = (t.1 + t.2) % 2 := by
  induction h with
  | refl hp => rfl
  | snoc hw hadj hq ih =>
    have := adjP_sum hadj
    omega

theorem okPath_zero {b : List (List Int)} {n : Nat} {mo : Bool}
    {s t : Nat × Nat} (h : OkPath b n mo s t 0) : s = t := by
  cases h
  rfl

theorem okPath_uncons {b : List (List Int)} {n : Nat} {mo : Bool} :
    ∀ {k : Nat} {s t : Nat × Nat}, OkPath b n mo s t (k + 1) →
      ∃ r, adjP s r ∧ allowedCell b n mo r ∧ OkPath b n mo r t k := by
  intro k
  induction k with
  | zero =>
    intro s t h
    cases h with
    | snoc hw hadj hq =>
      have := okPath_zero hw
      subst this
      exact ⟨t, hadj, hq, OkPath.refl t hq⟩
  | succ k ih =>
    intro s t h
    cases h with
    | snoc hw hadj hq =>
      obtain ⟨r, hr1, hr2, hr3⟩ := ih hw
      exact ⟨r, hr1, hr2, OkPath.snoc hr3 hadj hq⟩

theorem sublist_pair_split {α : Type} {a : α} :
    ∀ l : List α, List.Sublist [a, a] l → ∃ l1 l2 l3, l = l1 ++ (a :: l2) ++ (a :: l3) := by
  intro l
  induction l with
  | nil =>
    intro h
    exact absurd (List.sublist_nil.mp h) (by simp)
  | cons b l ih =>
    intro h
    cases h with
    | cons a2 h2 =>
      obtain ⟨l1, l2, l3, rfl⟩ := ih h2
      exact ⟨b :: l1, l2, l3, rfl⟩
    | cons₂ a2 h2 =>
      have ha : a ∈ l := List.singleton_sublist.mp h2
      obtain ⟨l2, l3, rfl⟩ := List.append_of_mem ha
      exact ⟨[], l2, l3, rfl⟩

theorem okPath_toList {b : List (List Int)} {n : Nat} {mo : Bool} {s t : Nat × Nat}
    {k : Nat} (h : OkPath b n mo s t k) :
    ∃ l : List (Nat × Nat), l.Chain' adjP ∧ (∀ p ∈ l, allowedCell b n mo p) ∧
      l.head? = some s ∧ l.getLast? = some t ∧ l.length = k + 1 := by
  induction h with
  | refl hp =>
    exact ⟨[s], by simp, by simpa using hp, rfl, rfl, rfl⟩
  | snoc hw hadj hq ih =>
    rename_i pmid q2 k2
    obtain ⟨l, hc, hall, hh, hl, hlen⟩ := ih
    have hne : l ≠ [] := by
      intro hcon
      rw [hcon] at hlen
      simp at hlen
    refine ⟨l ++ [q2], ?_, ?_, ?_, ?_, ?_⟩
    · rw [List.chain'_append]
      refine ⟨hc, by simp, ?_⟩
      intro x hx y hy
      rw [hl] at hx
      simp only [Option.mem_def, Option.some_inj] at hx
      simp only [List.head?_cons, Option.mem_def, Option.some_inj] at hy
      rw [hx, hy] at hadj
      exact hadj
    · intro p hp
      rcases List.mem_append.mp hp with hp1 | hp1
      · exact hall p hp1
      · rw [List.mem_singleton.mp hp1]
        exact hq
    · rw [List.head?_append_of_ne_nil _ hne]
      exact hh
    · exact List.getLast?_concat l
    · simp [hlen]

theorem okPath_ofList {b : List (List Int)} {n : Nat} {mo : Bool} :
    ∀ (l : List (Nat × Nat)) (s t : Nat × Nat), l.Chain' adjP →
      (∀ p ∈ l, allowedCell b n mo p) →
      l.head? = some s → l.getLast? = some t → OkPath b n mo s t (l.length - 1) := by
  intro l
  induction l with
  | nil =>
    intro s t _ _ hh _
    exact Option.noConfusion hh
  | cons p rest ih =>
    intro s t hc hall hh hl
    have hs : p = s := by
      simpa using hh
    subst hs
    cases rest with
    | nil =>
      have ht : p = t := by
        simpa using hl
      subst ht
      exact OkPath.refl p (hall p (by simp))
    | cons q rest2 =>
      rw [List.chain'_cons] at hc
      have hpath := ih q t hc.2 (fun r hr => hall r (by simp [hr]))
        (by simp) (by rw [← hl, List.getLast?_cons_cons])
      have := okPath_cons hpath hc.1 (hall p (by simp))
      simpa using this

theorem okList_nodup_length {b : List (List Int)} {n : Nat} {mo : Bool}
    (l : List (Nat × Nat)) (hall : ∀ p ∈ l, allowedCell b n mo p) (hnd : l.Nodup) :
    l.length ≤ n * n := by
  by_cases hn : 0 < n
  case neg =>
    have hl0 : l = [] := by
      cases l with
      | nil => rfl
      | cons p0 rest => exact absurd (hall p0 (by simp)).1 (by omega)
    simp [hl0]
  case pos =>
    have hmapnd : (l.map (fun p : Nat × Nat => p.1 * n + p.2)).Nodup := by
      refine hnd.map_on ?_
      intro x hx y hy hxy
      have hx2 : x.2 < n := (hall x hx).2.1
      have hy2 : y.2 < n := (hall y hy).2.1
      have h1 : x.1 = y.1 := by
        have d1 : (x.1 * n + x.2) / n = x.1 := by
          rw [Nat.mul_comm x.1 n, Nat.mul_add_div hn, Nat.div_eq_of_lt hx2]
          omega
        have d2 : (y.1 * n + y.2) / n = y.1 := by
          rw [Nat.mul_comm y.1 n, Nat.mul_add_div hn, Nat.div_eq_of_lt hy2]
          omega
        rw [← d1, ← d2, hxy]
      have h2 : x.2 = y.2 := by
        rw [h1] at hxy
        exact Nat.add_left_cancel hxy
      exact Prod.ext h1 h2
    have hsub : (l.map (fun p : Nat × Nat => p.1 * n + p.2)).toFinset ⊆
        Finset.range (n * n) := by
      intro v hv
      rw [List.mem_toFinset, List.mem_map] at hv
      obtain ⟨p, hp, rfl⟩ := hv
      rw [Finset.mem_range]
      have h1 : p.1 < n := (hall p hp).1
      have h2 : p.2 < n := (hall p hp).2.1
      calc p.1 * n + p.2 < p.1 * n + n := by omega
        _ = (p.1 + 1) * n := by ring
        _ ≤ n * n := Nat.mul_le_mul_right n h1
    have := Finset.card_le_card hsub
    rw [Finset.card_range, List.toFinset_card_of_nodup hmapnd] at this
    simpa using this

theorem okPath_shorten {b : List (List Int)} {n : Nat} {mo : Bool} {s t : Nat × Nat} :
    ∀ k : Nat, OkPath b n mo s t k → ∃ k2, k2 ≤ n * n - 1 ∧ OkPath b n mo s t k2 := by
  intro k
  induction k using Nat.strong_induction_on with
  | _ k ih =>
    intro h
    by_cases hk : k ≤ n * n - 1
    · exact ⟨k, hk, h⟩
    · obtain ⟨l, hc, hall, hh, hl, hlen⟩ := okPath_toList h
      have hnodup : ¬l.Nodup := by
        intro hnd
        have := okList_nodup_length l hall hnd
        omega
      rw [List.nodup_iff_sublist] at hnodup
      push_neg at hnodup
      obtain ⟨a, ha⟩ := hnodup
      obtain ⟨l1, l2, l3, rfl⟩ := sublist_pair_split _ ha
      have hin1 : (a :: l2 : List (Nat × Nat)) ≠ [] := by simp
      have hin2 : (a :: l3 : List (Nat × Nat)) ≠ [] := by simp
      have hinner : ((a :: l2) ++ (a :: l3) : List (Nat × Nat)) ≠ [] := by simp
      rw [List.chain'_append] at hc
      obtain ⟨hc12, hc3, hjun⟩ := hc
      rw [List.chain'_append] at hc12
      obtain ⟨hc1, hc2, hjun2⟩ := hc12
      have hchain : (l1 ++ (a :: l3)).Chain' adjP := by
        rw [List.chain'_append]
        refine ⟨hc1, hc3, ?_⟩
        intro x hx y hy
        have hya : a = y := by simpa using hy
        subst hya
        exact hjun2 x hx a (by simp)
      have hallcut : ∀ p ∈ l1 ++ (a :: l3), allowedCell b n mo p := by
        intro p hp
        rcases List.mem_append.mp hp with hp1 | hp1
        · exact hall p (by simp [hp1])
        · refine hall p ?_
          rcases List.mem_cons.mp hp1 with rfl | hp2
          · simp
          · simp [hp2]
      have hhead : (l1 ++ (a :: l3)).head? = some s := by
        cases l1 with
        | nil =>
          simpa using hh
        | cons x l1t =>
          simpa using hh
      have hlast : (l1 ++ (a :: l3)).getLast? = some t := by
        rw [List.getLast?_append_of_ne_nil _ hin2]
        rw [List.getLast?_append_of_ne_nil _ hin2] at hl
        exact hl
      have hpath := okPath_ofList (l1 ++ (a :: l3)) s t hchain hallcut hhead hlast
      have hlt : (l1 ++ (a :: l3)).length - 1 < k := by
        have h1 : (l1 ++ (a :: l3)).length = l1.length + l3.length + 1 := by
          simp
          omega
        have h2 : (l1 ++ (a :: l2) ++ (a :: l3)).length =
            l1.length + l2.length + l3.length + 2 := by
          simp
          omega
        omega
      obtain ⟨k2, hk2, hp2⟩ := ih _ hlt hpath
      exact ⟨k2, hk2, hp2⟩

/-- `L` assigns to every cell reachable from `s1` its BFS level: one more
than the minimal ok-walk length from `s1` (the level recorded by the source's
`dist` grid, whose start cell gets 1). -/
def IsLvl (b : List (List Int)) (n : Nat) (mo : Bool) (s1 : Nat × Nat)
    (L : Nat × Nat → Nat) : Prop :=
  ∀ p, (∃ k, OkPath b n mo s1 p k) →
    OkPath b n mo s1 p (L p - 1) ∧ 1 ≤ L p ∧ ∀ k, OkPath b n mo s1 p k → L p ≤ k + 1

theorem isLvl_exists (b : List (List Int)) (n : Nat) (mo : Bool) (s1 : Nat × Nat) :
    ∃ L, IsLvl b n mo s1 L := by
  classical
  refine ⟨fun p => if h : ∃ k, OkPath b n mo s1 p k then Nat.find h + 1 else 0, ?_⟩
  intro p hp
  simp only [dif_pos hp]
  refine ⟨by simpa using Nat.find_spec hp, by omega, ?_⟩
  intro k hk
  have h2 := Nat.find_min' hp hk
  omega

theorem lvl_le_of_path {b : List (List Int)} {n : Nat} {mo : Bool} {s1 : Nat × Nat}
    {L : Nat × Nat → Nat} (hL : IsLvl b n mo s1 L) {p : Nat × Nat} {k : Nat}
    (h : OkPath b n mo s1 p k) : L p ≤ k + 1 :=
  (hL p ⟨k, h⟩).2.2 k h

theorem lvl_path {b : List (List Int)} {n : Nat} {mo : Bool} {s1 : Nat × Nat}
    {L : Nat × Nat → Nat} (hL : IsLvl b n mo s1 L) {p : Nat × Nat}
    (h : ∃ k, OkPath b n mo s1 p k) : OkPath b n mo s1 p (L p - 1) :=
  (hL p h).1

theorem lvl_pos {b : List (List Int)} {n : Nat} {mo : Bool} {s1 : Nat × Nat}
    {L : Nat × Nat → Nat} (hL : IsLvl b n mo s1 L) {p : Nat × Nat}
    (h : ∃ k, OkPath b n mo s1 p k) : 1 ≤ L p :=
  (hL p h).2.1

theorem lvl_bound {b : List (List Int)} {n : Nat} {mo : Bool} {s1 : Nat × Nat}
    {L : Nat × Nat → Nat} (hL : IsLvl b n mo s1 L) {p : Nat × Nat}
    (h : ∃ k, OkPath b n mo s1 p k) : L p ≤ n * n := by
  obtain ⟨k, hk⟩ := h
  obtain ⟨k2, hk2, hp2⟩ := okPath_shorten k hk
  have h1 := lvl_le_of_path hL hp2
  have hn : 0 < n := by
    have := (okPath_end_allowed hk).1
    omega
  have hnn : 0 < n * n := Nat.mul_pos hn hn
  obtain ⟨m, hm⟩ : ∃ m, n * n = m := ⟨_, rfl⟩
  rw [hm] at hk2 hnn ⊢
  omega

theorem lvl_adj {b : List (List Int)} {n : Nat} {mo : Bool} {s1 : Nat × Nat}
    {L : Nat × Nat → Nat} (hL : IsLvl b n mo s1 L) {p q : Nat × Nat}
    (hp : ∃ k, OkPath b n mo s1 p k) (hadj : adjP p q)
    (hq : allowedCell b n mo q) :
    (∃ k, OkPath b n mo s1 q k) ∧ (L q = L p + 1 ∨ L q + 1 = L p) := by
  have hpath := lvl_path hL hp
  have hqpath : OkPath b n mo s1 q (L p - 1 + 1) := OkPath.snoc hpath hadj hq
  have hqreach : ∃ k, OkPath b n mo s1 q k := ⟨_, hqpath⟩
  refine ⟨hqreach, ?_⟩
  have hq1 : L q ≤ L p - 1 + 1 + 1 := lvl_le_of_path hL hqpath
  have hqpath2 := lvl_path hL hqreach
  have hppath2 : OkPath b n mo s1 p (L q - 1 + 1) :=
    OkPath.snoc hqpath2 (adjP_symm hadj) (okPath_end_allowed hpath)
  have hp1 : L p ≤ L q - 1 + 1 + 1 := lvl_le_of_path hL hppath2
  have hparp := okPath_parity hpath
  have hparq := okPath_parity hqpath2
  have hparq2 := okPath_parity hqpath
  have hsum := adjP_sum hadj
  have h1p := lvl_pos hL hp
  have h1q := lvl_pos hL hqreach
  omega

/-- A chain of adjacent allowed cells along which the level rises by exactly
one per step (the suffix of a shortest walk). -/
inductive OnLevel (b : List (List Int)) (n : Nat) (mo : Bool) (L : Nat × Nat → Nat) :
    (Nat × Nat) → (Nat × Nat) → Prop where
  | refl (p : Nat × Nat) : OnLevel b n mo L p p
  | step {p q r : Nat × Nat} (h1 : adjP p q) (h2 : allowedCell b n mo q)
      (h3 : L q = L p + 1) (h4 : OnLevel b n mo L q r) : OnLevel b n mo L p r

theorem onLevel_le {b : List (List Int)} {n : Nat} {mo : Bool} {L : Nat × Nat → Nat}
    {q p : Nat × Nat} (h : OnLevel b n mo L q p) : L q ≤ L p := by
  induction h with
  | refl r => exact Nat.le_refl _
  | step h1 h2 h3 h4 ih => omega

theorem onLevel_of_min {b : List (List Int)} {n : Nat} {mo : Bool} {s1 : Nat × Nat}
    {L : Nat × Nat → Nat} (hL : IsLvl b n mo s1 L) :
    ∀ (k : Nat) (q p : Nat × Nat), (∃ kk, OkPath b n mo s1 q kk) →
      OkPath b n mo q p k → L p = L q + k → OnLevel b n mo L q p := by
  intro k
  induction k with
  | zero =>
    intro q p _ hpath _
    rw [okPath_zero hpath]
    exact OnLevel.refl p
  | succ k ih =>
    intro q p hq hpath hlvl
    obtain ⟨r, hr1, hr2, hr3⟩ := okPath_uncons hpath
    have hradj := lvl_adj hL hq hr1 hr2
    have hple : L p ≤ L r + k := by
      obtain ⟨kr, hkr⟩ := hradj.1
      have hcat := okPath_concat (lvl_path hL hradj.1) hr3
      have := lvl_le_of_path hL hcat
      have h1r := lvl_pos hL hradj.1
      omega
    have hlr : L r = L q + 1 := by
      rcases hradj.2 with h | h
      · exact h
      · omega
    exact OnLevel.step hr1 hr2 hlr (ih r p hradj.1 hr3 (by omega))

theorem wrap_self (x : Nat) (hx : x < USIZE) : wrap x = x := Nat.mod_eq_of_lt hx

theorem wrap_add_neg1 (x : Nat) (hx : x < USIZE) :
    wrap (x + NEG1) = if x = 0 then NEG1 else x - 1 := by
  by_cases h : x = 0
  · subst h
    rw [if_pos rfl]
    exact Nat.mod_eq_of_lt (by unfold NEG1 USIZE; omega)
  · rw [if_neg h]
    unfold wrap NEG1
    have : x + (USIZE - 1) = (x - 1) + USIZE := by unfold USIZE at *; omega
    rw [this, Nat.add_mod_right]
    exact Nat.mod_eq_of_lt (by unfold USIZE at *; omega)

theorem distSet_length (D : List (List Nat)) (x y v : Nat) :
    (distSet D x y v).length = D.length := by
  unfold distSet
  exact List.length_set _ _ _

theorem distSet_rows (D : List (List Nat)) (x y v n : Nat)
    (h : ∀ row ∈ D, row.length = n) : ∀ row ∈ distSet D x y v, row.length = n := by
  intro row hrow
  by_cases hx : x < D.length
  · unfold distSet at hrow
    rcases List.mem_or_eq_of_mem_set hrow with h1 | h1
    · exact h row h1
    · rw [h1, List.length_set]
      exact h _ (getD_mem_of_lt _ _ _ hx)
  · unfold distSet at hrow
    rw [List.set_eq_of_length_le (by omega)] at hrow
    exact h row hrow

theorem distGet_distSet_self (D : List (List Nat)) (x y v : Nat)
    (hx : x < D.length) (hy : y < (D.getD x []).length) :
    distGet (distSet D x y v) x y = v := by
  unfold distGet distSet
  rw [getD_set_self _ _ _ _ hx, getD_set_self _ _ _ _ hy]

theorem distGet_distSet_ne (D : List (List Nat)) (x y v x2 y2 : Nat)
    (h : ¬(x2 = x ∧ y2 = y)) :
    distGet (distSet D x y v) x2 y2 = distGet D x2 y2 := by
  unfold distGet distSet
  by_cases hx : x2 = x
  · subst hx
    have hy : y ≠ y2 := fun hc => h ⟨rfl, hc.symm⟩
    by_cases hxlen : x2 < D.length
    · rw [getD_set_self _ _ _ _ hxlen, getD_set_ne _ _ _ _ _ hy]
    · rw [List.set_eq_of_length_le (by omega)]
  · rw [getD_set_ne _ _ _ _ _ (fun hc => hx hc.symm)]

theorem lt_2_32_of_sq (n : Nat) (h : n * n + 1 < 2 ^ 60) : n < 2 ^ 32 := by
  by_contra hc
  push_neg at hc
  have := Nat.mul_le_mul hc hc
  norm_num at this h
  omega

theorem bfs_nb_adj (x y n : Nat) (dir : Nat) (hdir : dir < 4) (hx : x < n) (hy : y < n)
    (hn : n < 2 ^ 32)
    (hin : wrap (x + bfsDx.getD dir 0) < n ∧ wrap (y + bfsDy.getD dir 0) < n) :
    adjP (x, y) (wrap (x + bfsDx.getD dir 0), wrap (y + bfsDy.getD dir 0)) := by
  have hxu : x < USIZE := by unfold USIZE; omega
  have hyu : y < USIZE := by unfold USIZE; omega
  have hx1u : x + 1 < USIZE := by unfold USIZE; omega
  have hy1u : y + 1 < USIZE := by unfold USIZE; omega
  interval_cases dir
  · simp only [bfsDx, bfsDy, List.getD_cons_zero] at hin ⊢
    simp only [Nat.add_zero] at hin ⊢
    rw [wrap_self y hyu] at hin ⊢
    rw [wrap_add_neg1 x hxu] at hin ⊢
    by_cases h0 : x = 0
    · rw [if_pos h0] at hin
      exact absurd hin.1 (by unfold NEG1 USIZE; omega)
    · rw [if_neg h0]
      exact Or.inr ⟨rfl, Or.inr (by omega)⟩
  · simp only [bfsDx, bfsDy, List.getD_cons_succ, List.getD_cons_zero] at hin ⊢
    simp only [Nat.add_zero] at hin ⊢
    rw [wrap_self x hxu] at hin ⊢
    rw [wrap_add_neg1 y hyu] at hin ⊢
    by_cases h0 : y = 0
    · rw [if_pos h0] at hin
      exact absurd hin.2 (by unfold NEG1 USIZE; omega)
    · rw [if_neg h0]
      exact Or.inl ⟨rfl, Or.inr (by omega)⟩
  · simp only [bfsDx, bfsDy, List.getD_cons_succ, List.getD_cons_zero] at hin ⊢
    simp only [Nat.add_zero] at hin ⊢
    rw [wrap_self y hyu, wrap_self (x + 1) hx1u] at hin ⊢
    exact Or.inr ⟨rfl, Or.inl rfl⟩
  · simp only [bfsDx, bfsDy, List.getD_cons_succ, List.getD_cons_zero] at hin ⊢
    simp only [Nat.add_zero] at hin ⊢
    rw [wrap_self x hxu, wrap_self (y + 1) hy1u] at hin ⊢
    exact Or.inl ⟨rfl, Or.inl rfl⟩

theorem adj_bfs_nb (x y n : Nat) (r : Nat × Nat) (hadj : adjP (x, y) r)
    (hx : x < n) (hy : y < n) (hr1 : r.1 < n) (hr2 : r.2 < n) (hn : n < 2 ^ 32) :
    ∃ dir, dir < 4 ∧ wrap (x + bfsDx.getD dir 0) = r.1 ∧
      wrap (y + bfsDy.getD dir 0) = r.2 := by
  have hxu : x < USIZE := by unfold USIZE; omega
  have hyu : y < USIZE := by unfold USIZE; omega
  have hx1u : x + 1 < USIZE := by unfold USIZE; omega
  have hy1u : y + 1 < USIZE := by unfold USIZE; omega
  rcases hadj with ⟨h1, h2 | h2⟩ | ⟨h1, h2 | h2⟩
  · refine ⟨3, by omega, ?_, ?_⟩
    · simpa [bfsDx] using (wrap_self x hxu).trans h1
    · simpa [bfsDy] using (wrap_self (y + 1) hy1u).trans h2
  · refine ⟨1, by omega, ?_, ?_⟩
    · simpa [bfsDx] using (wrap_self x hxu).trans h1
    · have hy0 : y ≠ 0 := by omega
      simp only [bfsDy, List.getD_cons_succ, List.getD_cons_zero]
      rw [wrap_add_neg1 y hyu, if_neg hy0]
      omega
  · refine ⟨2, by omega, ?_, ?_⟩
    · simpa [bfsDx] using (wrap_self (x + 1) hx1u).trans h2
    · simpa [bfsDy] using (wrap_self y hyu).trans h1
  · refine ⟨0, by omega, ?_, ?_⟩
    · have hx0 : x ≠ 0 := by omega
      simp only [bfsDx, List.getD_cons_zero]
      rw [wrap_add_neg1 x hxu, if_neg hx0]
      omega
    · simpa [bfsDy] using (wrap_self y hyu).trans h1

/-- Queue potential for the BFS fuel argument: each entry at recorded level
`d` weighs `5 ^ (M - d)`. -/
def bfsPot (M : Nat) (Q : List (Nat × Nat × Nat)) : Nat :=
  (Q.map (fun e => 5 ^ (M - e.2.2))).sum

theorem bfsPot_cons (M : Nat) (e : Nat × Nat × Nat) (Q : List (Nat × Nat × Nat)) :
    bfsPot M (e :: Q) = 5 ^ (M - e.2.2) + bfsPot M Q := by
  simp [bfsPot]

theorem bfsPot_append (M : Nat) (Q R : List (Nat × Nat × Nat)) :
    bfsPot M (Q ++ R) = bfsPot M Q + bfsPot M R := by
  simp [bfsPot]

theorem bfsPot_const (M lv : Nat) :
    ∀ Q : List (Nat × Nat × Nat), (∀ e ∈ Q, e.2.2 = lv) →
      bfsPot M Q = Q.length * 5 ^ (M - lv) := by
  intro Q
  induction Q with
  | nil => intro _; simp [bfsPot]
  | cons e Q ih =>
    intro h
    rw [bfsPot_cons, ih (fun f hf => h f (by simp [hf])), h e (by simp)]
    simp [List.length_cons]
    ring

/-- Loop invariant of `bfsLoop` relative to the source cell `s1` and the
level assignment `L`: every queue entry carries its cell's true level, the
`dist` grid holds `2 ^ 60` or the true level, queue levels are nondecreasing
and span at most two consecutive values, queued cells are recorded in `dist`,
and every still-undiscovered reachable cell has an on-level chain from some
queued cell. -/
structure BfsInv (b : List (List Int)) (n : Nat) (mo : Bool) (s1 : Nat × Nat)
    (L : Nat × Nat → Nat) (Q : List (Nat × Nat × Nat)) (D : List (List Nat)) :
    Prop where
  hdim : D.length = n
  hrow : ∀ row ∈ D, row.length = n
  hq : ∀ e ∈ Q, (∃ k, OkPath b n mo s1 (e.1, e.2.1) k) ∧ e.2.2 = L (e.1, e.2.1)
  hqD : ∀ e ∈ Q, distGet D e.1 e.2.1 = L (e.1, e.2.1)
  hD : ∀ px py, px < n → py < n → distGet D px py = 2 ^ 60 ∨
    ((∃ k, OkPath b n mo s1 (px, py) k) ∧ distGet D px py = L (px, py))
  hsort : Q.Pairwise (fun e f => e.2.2 ≤ f.2.2)
  hwin : ∀ e ∈ Q, ∀ f ∈ Q, e.2.2 ≤ f.2.2 + 1
  hpend : ∀ p : Nat × Nat, (∃ k, OkPath b n mo s1 p k) →
    distGet D p.1 p.2 = 2 ^ 60 → ∃ e ∈ Q, OnLevel b n mo L (e.1, e.2.1) p

/-- Invariant of the four-direction expansion fold inside one `bfsLoop`
iteration, processing the popped entry `(x, y, d)` against original tail
`rest` and original grid `D`. -/
structure BfsMid (b : List (List Int)) (n : Nat) (mo : Bool) (s1 : Nat × Nat)
    (L : Nat × Nat → Nat) (d : Nat) (rest : List (Nat × Nat × Nat))
    (D : List (List Nat)) (acc : List (Nat × Nat × Nat) × List (List Nat)) :
    Prop where
  hdim : acc.2.length = n
  hrow : ∀ row ∈ acc.2, row.length = n
  hD2 : ∀ px py, px < n → py < n → distGet acc.2 px py = 2 ^ 60 ∨
    ((∃ k, OkPath b n mo s1 (px, py) k) ∧ distGet acc.2 px py = L (px, py))
  hsplit : ∃ extra, acc.1 = rest ++ extra ∧
    ∀ e ∈ extra, (∃ k, OkPath b n mo s1 (e.1, e.2.1) k) ∧ e.2.2 = d + 1 ∧
      L (e.1, e.2.1) = d + 1 ∧ distGet acc.2 e.1 e.2.1 = d + 1
  hval : ∀ px py, px < n → py < n →
    distGet acc.2 px py = distGet D px py ∨
    (distGet acc.2 px py = d + 1 ∧ (px, py, d + 1) ∈ acc.1)

theorem bfsStep_mid
    (b : List (List Int)) (n : Nat) (mo : Bool) (s1 : Nat × Nat) (L : Nat × Nat → Nat)
    (hL : IsLvl b n mo s1 L)
    (x y d : Nat) (rest : List (Nat × Nat × Nat)) (D : List (List Nat))
    (hsmall : n * n + 1 < 2 ^ 60)
    (hx : x < n) (hy : y < n)
    (hreach : ∃ k, OkPath b n mo s1 (x, y) k)
    (hdlvl : d = L (x, y))
    (hqrest : ∀ e ∈ rest, (∃ k, OkPath b n mo s1 (e.1, e.2.1) k) ∧ e.2.2 = L (e.1, e.2.1))
    (hminrest : ∀ e ∈ rest, d ≤ e.2.2)
    (hD : ∀ px py, px < n → py < n → distGet D px py = 2 ^ 60 ∨
      ((∃ k, OkPath b n mo s1 (px, py) k) ∧ distGet D px py = L (px, py)))
    (hpend : ∀ p : Nat × Nat, (∃ k, OkPath b n mo s1 p k) →
      distGet D p.1 p.2 = 2 ^ 60 →
      ∃ e ∈ (x, y, d) :: rest, OnLevel b n mo L (e.1, e.2.1) p)
    (dir : Nat) (hdir : dir < 4)
    (acc : List (Nat × Nat × Nat) × List (List Nat))
    (hmid : BfsMid b n mo s1 L d rest D acc) :
    BfsMid b n mo s1 L d rest D (bfsStep b n mo x y d acc dir) ∧
    (bfsStep b n mo x y d acc dir).1.length ≤ acc.1.length + 1 ∧
    (∀ e ∈ acc.1, e ∈ (bfsStep b n mo x y d acc dir).1) ∧
    (∀ px py, wrap (x + bfsDx.getD dir 0) = px → wrap (y + bfsDy.getD dir 0) = py →
      allowedCell b n mo (px, py) → L (px, py) = d + 1 →
      (px, py, d + 1) ∈ (bfsStep b n mo x y d acc dir).1) := by
  have hd_le : d ≤ n * n := hdlvl ▸ lvl_bound hL hreach
  have hd_pos : 1 ≤ d := hdlvl ▸ lvl_pos hL hreach
  have hn32 : n < 2 ^ 32 := lt_2_32_of_sq n hsmall
  have hlvl_notlt : ¬ distGet acc.2 (wrap (x + bfsDx.getD dir 0))
      (wrap (y + bfsDy.getD dir 0)) < d →
      True := fun _ => trivial
  set nx := wrap (x + bfsDx.getD dir 0) with hnx
  set ny := wrap (y + bfsDy.getD dir 0) with hny
  have hstep : bfsStep b n mo x y d acc dir =
      if ¬(nx < n ∧ ny < n) ∨ (mo = false ∧ getCell b nx ny ≠ -1) ∨
          distGet acc.2 nx ny < d then acc
      else (acc.1 ++ [(nx, ny, d + 1)], distSet acc.2 nx ny (d + 1)) := rfl
  have hlvl_nb : ∀ px py, nx = px → ny = py → allowedCell b n mo (px, py) →
      ¬ distGet acc.2 nx ny < d → L (px, py) = d + 1 ∧ (∃ k, OkPath b n mo s1 (px, py) k) := by
    intro px py hpx hpy hall hnlt
    subst hpx
    subst hpy
    have hadj : adjP (x, y) (nx, ny) :=
      bfs_nb_adj x y n dir hdir hx hy hn32 ⟨hall.1, hall.2.1⟩
    have hlvladj := lvl_adj hL hreach hadj hall
    refine ⟨?_, hlvladj.1⟩
    rcases hlvladj.2 with hcase | hcase
    · rw [hcase, ← hdlvl]
    · exfalso
      rw [← hdlvl] at hcase
      rcases hmid.hval nx ny hall.1 hall.2.1 with hv | ⟨hv, hment⟩
      · rw [hv] at hnlt
        rcases hD nx ny hall.1 hall.2.1 with hdv | ⟨_, hdv⟩
        · obtain ⟨e, he, hol⟩ := hpend (nx, ny) hlvladj.1 hdv
          have hle := onLevel_le hol
          rcases List.mem_cons.mp he with rfl | he2
          · simp only at hle
            omega
          · have h1 := (hqrest e he2).2
            have h2 := hminrest e he2
            omega
        · rw [hdv] at hnlt
          omega
      · rcases List.mem_append.mp ((hmid.hsplit.choose_spec.1 ▸ hment :
            (nx, ny, d + 1) ∈ rest ++ hmid.hsplit.choose)) with hm | hm
        · have := (hqrest _ hm).2
          simp only at this
          omega
        · have := (hmid.hsplit.choose_spec.2 _ hm).2.2.1
          simp only at this
          omega
  by_cases hskip : ¬(nx < n ∧ ny < n) ∨ (mo = false ∧ getCell b nx ny ≠ -1) ∨
      distGet acc.2 nx ny < d
  · rw [hstep, if_pos hskip]
    refine ⟨hmid, by omega, fun e he => he, ?_⟩
    intro px py hpx hpy hall hplvl
    exfalso
    rcases hskip with h1 | h2 | h3
    · rw [hpx, hpy] at h1
      exact h1 ⟨hall.1, hall.2.1⟩
    · rcases hall.2.2 with hmo | hcell
      · rw [hmo] at h2
        exact Bool.noConfusion h2.1
      · rw [hpx, hpy] at h2
        exact h2.2 hcell
    · have hlt := h3
      rw [hpx, hpy] at hlt
      rcases hmid.hval px py hall.1 hall.2.1 with hv | ⟨hv, _⟩
      · rw [hv] at hlt
        rcases hD px py hall.1 hall.2.1 with hdv | ⟨_, hdv⟩
        · rw [hdv] at hlt
          omega
        · rw [hdv, hplvl] at hlt
          omega
      · rw [hv] at hlt
        omega
  · rw [hstep, if_neg hskip]
    push_neg at hskip
    obtain ⟨hin, hocc, hnlt⟩ := hskip
    have hall : allowedCell b n mo (nx, ny) := by
      refine ⟨hin.1, hin.2, ?_⟩
      cases mo with
      | true => exact Or.inl rfl
      | false => exact Or.inr (hocc rfl)
    obtain ⟨hlvl, hreach2⟩ := hlvl_nb nx ny rfl rfl hall (Nat.not_lt.mpr hnlt)
    have hnxlen : nx < acc.2.length := by rw [hmid.hdim]; exact hin.1
    have hnylen : ny < (acc.2.getD nx []).length := by
      rw [hmid.hrow _ (getD_mem_of_lt _ _ _ hnxlen)]
      exact hin.2
    have hself : distGet (distSet acc.2 nx ny (d + 1)) nx ny = d + 1 :=
      distGet_distSet_self _ _ _ _ hnxlen hnylen
    obtain ⟨extra, hsplit1, hsplit2⟩ := hmid.hsplit
    refine ⟨⟨?_, ?_, ?_, ?_, ?_⟩, ?_, ?_, ?_⟩
    · rw [distSet_length]
      exact hmid.hdim
    · exact distSet_rows _ _ _ _ _ hmid.hrow
    · intro px py hpx hpy
      by_cases hc : px = nx ∧ py = ny
      · rw [hc.1, hc.2, hself]
        exact Or.inr ⟨hreach2, by rw [hlvl]⟩
      · rw [distGet_distSet_ne _ _ _ _ _ _ hc]
        exact hmid.hD2 px py hpx hpy
    · refine ⟨extra ++ [(nx, ny, d + 1)], ?_, ?_⟩
      · simp only [hsplit1, List.append_assoc]
      · intro e he
        rcases List.mem_append.mp he with he1 | he1
        · obtain ⟨hr, hl2, hl3, hl4⟩ := hsplit2 e he1
          refine ⟨hr, hl2, hl3, ?_⟩
          by_cases hc : e.1 = nx ∧ e.2.1 = ny
          · rw [hc.1, hc.2, hself]
          · rw [distGet_distSet_ne _ _ _ _ _ _ hc]
            exact hl4
        · rw [List.mem_singleton.mp he1]
          exact ⟨hreach2, rfl, hlvl, hself⟩
    · intro px py hpx hpy
      by_cases hc : px = nx ∧ py = ny
      · rw [hc.1, hc.2, hself]
        exact Or.inr ⟨rfl, by simp⟩
      · rw [distGet_distSet_ne _ _ _ _ _ _ hc]
        rcases hmid.hval px py hpx hpy with hv | ⟨hv, hm⟩
        · exact Or.inl hv
        · exact Or.inr ⟨hv, by simp [hm]⟩
    · simp
    · intro e he
      simp [he]
    · intro px py hpx hpy hall2 hplvl
      rw [← hpx, ← hpy]
      simp

theorem bfsFold_mid
    (b : List (List Int)) (n : Nat) (mo : Bool) (s1 : Nat × Nat) (L : Nat × Nat → Nat)
    (hL : IsLvl b n mo s1 L)
    (x y d : Nat) (rest : List (Nat × Nat × Nat)) (D : List (List Nat))
    (hsmall : n * n + 1 < 2 ^ 60)
    (hx : x < n) (hy : y < n)
    (hreach : ∃ k, OkPath b n mo s1 (x, y) k)
    (hdlvl : d = L (x, y))
    (hqrest : ∀ e ∈ rest, (∃ k, OkPath b n mo s1 (e.1, e.2.1) k) ∧ e.2.2 = L (e.1, e.2.1))
    (hminrest : ∀ e ∈ rest, d ≤ e.2.2)
    (hD : ∀ px py, px < n → py < n → distGet D px py = 2 ^ 60 ∨
      ((∃ k, OkPath b n mo s1 (px, py) k) ∧ distGet D px py = L (px, py)))
    (hpend : ∀ p : Nat × Nat, (∃ k, OkPath b n mo s1 p k) →
      distGet D p.1 p.2 = 2 ^ 60 →
      ∃ e ∈ (x, y, d) :: rest, OnLevel b n mo L (e.1, e.2.1) p) :
    ∀ (ds : List Nat) (acc : List (Nat × Nat × Nat) × List (List Nat)),
      (∀ dir ∈ ds, dir < 4) → BfsMid b n mo s1 L d rest D acc →
      BfsMid b n mo s1 L d rest D (ds.foldl (bfsStep b n mo x y d) acc) ∧
      (ds.foldl (bfsStep b n mo x y d) acc).1.length ≤ acc.1.length + ds.length ∧
      (∀ e ∈ acc.1, e ∈ (ds.foldl (bfsStep b n mo x y d) acc).1) ∧
      (∀ dir ∈ ds, ∀ px py,
        wrap (x + bfsDx.getD dir 0) = px → wrap (y + bfsDy.getD dir 0) = py →
        allowedCell b n mo (px, py) → L (px, py) = d + 1 →
        (px, py, d + 1) ∈ (ds.foldl (bfsStep b n mo x y d) acc).1) := by
  intro ds
  induction ds with
  | nil =>
    intro acc _ hmid
    exact ⟨hmid, by simp, fun e he => he, by simp⟩
  | cons dir ds ih =>
    intro acc hds hmid
    have hdir : dir < 4 := hds dir (by simp)
    obtain ⟨hmid2, hlen2, hmono2, hpush2⟩ := bfsStep_mid b n mo s1 L hL x y d rest D
      hsmall hx hy hreach hdlvl hqrest hminrest hD hpend dir hdir acc hmid
    obtain ⟨hmid3, hlen3, hmono3, hpush3⟩ :=
      ih (bfsStep b n mo x y d acc dir) (fun dd hdd => hds dd (by simp [hdd])) hmid2
    rw [List.foldl_cons]
    refine ⟨hmid3, by simp; omega, fun e he => hmono3 _ (hmono2 e he), ?_⟩
    intro dd hdd px py hpx hpy hall hplvl
    rcases List.mem_cons.mp hdd with rfl | hdd2
    · exact hmono3 _ (hpush2 px py hpx hpy hall hplvl)
    · exact hpush3 dd hdd2 px py hpx hpy hall hplvl

theorem pairwise_le_of_const (c : Nat) :
    ∀ l : List (Nat × Nat × Nat), (∀ e ∈ l, e.2.2 = c) →
      l.Pairwise (fun e f => e.2.2 ≤ f.2.2) := by
  intro l
  induction l with
  | nil => intro _; exact List.Pairwise.nil
  | cons e l ih =>
    intro h
    refine List.Pairwise.cons ?_ (ih (fun f hf => h f (by simp [hf])))
    intro f hf
    rw [h e (by simp), h f (by simp [hf])]

theorem bfsPop_preserve
    (b : List (List Int)) (n : Nat) (mo : Bool) (s1 : Nat × Nat) (L : Nat × Nat → Nat)
    (hL : IsLvl b n mo s1 L) (hsmall : n * n + 1 < 2 ^ 60)
    (x y d : Nat) (rest : List (Nat × Nat × Nat)) (D : List (List Nat))
    (hInv : BfsInv b n mo s1 L ((x, y, d) :: rest) D) :
    BfsInv b n mo s1 L
      ((List.range 4).foldl (bfsStep b n mo x y d) (rest, D)).1
      ((List.range 4).foldl (bfsStep b n mo x y d) (rest, D)).2 ∧
    bfsPot (n * n + 1) ((List.range 4).foldl (bfsStep b n mo x y d) (rest, D)).1 <
      bfsPot (n * n + 1) ((x, y, d) :: rest) ∧
    (∃ extra2, ((List.range 4).foldl (bfsStep b n mo x y d) (rest, D)).1 =
      rest ++ extra2) ∧
    (∀ px py, px < n → py < n →
      distGet ((List.range 4).foldl (bfsStep b n mo x y d) (rest, D)).2 px py =
        distGet D px py ∨
      (px, py, d + 1) ∈ ((List.range 4).foldl (bfsStep b n mo x y d) (rest, D)).1) := by
  have hhead := hInv.hq (x, y, d) (by simp)
  have hreach : ∃ k, OkPath b n mo s1 (x, y) k := hhead.1
  have hdlvl : d = L (x, y) := hhead.2
  have hallxy : allowedCell b n mo (x, y) := by
    obtain ⟨k, hk⟩ := hreach
    exact okPath_end_allowed hk
  have hx : x < n := hallxy.1
  have hy : y < n := hallxy.2.1
  have hd_le : d ≤ n * n := hdlvl ▸ lvl_bound hL hreach
  have hd_pos : 1 ≤ d := hdlvl ▸ lvl_pos hL hreach
  have hn32 : n < 2 ^ 32 := lt_2_32_of_sq n hsmall
  have hqrest : ∀ e ∈ rest, (∃ k, OkPath b n mo s1 (e.1, e.2.1) k) ∧
      e.2.2 = L (e.1, e.2.1) := fun e he => hInv.hq e (by simp [he])
  have hminrest : ∀ e ∈ rest, d ≤ e.2.2 := by
    intro e he
    have := List.pairwise_cons.mp hInv.hsort
    exact this.1 e he
  have hmid0 : BfsMid b n mo s1 L d rest D (rest, D) := by
    refine ⟨hInv.hdim, hInv.hrow, hInv.hD, ⟨[], by simp, by simp⟩, ?_⟩
    intro px py _ _
    exact Or.inl rfl
  obtain ⟨Fmid, Flen, Fmono, Fpush⟩ := bfsFold_mid b n mo s1 L hL x y d rest D
    hsmall hx hy hreach hdlvl hqrest hminrest hInv.hD hInv.hpend (List.range 4)
    (rest, D) (fun dir hdir => List.mem_range.mp hdir) hmid0
  obtain ⟨extra, hsp1, hsp2⟩ := Fmid.hsplit
  have hextra_len : extra.length ≤ 4 := by
    rw [hsp1] at Flen
    simp at Flen
    omega
  have hq2 : ∀ e ∈ ((List.range 4).foldl (bfsStep b n mo x y d) (rest, D)).1,
      (∃ k, OkPath b n mo s1 (e.1, e.2.1) k) ∧ e.2.2 = L (e.1, e.2.1) := by
    intro e he
    rw [hsp1] at he
    rcases List.mem_append.mp he with he1 | he1
    · exact hqrest e he1
    · obtain ⟨h1, h2, h3, _⟩ := hsp2 e he1
      exact ⟨h1, by rw [h2, h3]⟩
  have hentry_lvl : ∀ px py, (px, py, d + 1) ∈
      ((List.range 4).foldl (bfsStep b n mo x y d) (rest, D)).1 →
      L (px, py) = d + 1 := by
    intro px py hm
    have := (hq2 (px, py, d + 1) hm).2
    simpa using this.symm
  have hrest_le : ∀ e ∈ rest, e.2.2 ≤ d + 1 :=
    fun e he => hInv.hwin e (by simp [he]) (x, y, d) (by simp)
  refine ⟨⟨Fmid.hdim, Fmid.hrow, hq2, ?_, Fmid.hD2, ?_, ?_, ?_⟩, ?_, ⟨extra, hsp1⟩, ?_⟩
  · intro e he
    rw [hsp1] at he
    rcases List.mem_append.mp he with he1 | he1
    · have hein := hqrest e he1
      have healw : allowedCell b n mo (e.1, e.2.1) := by
        obtain ⟨k, hk⟩ := hein.1
        exact okPath_end_allowed hk
      rcases Fmid.hval e.1 e.2.1 healw.1 healw.2.1 with hv | ⟨hv, hm⟩
      · rw [hv]
        exact hInv.hqD e (by simp [he1])
      · rw [hv]
        exact (hentry_lvl e.1 e.2.1 hm).symm
    · obtain ⟨_, _, h3, h4⟩ := hsp2 e he1
      rw [h4, h3]
  · rw [hsp1]
    rw [List.pairwise_append]
    refine ⟨List.Pairwise.sublist (by simp) hInv.hsort, ?_, ?_⟩
    · exact pairwise_le_of_const (d + 1) extra (fun e he => (hsp2 e he).2.1)
    · intro e he f hf
      rw [(hsp2 f hf).2.1]
      exact hrest_le e he
  · intro e he f hf
    rw [hsp1] at he hf
    rcases List.mem_append.mp he with he1 | he1 <;>
      rcases List.mem_append.mp hf with hf1 | hf1
    · exact hInv.hwin e (by simp [he1]) f (by simp [hf1])
    · rw [(hsp2 f hf1).2.1]
      have := hrest_le e he1
      omega
    · rw [(hsp2 e he1).2.1]
      have := hminrest f hf1
      omega
    · rw [(hsp2 e he1).2.1, (hsp2 f hf1).2.1]
      omega
  · intro p hp hundisc
    have hpallw : allowedCell b n mo p := by
      obtain ⟨k, hk⟩ := hp
      exact okPath_end_allowed hk
    have hDundisc : distGet D p.1 p.2 = 2 ^ 60 := by
      rcases Fmid.hval p.1 p.2 hpallw.1 hpallw.2.1 with hv | ⟨hv, _⟩
      · rw [← hv]
        exact hundisc
      · rw [hv] at hundisc
        omega
    obtain ⟨e, he, hol⟩ := hInv.hpend p hp hDundisc
    rcases List.mem_cons.mp he with rfl | he2
    · simp only at hol
      cases hol with
      | refl =>
        exfalso
        have h1 := hInv.hqD (x, y, d) (by simp)
        simp only at h1
        rcases Fmid.hval x y hx hy with hv | ⟨hv, _⟩
        · rw [hv, h1, ← hdlvl] at hundisc
          omega
        · rw [hv] at hundisc
          omega
      | step h1 h2 h3 h4 =>
        rename_i r1
        have hr1in : allowedCell b n mo r1 := h2
        obtain ⟨dir, hdir, hw1, hw2⟩ := adj_bfs_nb x y n r1 h1 hx hy hr1in.1 hr1in.2.1 hn32
        have hlr1 : L r1 = d + 1 := by
          rw [h3, ← hdlvl]
        have hment := Fpush dir (List.mem_range.mpr hdir) r1.1 r1.2 hw1 hw2
          (by rw [Prod.mk.eta]; exact hr1in) (by rw [Prod.mk.eta]; exact hlr1)
        refine ⟨(r1.1, r1.2, d + 1), hment, ?_⟩
        simp only [Prod.mk.eta]
        exact h4
    · refine ⟨e, ?_, hol⟩
      rw [hsp1]
      exact List.mem_append_left _ he2
  · rw [hsp1, bfsPot_append, bfsPot_cons]
    dsimp only
    have hpotextra : bfsPot (n * n + 1) extra = extra.length * 5 ^ (n * n + 1 - (d + 1)) :=
      bfsPot_const _ _ extra (fun e he => (hsp2 e he).2.1)
    rw [hpotextra]
    have hMd : n * n + 1 - d = (n * n + 1 - (d + 1)) + 1 := by omega
    have hw_pos : 0 < 5 ^ (n * n + 1 - (d + 1)) := Nat.pos_pow_of_pos _ (by omega)
    have : extra.length * 5 ^ (n * n + 1 - (d + 1)) < 5 ^ (n * n + 1 - d) := by
      rw [hMd, pow_succ]
      have h5 : extra.length < 5 := by omega
      calc extra.length * 5 ^ (n * n + 1 - (d + 1)) <
          5 * 5 ^ (n * n + 1 - (d + 1)) := by
            exact Nat.mul_lt_mul_of_lt_of_le h5 (Nat.le_refl _) hw_pos
        _ = 5 ^ (n * n + 1 - (d + 1)) * 5 := by ring
    omega
  · intro px py hpx hpy
    rcases Fmid.hval px py hpx hpy with hv | ⟨_, hm⟩
    · exact Or.inl hv
    · exact Or.inr hm

theorem bfsLoop_sound
    (b : List (List Int)) (n : Nat) (mo : Bool) (s1 : Nat × Nat) (L : Nat × Nat → Nat)
    (hL : IsLvl b n mo s1 L) (hsmall : n * n + 1 < 2 ^ 60) (tx ty : Nat) :
    ∀ (fuel : Nat) (Q : List (Nat × Nat × Nat)) (D : List (List Nat)),
      BfsInv b n mo s1 L Q D →
      ∀ dd, bfsLoop b n tx ty mo fuel Q D = some dd →
        (∃ k, OkPath b n mo s1 (tx, ty) k) ∧ dd = L (tx, ty) := by
  intro fuel
  induction fuel with
  | zero =>
    intro Q D _ dd h
    exact Option.noConfusion h
  | succ fuel ih =>
    intro Q D hInv dd h
    cases Q with
    | nil => exact Option.noConfusion h
    | cons e rest =>
      obtain ⟨x, y, d⟩ := e
      simp only [bfsLoop] at h
      by_cases hx : x = tx ∧ y = ty
      · rw [if_pos hx] at h
        have hq := hInv.hq (x, y, d) (by simp)
        simp only at hq
        have hdd : d = dd := by
          cases h
          rfl
        refine ⟨?_, ?_⟩
        · rw [← hx.1, ← hx.2]
          exact hq.1
        · rw [← hdd, hq.2, hx.1, hx.2]
      · rw [if_neg hx] at h
        obtain ⟨hInv2, _, _, _⟩ :=
          bfsPop_preserve b n mo s1 L hL hsmall x y d rest D hInv
        exact ih _ _ hInv2 dd h

theorem bfsLoop_complete
    (b : List (List Int)) (n : Nat) (mo : Bool) (s1 : Nat × Nat) (L : Nat × Nat → Nat)
    (hL : IsLvl b n mo s1 L) (hsmall : n * n + 1 < 2 ^ 60) (tx ty : Nat)
    (hreach_t : ∃ k, OkPath b n mo s1 (tx, ty) k) :
    ∀ (fuel : Nat) (Q : List (Nat × Nat × Nat)) (D : List (List Nat)),
      BfsInv b n mo s1 L Q D →
      bfsPot (n * n + 1) Q < fuel →
      ((∃ e ∈ Q, ((e : Nat × Nat × Nat).1, e.2.1) = (tx, ty)) ∨
        distGet D tx ty = 2 ^ 60) →
      bfsLoop b n tx ty mo fuel Q D = some (L (tx, ty)) := by
  have htin : allowedCell b n mo (tx, ty) := by
    obtain ⟨k, hk⟩ := hreach_t
    exact okPath_end_allowed hk
  intro fuel
  induction fuel with
  | zero =>
    intro Q D _ hpot _
    omega
  | succ fuel ih =>
    intro Q D hInv hpot hC
    cases Q with
    | nil =>
      exfalso
      rcases hC with ⟨e, he, _⟩ | hC2
      · exact absurd he (List.not_mem_nil e)
      · obtain ⟨e, he, _⟩ := hInv.hpend (tx, ty) hreach_t hC2
        exact absurd he (List.not_mem_nil e)
    | cons e rest =>
      obtain ⟨x, y, d⟩ := e
      simp only [bfsLoop]
      by_cases hx : x = tx ∧ y = ty
      · rw [if_pos hx]
        have hq := hInv.hq (x, y, d) (by simp)
        simp only at hq
        have : d = L (tx, ty) := by
          rw [hq.2, hx.1, hx.2]
        rw [this]
      · rw [if_neg hx]
        obtain ⟨hInv2, hpot2, ⟨extra2, hsp⟩, hvalf⟩ :=
          bfsPop_preserve b n mo s1 L hL hsmall x y d rest D hInv
        refine ih _ _ hInv2 (by omega) ?_
        rcases hC with ⟨e2, he2, hcell⟩ | hC2
        · rcases List.mem_cons.mp he2 with rfl | he3
          · exfalso
            simp only [Prod.mk.injEq] at hcell
            exact hx hcell
          · refine Or.inl ⟨e2, ?_, hcell⟩
            rw [hsp]
            exact List.mem_append_left _ he3
        · rcases hvalf tx ty htin.1 htin.2.1 with hsame | hment
          · exact Or.inr (hsame.trans hC2)
          · exact Or.inl ⟨(tx, ty, d + 1), hment, rfl⟩

theorem getD_replicate {α : Type} (m k : Nat) (c d : α) (h : k < m) :
    (List.replicate m c).getD k d = c := by
  rw [List.getD_eq_getElem?_getD, List.getElem?_replicate, if_pos h]
  rfl

theorem distGet_grid_init (n v px py : Nat) (hpx : px < n) (hpy : py < n) :
    distGet (List.replicate n (List.replicate n v)) px py = v := by
  unfold distGet
  rw [getD_replicate _ _ _ _ hpx, getD_replicate _ _ _ _ hpy]

theorem bfsInit_inv (b : List (List Int)) (n : Nat) (mo : Bool) (sx1 sy1 : Nat)
    (L : Nat × Nat → Nat) (hL : IsLvl b n mo (sx1, sy1) L)
    (hall : allowedCell b n mo (sx1, sy1)) :
    BfsInv b n mo (sx1, sy1) L [(sx1, sy1, 1)]
      (distSet (List.replicate n (List.replicate n (2 ^ 60))) sx1 sy1 1) := by
  have hreach1 : ∃ k, OkPath b n mo (sx1, sy1) (sx1, sy1) k :=
    ⟨0, OkPath.refl _ hall⟩
  have hL1 : L (sx1, sy1) = 1 := by
    have h1 := lvl_pos hL hreach1
    have h2 := lvl_le_of_path hL (OkPath.refl (sx1, sy1) hall)
    omega
  have hgridlen : (List.replicate n (List.replicate n (2 ^ 60 : Nat))).length = n := by
    simp
  have hx1 : sx1 < (List.replicate n (List.replicate n (2 ^ 60 : Nat))).length := by
    rw [hgridlen]
    exact hall.1
  have hy1 : sy1 <
      ((List.replicate n (List.replicate n (2 ^ 60 : Nat))).getD sx1 []).length := by
    rw [getD_replicate _ _ _ _ (by rw [← hgridlen]; exact hx1)]
    simp [hall.2.1]
  have hself : distGet (distSet (List.replicate n (List.replicate n (2 ^ 60))) sx1 sy1 1)
      sx1 sy1 = 1 := distGet_distSet_self _ _ _ _ hx1 hy1
  refine ⟨?_, ?_, ?_, ?_, ?_, ?_, ?_, ?_⟩
  · rw [distSet_length]
    simp
  · refine distSet_rows _ _ _ _ _ ?_
    intro row hrow
    rw [List.eq_of_mem_replicate hrow]
    simp
  · intro e he
    rw [List.mem_singleton.mp he]
    exact ⟨hreach1, by simp [hL1]⟩
  · intro e he
    rw [List.mem_singleton.mp he]
    simp only
    rw [hself, hL1]
  · intro px py hpx hpy
    by_cases hc : px = sx1 ∧ py = sy1
    · rw [hc.1, hc.2, hself]
      exact Or.inr ⟨hreach1, by rw [hL1]⟩
    · rw [distGet_distSet_ne _ _ _ _ _ _ hc, distGet_grid_init n _ px py hpx hpy]
      exact Or.inl rfl
  · exact List.pairwise_singleton _ _
  · intro e he f hf
    rw [List.mem_singleton.mp he, List.mem_singleton.mp hf]
    simp
  · intro p hp hundisc
    refine ⟨(sx1, sy1, 1), by simp, ?_⟩
    simp only
    have hLp1 := lvl_pos hL hp
    refine onLevel_of_min hL (L p - 1) (sx1, sy1) p hreach1 (lvl_path hL hp) ?_
    omega

theorem pot_init_lt_fuel (n : Nat) : bfsPot (n * n + 1) [(p, q, 1)] < bfsFuel n := by
  unfold bfsFuel
  rw [bfsPot_cons]
  simp only [bfsPot, List.map_nil, List.sum_nil]
  have h1 : (5 : Nat) ^ (n * n + 1 - 1) ≤ 5 ^ (n * n + 1) :=
    Nat.pow_le_pow_right (by omega) (by omega)
  omega

theorem bfsDir_char (s : State) (fx fy dx dy : Nat) (mo : Bool)
    (hsmall : s.len * s.len + 1 < 2 ^ 60) (dir : Nat) :
    ((bfsDir s (fx, fy) (dx, dy) mo dir).isSome = true ↔
      ∃ k, OkPath s.board s.len mo
        (wrap (fx + bfsDx.getD dir 0), wrap (fy + bfsDy.getD dir 0)) (dx, dy) k) ∧
    (∀ mv dd, bfsDir s (fx, fy) (dx, dy) mo dir = some (mv, dd) →
      mv = (if dir < 4 then Move.MoveDir dir else Move.Stay) ∧
      ∃ k, OkPath s.board s.len mo
          (wrap (fx + bfsDx.getD dir 0), wrap (fy + bfsDy.getD dir 0)) (dx, dy) k ∧
        (∀ k2, OkPath s.board s.len mo
          (wrap (fx + bfsDx.getD dir 0), wrap (fy + bfsDy.getD dir 0)) (dx, dy) k2 →
          k ≤ k2) ∧
        dd = usize_as_i32 (1 + k)) := by
  have hdef : bfsDir s (fx, fy) (dx, dy) mo dir =
      (if ¬(wrap (fx + bfsDx.getD dir 0) < s.len ∧ wrap (fy + bfsDy.getD dir 0) < s.len)
       then none
       else if mo = false ∧
           getCell s.board (wrap (fx + bfsDx.getD dir 0)) (wrap (fy + bfsDy.getD dir 0)) ≠ -1
       then none
       else
         match bfsLoop s.board s.len dx dy mo (bfsFuel s.len)
             [(wrap (fx + bfsDx.getD dir 0), wrap (fy + bfsDy.getD dir 0), 1)]
             (distSet (List.replicate s.len (List.replicate s.len (2 ^ 60)))
               (wrap (fx + bfsDx.getD dir 0)) (wrap (fy + bfsDy.getD dir 0)) 1) with
         | some d => some ((if dir < 4 then Move.MoveDir dir else Move.Stay),
             usize_as_i32 d)
         | none => none) := rfl
  set sx1 := wrap (fx + bfsDx.getD dir 0) with hsx1
  set sy1 := wrap (fy + bfsDy.getD dir 0) with hsy1
  by_cases hin : sx1 < s.len ∧ sy1 < s.len
  · by_cases hocc : mo = false ∧ getCell s.board sx1 sy1 ≠ -1
    · have hnone : bfsDir s (fx, fy) (dx, dy) mo dir = none := by
        rw [hdef, if_neg (not_not_intro hin), if_pos hocc]
      rw [hnone]
      constructor
      · constructor
        · intro h
          exact absurd h (by simp)
        · intro ⟨k, hk⟩
          exfalso
          have := okPath_start_allowed hk
          rcases this.2.2 with h1 | h1
          · rw [hocc.1] at h1
            exact Bool.noConfusion h1
          · exact hocc.2 h1
      · intro mv dd h
        exact Option.noConfusion h
    · have hall : allowedCell s.board s.len mo (sx1, sy1) := by
        refine ⟨hin.1, hin.2, ?_⟩
        cases mo with
        | true => exact Or.inl rfl
        | false =>
          refine Or.inr ?_
          by_contra hc
          exact hocc ⟨rfl, hc⟩
      obtain ⟨L, hL⟩ := isLvl_exists s.board s.len mo (sx1, sy1)
      have hInit := bfsInit_inv s.board s.len mo sx1 sy1 L hL hall
      by_cases hreach : ∃ k, OkPath s.board s.len mo (sx1, sy1) (dx, dy) k
      · have htall : allowedCell s.board s.len mo (dx, dy) := by
          obtain ⟨k, hk⟩ := hreach
          exact okPath_end_allowed hk
        have hC : (∃ e ∈ [(sx1, sy1, 1)],
            ((e : Nat × Nat × Nat).1, e.2.1) = (dx, dy)) ∨
            distGet (distSet (List.replicate s.len (List.replicate s.len (2 ^ 60)))
              sx1 sy1 1) dx dy = 2 ^ 60 := by
          by_cases hsame : dx = sx1 ∧ dy = sy1
          · exact Or.inl ⟨(sx1, sy1, 1), by simp, by simp [hsame.1, hsame.2]⟩
          · refine Or.inr ?_
            rw [distGet_distSet_ne _ _ _ _ _ _ hsame]
            exact distGet_grid_init _ _ _ _ htall.1 htall.2.1
        have hcomp := bfsLoop_complete s.board s.len mo (sx1, sy1) L hL hsmall dx dy
          hreach (bfsFuel s.len) [(sx1, sy1, 1)]
          (distSet (List.replicate s.len (List.replicate s.len (2 ^ 60))) sx1 sy1 1)
          hInit (pot_init_lt_fuel s.len) hC
        have hsome : bfsDir s (fx, fy) (dx, dy) mo dir =
            some ((if dir < 4 then Move.MoveDir dir else Move.Stay),
              usize_as_i32 (L (dx, dy))) := by
          rw [hdef, if_neg (not_not_intro hin), if_neg hocc, hcomp]
        rw [hsome]
        have hmin := (hL (dx, dy) hreach).2.2
        have hpos := lvl_pos hL hreach
        have hpath := lvl_path hL hreach
        constructor
        · simp only [Option.isSome_some, true_iff]
          exact hreach
        · intro mv dd h
          have hmv : mv = (if dir < 4 then Move.MoveDir dir else Move.Stay) := by
            cases h
            rfl
          have hdd : dd = usize_as_i32 (L (dx, dy)) := by
            cases h
            rfl
          refine ⟨hmv, L (dx, dy) - 1, hpath, ?_, ?_⟩
          · intro k2 hk2
            have := hmin k2 hk2
            omega
          · rw [hdd]
            congr 1
            omega
      · have hnone : bfsDir s (fx, fy) (dx, dy) mo dir = none := by
          rw [hdef, if_neg (not_not_intro hin), if_neg hocc]
          cases hloop : bfsLoop s.board s.len dx dy mo (bfsFuel s.len) [(sx1, sy1, 1)]
              (distSet (List.replicate s.len (List.replicate s.len (2 ^ 60)))
                sx1 sy1 1) with
          | none => rfl
          | some dd2 =>
            exfalso
            have := bfsLoop_sound s.board s.len mo (sx1, sy1) L hL hsmall dx dy
              (bfsFuel s.len) _ _ hInit dd2 hloop
            exact hreach this.1
        rw [hnone]
        refine ⟨⟨fun h => absurd h (by simp), fun h => absurd h hreach⟩, ?_⟩
        intro mv dd h
        exact Option.noConfusion h
  · have hnone : bfsDir s (fx, fy) (dx, dy) mo dir = none := by
      rw [hdef, if_pos hin]
    rw [hnone]
    refine ⟨⟨fun h => absurd h (by simp), ?_⟩, fun mv dd h => Option.noConfusion h⟩
    intro ⟨k, hk⟩
    exfalso
    have := okPath_start_allowed hk
    exact hin ⟨this.1, this.2.1⟩

theorem max_sub_min (a b : Nat) : Nat.max a b - Nat.min a b = (a - b) + (b - a) := by
  rcases Nat.le_total a b with h | h
  · rw [show Nat.max a b = b from Nat.max_eq_right h,
      show Nat.min a b = a from Nat.min_eq_left h]
    omega
  · rw [show Nat.max a b = a from Nat.max_eq_left h,
      show Nat.min a b = b from Nat.min_eq_right h]
    omega

theorem manhattan_eq (p q : Nat × Nat) :
    manhattan_distance p q = ((p.1 - q.1) + (q.1 - p.1)) + ((p.2 - q.2) + (q.2 - p.2)) := by
  unfold manhattan_distance
  rw [max_sub_min, max_sub_min]

theorem okPath_manhattan_le {b : List (List Int)} {n : Nat} {mo : Bool}
    {s t : Nat × Nat} {k : Nat} (h : OkPath b n mo s t k) :
    manhattan_distance s t ≤ k := by
  induction h with
  | refl hp =>
    rw [manhattan_eq]
    omega
  | snoc hw hadj hq ih =>
    rename_i pmid q2 k2
    rw [manhattan_eq]
    rw [manhattan_eq] at ih
    have := adjP_sum hadj
    rcases hadj with ⟨h1, h2⟩ | ⟨h1, h2⟩ <;> omega

/-- An `n × n` state with an empty board (all cells `-1`) and `n` idle
cranes, for the C7 board instances. -/
def emptyState (n : Nat) : State :=
  { queue := [], done := [], board := List.replicate n (List.replicate n (-1)),
    cranes := List.replicate n noCrane }

theorem emptyState_len (n : Nat) : (emptyState n).len = n := by
  simp [emptyState, State.len]

theorem getCell_empty (n : Nat) (x y : Nat) :
    getCell (emptyState n).board x y = -1 := by
  unfold getCell emptyState
  simp only
  by_cases hx : x < n
  · rw [getD_replicate _ _ _ _ (by simpa using hx)]
    by_cases hy : y < n
    · rw [getD_replicate _ _ _ _ hy]
    · rw [List.getD_eq_getElem?_getD, List.getElem?_eq_none (by simpa using hy)]
      rfl
  · have houter : (List.replicate n (List.replicate n (-1 : Int))).getD x [] = [] := by
      rw [List.getD_eq_getElem?_getD, List.getElem?_eq_none (by simpa using hx)]
      rfl
    rw [houter]
    rfl

theorem allowed_empty (n : Nat) (mo : Bool) (p : Nat × Nat) (h1 : p.1 < n) (h2 : p.2 < n) :
    allowedCell (emptyState n).board n mo p :=
  ⟨h1, h2, Or.inr (getCell_empty n p.1 p.2)⟩

theorem okPath_down (b : List (List Int)) (n : Nat) (mo : Bool)
    (hallow : ∀ p : Nat × Nat, p.1 < n → p.2 < n → allowedCell b n mo p) :
    ∀ (m : Nat) (x y : Nat), x + m < n → y < n → OkPath b n mo (x, y) (x + m, y) m := by
  intro m
  induction m with
  | zero =>
    intro x y hx hy
    exact OkPath.refl (x, y) (hallow (x, y) (by omega) hy)
  | succ m ih =>
    intro x y hx hy
    have hprev := ih x y (by omega) hy
    refine OkPath.snoc hprev ?_ (hallow (x + (m + 1), y) (by omega) hy)
    exact Or.inr ⟨rfl, Or.inl (by omega)⟩

theorem okPath_right (b : List (List Int)) (n : Nat) (mo : Bool)
    (hallow : ∀ p : Nat × Nat, p.1 < n → p.2 < n → allowedCell b n mo p) :
    ∀ (m : Nat) (x y : Nat), x < n → y + m < n → OkPath b n mo (x, y) (x, y + m) m := by
  intro m
  induction m with
  | zero =>
    intro x y hx hy
    exact OkPath.refl (x, y) (hallow (x, y) hx (by omega))
  | succ m ih =>
    intro x y hx hy
    have hprev := ih x y hx (by omega)
    refine OkPath.snoc hprev ?_ (hallow (x, y + (m + 1)) hx (by omega))
    exact Or.inl ⟨rfl, Or.inl (by omega)⟩

/-- **C7** (amended): for every call `bfs(from, to, move_over)` on a state
within the fuel/`i32` size limit, each of the 5 first-step branches yields an
entry iff the target is reachable from that branch's first cell by a walk
honoring the occupancy constraint, and the entry carries that branch's move
and the cast of one plus the minimal remaining walk length; the result is
empty iff no branch reaches the target; on an empty `N × N` board with
`N ≥ 2` some branch reports distance `2(N−1)`; and no options are returned
when the target cell is occupied and `move_over` is false.  (The original
claim's `N = 1` case of the empty-board instance is refuted by
`claim7_counterexample`: there the only entry is `(Stay, 1)`, not `0`.) -/
theorem claim7_bfs (s : State) (frm dst : Nat × Nat) (mo : Bool)
    (hsmall : s.len * s.len + 1 < 2 ^ 60) :
    (∀ dir : Nat, dir < 5 →
      ((∃ en, bfsDir s frm dst mo dir = some en) ↔
        ∃ k, OkPath s.board s.len mo
          (wrap (frm.1 + bfsDx.getD dir 0), wrap (frm.2 + bfsDy.getD dir 0)) dst k) ∧
      (∀ mv dd, bfsDir s frm dst mo dir = some (mv, dd) →
        (mv, dd) ∈ s.bfs frm dst mo ∧
        mv = (if dir < 4 then Move.MoveDir dir else Move.Stay) ∧
        ∃ k, OkPath s.board s.len mo
            (wrap (frm.1 + bfsDx.getD dir 0), wrap (frm.2 + bfsDy.getD dir 0)) dst k ∧
          (∀ k2, OkPath s.board s.len mo
            (wrap (frm.1 + bfsDx.getD dir 0), wrap (frm.2 + bfsDy.getD dir 0)) dst k2 →
            k ≤ k2) ∧
          dd = usize_as_i32 (1 + k))) ∧
    (s.bfs frm dst mo = [] ↔ ∀ dir : Nat, dir < 5 →
      ¬∃ k, OkPath s.board s.len mo
        (wrap (frm.1 + bfsDx.getD dir 0), wrap (frm.2 + bfsDy.getD dir 0)) dst k) ∧
    (∀ n : Nat, 2 ≤ n → n * n + 1 < 2 ^ 60 →
      ∃ en ∈ (emptyState n).bfs (0, 0) (n - 1, n - 1) false,
        (en : Move × Int).2 = usize_as_i32 (2 * (n - 1))) ∧
    (∀ (s2 : State) (frm2 dst2 : Nat × Nat), s2.len * s2.len + 1 < 2 ^ 60 →
      getCell s2.board dst2.1 dst2.2 ≠ -1 → s2.bfs frm2 dst2 false = []) := by
  obtain ⟨fx, fy⟩ := frm
  obtain ⟨dx, dy⟩ := dst
  have hchar := fun dir => bfsDir_char s fx fy dx dy mo hsmall dir
  refine ⟨?_, ?_, ?_, ?_⟩
  · intro dir hdir
    constructor
    · rw [← Option.isSome_iff_exists]
      exact (hchar dir).1
    · intro mv dd h
      refine ⟨?_, (hchar dir).2 mv dd h |>.1, (hchar dir).2 mv dd h |>.2⟩
      unfold State.bfs
      rw [List.mem_filterMap]
      exact ⟨dir, List.mem_range.mpr hdir, h⟩
  · unfold State.bfs
    rw [List.filterMap_eq_nil]
    constructor
    · intro h dir hdir hex
      have hnone := h dir (List.mem_range.mpr hdir)
      obtain ⟨en, hen⟩ := Option.isSome_iff_exists.mp (((hchar dir).1).mpr hex)
      rw [hen] at hnone
      exact Option.noConfusion hnone
    · intro h dir hdir
      rw [← Option.not_isSome_iff_eq_none]
      rw [(hchar dir).1]
      exact h dir (List.mem_range.mp hdir)
  · intro n hn hnsmall
    have hlen := emptyState_len n
    have hsmall2 : (emptyState n).len * (emptyState n).len + 1 < 2 ^ 60 := by
      rw [hlen]
      exact hnsmall
    have hchar2 := bfsDir_char (emptyState n) 0 0 (n - 1) (n - 1) false hsmall2 2
    have hsx : wrap (0 + bfsDx.getD 2 0) = 1 := by
      simp only [bfsDx, List.getD_cons_succ, List.getD_cons_zero, Nat.zero_add]
      exact wrap_self 1 (by unfold USIZE; omega)
    have hsy : wrap (0 + bfsDy.getD 2 0) = 0 := by
      simp only [bfsDy, List.getD_cons_succ, List.getD_cons_zero, Nat.zero_add]
      exact wrap_self 0 (by unfold USIZE; omega)
    have hallow : ∀ p : Nat × Nat, p.1 < (emptyState n).len → p.2 < (emptyState n).len →
        allowedCell (emptyState n).board (emptyState n).len false p := by
      intro p h1 h2
      rw [hlen] at h1 h2 ⊢
      exact allowed_empty n false p h1 h2
    have hpath1 : OkPath (emptyState n).board (emptyState n).len false (1, 0)
        (1 + (n - 2), 0) (n - 2) :=
      okPath_down _ _ _ hallow (n - 2) 1 0 (by rw [hlen]; omega) (by rw [hlen]; omega)
    have hpath2 : OkPath (emptyState n).board (emptyState n).len false (n - 1, 0)
        (n - 1, 0 + (n - 1)) (n - 1) :=
      okPath_right _ _ _ hallow (n - 1) (n - 1) 0 (by rw [hlen]; omega) (by rw [hlen]; omega)
    have h12 : (1 + (n - 2), 0) = ((n - 1 : Nat), (0 : Nat)) := by
      congr 1
      omega
    rw [h12] at hpath1
    have h22 : ((n - 1 : Nat), 0 + (n - 1)) = ((n - 1 : Nat), (n - 1 : Nat)) := by
      congr 1
      omega
    rw [h22] at hpath2
    have hpath := okPath_concat hpath1 hpath2
    have hex : ∃ k, OkPath (emptyState n).board (emptyState n).len false
        (wrap (0 + bfsDx.getD 2 0), wrap (0 + bfsDy.getD 2 0)) (n - 1, n - 1) k := by
      rw [hsx, hsy]
      exact ⟨_, hpath⟩
    obtain ⟨en, hen⟩ := Option.isSome_iff_exists.mp ((hchar2.1).mpr hex)
    obtain ⟨mv2, dd2⟩ := en
    obtain ⟨hmv, k, hk, hkmin, hdd⟩ := hchar2.2 mv2 dd2 hen
    refine ⟨(mv2, dd2), ?_, ?_⟩
    · unfold State.bfs
      rw [List.mem_filterMap]
      exact ⟨2, by simp, hen⟩
    · simp only
      rw [hdd]
      congr 1
      rw [hsx, hsy] at hk hkmin
      have hup : k ≤ (n - 2) + (n - 1) := hkmin _ hpath
      have hlow := okPath_manhattan_le hk
      rw [manhattan_eq] at hlow
      simp only at hlow
      omega
  · intro s2 frm2 dst2 hsmall2 hocc
    obtain ⟨fx2, fy2⟩ := frm2
    obtain ⟨dx2, dy2⟩ := dst2
    unfold State.bfs
    rw [List.filterMap_eq_nil]
    intro dir hdir
    rw [← Option.not_isSome_iff_eq_none,
      (bfsDir_char s2 fx2 fy2 dx2 dy2 false hsmall2 dir).1]
    intro ⟨k, hk⟩
    have hend := okPath_end_allowed hk
    rcases hend.2.2 with h1 | h1
    · exact Bool.noConfusion h1
    · exact hocc h1

/-- **C7 counterexample**: the empty-board instance of the original claim
fails at `N = 1`.  From `(0,0)` to `(N−1, N−1) = (0,0)` the call returns the
single entry `(Stay, 1)` (the forced first step still costs one move), so no
branch reports distance `2(N−1) = 0`. -/
theorem claim7_counterexample :
    State.bfs (emptyState 1) (0, 0) (0, 0) false = [(Move.Stay, 1)] ∧
    2 * ((emptyState 1).len - 1) = 0 ∧
    ¬∃ en ∈ State.bfs (emptyState 1) (0, 0) (0, 0) false,
      (en : Move × Int).2 = ((2 * ((emptyState 1).len - 1) : Nat) : Int) := by
  refine ⟨rfl, rfl, ?_⟩
  intro ⟨en, hmem, hval⟩
  rw [show State.bfs (emptyState 1) (0, 0) (0, 0) false = [(Move.Stay, 1)] from rfl]
    at hmem
  rw [List.mem_singleton.mp hmem] at hval
  exact absurd hval (by decide)

/-- Witness for `claim7_bfs` on the empty 2×2 board. -/
theorem claim7_witness :
    (emptyState 2).len * (emptyState 2).len + 1 < 2 ^ 60 ∧
    ((∀ dir : Nat, dir < 5 →
      ((∃ en, bfsDir (emptyState 2) (0, 0) (1, 1) false dir = some en) ↔
        ∃ k, OkPath (emptyState 2).board (emptyState 2).len false
          (wrap (0 + bfsDx.getD dir 0), wrap (0 + bfsDy.getD dir 0)) (1, 1) k) ∧
      (∀ mv dd, bfsDir (emptyState 2) (0, 0) (1, 1) false dir = some (mv, dd) →
        (mv, dd) ∈ (emptyState 2).bfs (0, 0) (1, 1) false ∧
        mv = (if dir < 4 then Move.MoveDir dir else Move.Stay) ∧
        ∃ k, OkPath (emptyState 2).board (emptyState 2).len false
            (wrap (0 + bfsDx.getD dir 0), wrap (0 + bfsDy.getD dir 0)) (1, 1) k ∧
          (∀ k2, OkPath (emptyState 2).board (emptyState 2).len false
            (wrap (0 + bfsDx.getD dir 0), wrap (0 + bfsDy.getD dir 0)) (1, 1) k2 →
            k ≤ k2) ∧
          dd = usize_as_i32 (1 + k))) ∧
    ((emptyState 2).bfs (0, 0) (1, 1) false = [] ↔ ∀ dir : Nat, dir < 5 →
      ¬∃ k, OkPath (emptyState 2).board (emptyState 2).len false
        (wrap (0 + bfsDx.getD dir 0), wrap (0 + bfsDy.getD dir 0)) (1, 1) k) ∧
    (∀ n : Nat, 2 ≤ n → n * n + 1 < 2 ^ 60 →
      ∃ en ∈ (emptyState n).bfs (0, 0) (n - 1, n - 1) false,
        (en : Move × Int).2 = usize_as_i32 (2 * (n - 1))) ∧
    (∀ (s2 : State) (frm2 dst2 : Nat × Nat), s2.len * s2.len + 1 < 2 ^ 60 →
      getCell s2.board dst2.1 dst2.2 ≠ -1 → s2.bfs frm2 dst2 false = [])) :=
  ⟨by decide, claim7_bfs (emptyState 2) (0, 0) (1, 1) false (by decide)⟩
